import Mathlib

/-!
# Dense arrays (`array.c`): a shallow embedding

The Lua binding `array.c` keeps an N-dimensional array of a fixed element
encoding in one packed byte buffer.  This file embeds the C functions as Lean
functions, one definition per C function and one per loop, and proves
properties of them.

Conventions of the embedding

* `int` is 32 bits wide; arithmetic on `int` keeps the low 32 bits in two's
  complement (`wrapInt`).  `/` and `%` on `int` are `Int.tdiv` and `Int.tmod`
  (C rounds towards zero).  `char` is signed, `sizeof(int)` is 4.
* the buffer `data` is a list of bytes (naturals below 256); multi-byte
  objects are little-endian.  An access outside the list is undefined
  behaviour in C and gives `none` / `Outcome.undefined` here.
* `luaL_error` never returns to its caller: a raised error ends the call, and
  `Outcome.raised` carries the state of the argument arrays at that moment.
* a `lua_Number` is a `double` (8 bytes) with a finite value; it is
  represented by that value, a rational.  `float` and `double` are the IEEE 754
  formats binary32 and binary64 (`float_bits`, `float_value`, `double_bits`,
  `double_value`).  What is left open (the size of `long`, the operators on
  `float` and `double`, the string/number coercions of Lua) is collected in
  `Platform`.
* the conversion of a `double` to an integer type discards the fraction.
  Outside the range of the target type C leaves the conversion undefined; the
  value taken is the one x86-64 code gives (`INT_MIN`, `LONG_MIN`).
* `while (1)` in `lm_array_shiftcopy` is run with a step budget (`fuel`);
  theorems state the budget that suffices.
* `Valid` is the representation invariant `l_array` establishes when its
  `int` size computation does not overflow (`l_array_valid`).
* the result of `+=`, `*=` and unary `-` on an element is the mathematical
  result converted to the element type (its low bits are kept).
* a method of two arrays is embedded on a pair of different arrays; the call
  with the same array as both arguments (`a:add(a)`) is embedded by the
  definitions named `..._self`, in which the second buffer is the first.
-/

namespace DenseArrays


/-- Constant `#define MAX_DIMS 8`. -/
def MAX_DIMS : Nat := 8

/-- Largest value of an `int`. -/
def INT_MAX : Int := 2147483647

/-- The `int` a mathematical integer is reduced to: its low 32 bits read in
two's complement. -/
def wrapInt (x : Int) : Int := (x + 2147483648) % 4294967296 - 2147483648

/-- Conversion of a floating value to an integer type discards the fractional
part (rounds towards zero). -/
def trunc (q : ℚ) : Int := Int.tdiv q.num q.den

/-- Conversion of a `double` to `int`, as in `int dim = luaL_checknumber(...)`:
the fractional part is discarded.  For a value outside the range of `int` C
leaves the conversion undefined; the x86-64 conversion instruction then gives
`INT_MIN`, which is the value taken here. -/
def double_to_int (x : ℚ) : Int :=
  if -2147483648 ≤ trunc x ∧ trunc x ≤ 2147483647 then trunc x else -2147483648

/-! ## Floating-point formats

`float` and `double` are the IEEE 754 formats binary32 and binary64.  A format
has a precision `p` (24, 53), `ebits` exponent bits (8, 11) and a least
positive value `2 ^ (-u)` (`u` = 149, 1074).  A bit pattern is the number
`sign * 2 ^ (p - 1 + ebits) + exponent * 2 ^ (p - 1) + fraction`. -/

/-- The magnitude, in units of `2 ^ (-u)`, of the number whose exponent and
fraction fields together are `t`, in a binary format of precision `p`. -/
def ieee_mag (p t : Nat) : Nat :=
  if t < 2 ^ (p - 1) then t else (2 ^ (p - 1) + t % 2 ^ (p - 1)) * 2 ^ (t / 2 ^ (p - 1) - 1)

/-- The value of the bit pattern `bits` in the format with precision `p`,
`ebits` exponent bits and least positive value `2 ^ (-u)`.  Infinities and NaN
are not values of the model. -/
def ieee_decode (p ebits u bits : Nat) : ℚ :=
  (if bits / 2 ^ (p - 1 + ebits) % 2 = 1 then -1 else 1)
    * (ieee_mag p (bits % 2 ^ (p - 1 + ebits)) : ℚ) / 2 ^ u

/-- The bit pattern of `x` rounded to the nearest value of the format, ties to
even (the default rounding); a magnitude beyond the largest value gives the
pattern of infinity. -/
def ieee_encode (p ebits u : Nat) (x : ℚ) : Nat :=
  let num := x.num.natAbs * 2 ^ u
  let n0 := num / x.den
  let shift := Nat.log2 n0 - (p - 1)
  let q := n0 / 2 ^ shift
  let rem := num - q * 2 ^ shift * x.den
  let q2 :=
    if 2 * rem > 2 ^ shift * x.den ∨ (2 * rem = 2 ^ shift * x.den ∧ q % 2 = 1) then q + 1 else q
  (if x < 0 then 2 ^ (p - 1 + ebits) else 0)
    + min (shift * 2 ^ (p - 1) + q2) ((2 ^ ebits - 1) * 2 ^ (p - 1))

/-- A bit pattern of a finite number: the exponent field is not all ones. -/
def ieee_finite (p ebits bits : Nat) : Prop :=
  bits % 2 ^ (p - 1 + ebits) < (2 ^ ebits - 1) * 2 ^ (p - 1)

instance instDecidableIeeeFinite (p ebits bits : Nat) : Decidable (ieee_finite p ebits bits) :=
  inferInstanceAs (Decidable (bits % 2 ^ (p - 1 + ebits) < (2 ^ ebits - 1) * 2 ^ (p - 1)))

/-- The object representation (as a little-endian number) of `(float) x`. -/
def float_bits (x : ℚ) : Nat := ieee_encode 24 8 149 x

/-- The value of the `float` with the given object representation. -/
def float_value (bits : Nat) : ℚ := ieee_decode 24 8 149 bits

/-- The object representation of the `double` (and `lua_Number`) nearest `x`. -/
def double_bits (x : ℚ) : Nat := ieee_encode 53 11 1074 x

/-- The value of the `double` with the given object representation. -/
def double_value (bits : Nat) : ℚ := ieee_decode 53 11 1074 bits

/-- The number `x` is a `float`: the value of a finite bit pattern. -/
def is_float (x : ℚ) : Prop := ∃ bits, ieee_finite 24 8 bits ∧ float_value bits = x

/-- The number `x` is a `double`, as every `lua_Number` is: the value of a
finite bit pattern. -/
def is_double (x : ℚ) : Prop := ∃ bits, ieee_finite 53 11 bits ∧ double_value bits = x

/-- Conversion of the integer `n` to `double`, as in `lua_pushnumber(L, e.l)`:
`n` itself below `2 ^ 53` in magnitude, beyond that the nearest multiple of the
spacing of the doubles around `n`, ties to even. -/
def round_to_double (n : Int) : Int :=
  if n.natAbs < 2 ^ 53 then n
  else
    let k := Nat.log2 n.natAbs - 52
    let q := n.natAbs / 2 ^ k
    let r := n.natAbs % 2 ^ k
    let q2 := if 2 * r > 2 ^ k ∨ (2 * r = 2 ^ k ∧ q % 2 = 1) then q + 1 else q
    (if n < 0 then -1 else 1) * ((q2 * 2 ^ k : Nat) : Int)

/-- What the C source leaves to the platform. -/
structure Platform where
  /-- Value of `sizeof(long)`. -/
  sizeof_long : Nat
  sizeof_long_pos : 0 < sizeof_long
  /-- Operators `+`, `*` and unary `-` on `float` and `double` object representations -/
  float_add : Nat → Nat → Nat
  float_mul : Nat → Nat → Nat
  float_neg : Nat → Nat
  double_add : Nat → Nat → Nat
  double_mul : Nat → Nat → Nat
  double_neg : Nat → Nat
  /-- Lua's coercion of a string to a number (`lua_tonumber` on a string) -/
  lua_str2number : String → Option ℚ
  /-- Lua's coercion of a number to a string (`lua_tolstring` on a number) -/
  lua_number2str : ℚ → String

/-- Lua values that reach the functions of `array.c` as arguments.  `nil`
also stands for an absent argument and for every value that is neither a
boolean, a number nor a string. -/
inductive LuaValue where
  | nil
  | boolean (b : Bool)
  | number (n : ℚ)
  | string (s : String)
  deriving DecidableEq

/-- The errors the source raises, one constructor per message. -/
inductive LuaError where
  /-- raised by `luaL_checknumber`, `luaL_checkstring`, `luaL_checktype` for argument `narg` -/
  | bad_argument (narg : Nat)
  /-- Message "bad type character" -/
  | bad_type_character
  /-- Message "array cannot have more than %d dimensions" -/
  | too_many_dimensions
  /-- Message "negative size" -/
  | negative_size
  /-- Message "cannot allocate memory for array" -/
  | cannot_allocate
  /-- Message "wrong number of arguments" -/
  | wrong_number_of_arguments
  /-- Message "array index #%d out of range" -/
  | index_out_of_range (i : Nat)
  /-- Message "arrays must be of same type" -/
  | not_same_type
  /-- Message "arrays have different number of dimensions" -/
  | different_number_of_dimensions
  /-- Message "array dimension #%d is of different size" -/
  | dimension_of_different_size (i : Nat)
  /-- Message "cannot add two arrays of boolean values" -/
  | cannot_add_boolean
  /-- Message "cannot multiply two arrays of boolean values" -/
  | cannot_multiply_boolean
  /-- Message "cannot negate an array of boolean values" -/
  | cannot_negate_boolean
  /-- Message "cannot negate an array of unsigned values" -/
  | cannot_negate_unsigned
  deriving DecidableEq

/-- The error taxonomy of the specification (section 7). -/
inductive ErrorKind where
  | InvalidEncoding
  | TooManyDimensions
  | NonPositiveExtent
  | AllocationFailure
  | ArityMismatch
  | IndexOutOfRange
  | TypeMismatch
  | ShapeMismatch
  | UnsupportedOperation
  | BadArgument
  deriving DecidableEq

/-- The specification's name for each raised error. -/
def LuaError.kind : LuaError → ErrorKind
  | .bad_argument _ => .BadArgument
  | .bad_type_character => .InvalidEncoding
  | .too_many_dimensions => .TooManyDimensions
  | .negative_size => .NonPositiveExtent
  | .cannot_allocate => .AllocationFailure
  | .wrong_number_of_arguments => .ArityMismatch
  | .index_out_of_range _ => .IndexOutOfRange
  | .not_same_type => .TypeMismatch
  | .different_number_of_dimensions => .ShapeMismatch
  | .dimension_of_different_size _ => .ShapeMismatch
  | .cannot_add_boolean => .UnsupportedOperation
  | .cannot_multiply_boolean => .UnsupportedOperation
  | .cannot_negate_boolean => .UnsupportedOperation
  | .cannot_negate_unsigned => .UnsupportedOperation

/-- How a call of a Lua-callable function ends.  `s` is the state of the
arrays passed to the call. -/
inductive Outcome (σ α : Type) where
  /-- the function returned `x` -/
  | returned (x : α) (s : σ)
  /-- Either `luaL_error` (or a failed `luaL_check*`) ended the call -/
  | raised (e : LuaError) (s : σ)
  /-- the call accessed memory outside a buffer, shifted by a negative
  amount or divided by zero: undefined behaviour -/
  | undefined
  /-- the loop was still running when the step budget was used up -/
  | unfinished
  deriving DecidableEq

instance instDecidableEqExcept {ε α : Type} [DecidableEq ε] [DecidableEq α] :
    DecidableEq (Except ε α) := fun x y =>
  match x, y with
  | .ok a, .ok b => if h : a = b then isTrue (by rw [h]) else isFalse (by intro h2; cases h2; exact h rfl)
  | .error a, .error b =>
    if h : a = b then isTrue (by rw [h]) else isFalse (by intro h2; cases h2; exact h rfl)
  | .ok _, .error _ => isFalse (by intro h2; cases h2)
  | .error _, .ok _ => isFalse (by intro h2; cases h2)

/-- Embeds `luaA_Array`.  `dims` holds the slots of `dims[MAX_DIMS]` that were
written; `data` is the buffer `data` points to. -/
structure luaA_Array where
  type : Char
  ndims : Nat
  dims : List Int
  datasize : Int
  data : List Nat
  deriving DecidableEq

/-- Embeds `luaA_ArrayElement`: the value of the union member that the array type
selects.  For the members `f`, `d`, `n` it is the member's object
representation, for the others the integer held. -/
abbrev luaA_ArrayElement := Int

/-- The C element types named by the rows of `TYPESWITCH`. -/
inductive CType where
  | char
  | unsigned_char
  | short
  | unsigned_short
  | long
  | unsigned_long
  | float
  | double
  | lua_Number
  deriving DecidableEq

/-- The cases of the macro `TYPESWITCH`: the C type each type character selects. -/
def TYPESWITCH (type : Char) : Option CType :=
  match type with
  | 'c' => some .char
  | 'C' => some .unsigned_char
  | 's' => some .short
  | 'S' => some .unsigned_short
  | 'l' => some .long
  | 'L' => some .unsigned_long
  | 'f' => some .float
  | 'd' => some .double
  | 'n' => some .lua_Number
  | _ => none

/-- Value of `sizeof(type)`. -/
def sizeof (P : Platform) : CType → Nat
  | .char => 1
  | .unsigned_char => 1
  | .short => 2
  | .unsigned_short => 2
  | .long => P.sizeof_long
  | .unsigned_long => P.sizeof_long
  | .float => 4
  | .double => 8
  | .lua_Number => 8

/-- Conversion of a `double` to `long`: the fractional part is discarded; a
value outside the range of `long`, for which C leaves the conversion
undefined, gives `LONG_MIN` (the result of the x86-64 conversion instruction). -/
def double_to_long (P : Platform) (x : ℚ) : Int :=
  if -(2 : Int) ^ (8 * P.sizeof_long - 1) ≤ trunc x ∧ trunc x < (2 : Int) ^ (8 * P.sizeof_long - 1)
  then trunc x
  else -(2 : Int) ^ (8 * P.sizeof_long - 1)

/-- Conversion of a `double` to `unsigned long`: the fractional part is
discarded.  C defines the result for values in `(-1, ULONG_MAX + 1)`; outside
that range the value is the one of the instruction sequence compilers emit
for x86-64: the signed conversion, read as unsigned, below `2 ^ 63`, and
`2 ^ 63` more than the signed conversion of `x - 2 ^ 63` from there on. -/
def double_to_unsigned_long (P : Platform) (x : ℚ) : Int :=
  if trunc x < -(2 : Int) ^ (8 * P.sizeof_long - 1) then (2 : Int) ^ (8 * P.sizeof_long - 1)
  else if trunc x < (2 : Int) ^ (8 * P.sizeof_long) then trunc x % (2 : Int) ^ (8 * P.sizeof_long)
  else 0

/-- Whether an object of the type is read as a signed integer (`char` is
signed).  The floating types are carried as their object representation. -/
def CType.signed : CType → Bool
  | .char => true
  | .short => true
  | .long => true
  | _ => false

/-- Whether the type is a floating type. -/
def CType.floating : CType → Bool
  | .float => true
  | .double => true
  | .lua_Number => true
  | _ => false

/-! ## The buffer -/

/-- Read the byte at offset `off`. -/
def peek (data : List Nat) (off : Int) : Option Nat :=
  if 0 ≤ off then data[off.toNat]? else none

/-- Write the byte at offset `off`. -/
def poke (data : List Nat) (off : Int) (b : Nat) : Option (List Nat) :=
  if 0 ≤ off ∧ off.toNat < data.length then some (data.set off.toNat b) else none

/-- Read the `w`-byte object at offset `off` as an unsigned little-endian number. -/
def load (data : List Nat) : Int → Nat → Option Nat
  | _, 0 => some 0
  | off, w + 1 =>
    match peek data off with
    | none => none
    | some b =>
      match load data (off + 1) w with
      | none => none
      | some r => some (b + 256 * r)

/-- Write the low `w` bytes of `v` at offset `off`, little-endian. -/
def store (data : List Nat) : Int → Nat → Nat → Option (List Nat)
  | _, 0, _ => some data
  | off, w + 1, v =>
    match poke data off (v % 256) with
    | none => none
    | some data2 => store data2 (off + 1) w (v / 256)

/-- Read of `((type*)data)[index]`: the value of the object, an integer for the
integer types and the object representation for the floating types. -/
def read_as (P : Platform) (T : CType) (data : List Nat) (index : Int) : Option Int :=
  match load data (index * sizeof P T) (sizeof P T) with
  | none => none
  | some raw =>
    if T.signed ∧ 2 ^ (8 * sizeof P T - 1) ≤ raw then
      some ((raw : Int) - (2 : Int) ^ (8 * sizeof P T))
    else some (raw : Int)

/-- Assignment `((type*)data)[index] = v`: `v` is converted to the type (its low
`8 * sizeof(type)` bits are kept) and stored. -/
def write_as (P : Platform) (T : CType) (data : List Nat) (index : Int) (v : Int) :
    Option (List Nat) :=
  store data (index * sizeof P T) (sizeof P T) (v % (2 : Int) ^ (8 * sizeof P T)).toNat

/-! ## Convenient functions for working with arrays -/

/-- Embeds `check_type_compatible` -/
def check_type_compatible (a1 a2 : luaA_Array) : Except LuaError Unit :=
  if a1.type ≠ a2.type then .error .not_same_type else .ok ()

/-- The loop of `check_size_compatible`, from dimension `i` with `n` iterations to go. -/
def check_size_loop (a1 a2 : luaA_Array) : Nat → Nat → Except LuaError Unit
  | 0, _ => .ok ()
  | n + 1, i =>
    if a1.dims.getD i 0 ≠ a2.dims.getD i 0 then .error (.dimension_of_different_size (i + 1))
    else check_size_loop a1 a2 n (i + 1)

/-- Embeds `check_size_compatible` -/
def check_size_compatible (a1 a2 : luaA_Array) : Except LuaError Unit :=
  if a1.ndims ≠ a2.ndims then .error .different_number_of_dimensions
  else check_size_loop a1 a2 a1.ndims 0

/-- Embeds `calculate_index`: the loop state is `(index, size)`. -/
def calculate_index (a : luaA_Array) (coords : List Int) : Int :=
  ((List.range a.ndims).foldl
    (fun (st : Int × Int) i =>
      (wrapInt (st.1 + wrapInt (coords.getD i 0 * st.2)), wrapInt (st.2 * a.dims.getD i 0)))
    (0, 1)).1

/-- Embeds `calculate_total_size` -/
def calculate_total_size (a : luaA_Array) : Int :=
  (List.range a.ndims).foldl (fun total d => wrapInt (total * a.dims.getD d 0)) 1

/-- Embeds `extract_element`.  `none` is undefined behaviour.  For a type character
with no case the destination is not written; the result is then 0. -/
def extract_element (P : Platform) (a : luaA_Array) (index : Int) : Option luaA_ArrayElement :=
  match TYPESWITCH a.type with
  | some T => read_as P T a.data index
  | none =>
    match a.type with
    | 'B' => read_as P .char a.data index
    | 'b' =>
      if Int.tmod index 8 < 0 then none
      else
        match peek a.data (Int.tdiv index 8) with
        | none => none
        | some byte => some (if byte &&& (1 <<< (Int.tmod index 8).toNat) ≠ 0 then 1 else 0)
    | _ => some 0

/-- Embeds `insert_element`.  `none` is undefined behaviour. -/
def insert_element (P : Platform) (a : luaA_Array) (index : Int) (src : luaA_ArrayElement) :
    Option luaA_Array :=
  match TYPESWITCH a.type with
  | some T => (write_as P T a.data index src).map (fun d => { a with data := d })
  | none =>
    match a.type with
    | 'B' => (write_as P .char a.data index src).map (fun d => { a with data := d })
    | 'b' =>
      if Int.tmod index 8 < 0 then none
      else
        match peek a.data (Int.tdiv index 8) with
        | none => none
        | some byte =>
          let byte2 :=
            if src ≠ 0 then byte ||| (1 <<< (Int.tmod index 8).toNat)
            else byte &&& (255 ^^^ (1 <<< (Int.tmod index 8).toNat))
          (poke a.data (Int.tdiv index 8) (byte2 % 256)).map (fun d => { a with data := d })
    | _ => some a

/-- Embeds `type_size_in_bits` -/
def type_size_in_bits (P : Platform) (type : Char) : Int :=
  match TYPESWITCH type with
  | some T => (sizeof P T * 8 : Nat)
  | none =>
    match type with
    | 'B' => 8
    | 'b' => 1
    | _ => 0

/-- Embeds `luaL_checknumber(L, narg)` on the value in slot `narg`. -/
def luaL_checknumber (P : Platform) (v : LuaValue) (narg : Nat) : Except LuaError ℚ :=
  match v with
  | .number n => .ok n
  | .string s =>
    match P.lua_str2number s with
    | some n => .ok n
    | none => .error (.bad_argument narg)
  | _ => .error (.bad_argument narg)

/-- Embeds `luaL_checkstring(L, narg)` on the value in slot `narg`. -/
def luaL_checkstring (P : Platform) (v : LuaValue) (narg : Nat) : Except LuaError String :=
  match v with
  | .string s => .ok s
  | .number n => .ok (P.lua_number2str n)
  | _ => .error (.bad_argument narg)

/-- Conversion of an integer to the integer type `T`: the low `8 * sizeof(T)`
bits are kept and read in two's complement when `T` is signed. -/
def to_type (P : Platform) (T : CType) (v : Int) : Int :=
  if T.signed then
    (v + (2 : Int) ^ (8 * sizeof P T - 1)) % (2 : Int) ^ (8 * sizeof P T)
      - (2 : Int) ^ (8 * sizeof P T - 1)
  else v % (2 : Int) ^ (8 * sizeof P T)

/-- Conversion of a `lua_Number` to the element type, as in
`e.umember = luaL_checknumber(...)`.  For `char`, `short` and their unsigned
versions the value is converted to `int` and the low bits of that `int` are
kept; for `long` and `unsigned long` it is converted to that type; for
`float` it is rounded to a `float`. -/
def convert (P : Platform) (T : CType) (x : ℚ) : luaA_ArrayElement :=
  match T with
  | .float => (float_bits x : Nat)
  | .double => (double_bits x : Nat)
  | .lua_Number => (double_bits x : Nat)
  | .long => double_to_long P x
  | .unsigned_long => double_to_unsigned_long P x
  | T => to_type P T (double_to_int x)

/-- Embeds `luaA_checkarrayelement(L, narg, type)` on the value in slot `narg`. -/
def luaA_checkarrayelement (P : Platform) (v : LuaValue) (narg : Nat) (type : Char) :
    Except LuaError luaA_ArrayElement :=
  match TYPESWITCH type with
  | some T =>
    match luaL_checknumber P v narg with
    | .error e => .error e
    | .ok x => .ok (convert P T x)
  | none =>
    match type with
    | 'B' =>
      match v with
      | .boolean b => .ok (if b then 1 else 0)
      | _ => .error (.bad_argument narg)
    | 'b' =>
      match v with
      | .boolean b => .ok (if b then 1 else 0)
      | _ => .error (.bad_argument narg)
    | _ => .ok 0

/-- The `lua_Number` pushed for an element of type `T`: conversion of the
member to `double`, which rounds an integer beyond `2 ^ 53` in magnitude. -/
def to_number (T : CType) (e : luaA_ArrayElement) : ℚ :=
  match T with
  | .float => float_value e.toNat
  | .double => double_value e.toNat
  | .lua_Number => double_value e.toNat
  | _ => (round_to_double e : Int)

/-- Embeds `luaA_pusharrayelement`: the value pushed.  For a type character with no
case nothing is pushed; the result is then `nil`. -/
def luaA_pusharrayelement (e : luaA_ArrayElement) (type : Char) : LuaValue :=
  match TYPESWITCH type with
  | some T => .number (to_number T e)
  | none =>
    match type with
    | 'B' => .boolean (e ≠ 0)
    | 'b' => .boolean (e ≠ 0)
    | _ => .nil

/-- The loop of `luaA_checkcoords` from dimension `i` with `n` iterations to
go; `args` are the stack slots from slot 2 on. -/
def checkcoords_loop (P : Platform) (array : luaA_Array) (args : List LuaValue) :
    Nat → Nat → Except LuaError (List Int)
  | 0, _ => .ok []
  | n + 1, i =>
    match luaL_checknumber P (args.getD i .nil) (2 + i) with
    | .error e => .error e
    | .ok x =>
      let coord := double_to_int x
      if coord < 1 ∨ coord > array.dims.getD i 0 then .error (.index_out_of_range (i + 1))
      else
        match checkcoords_loop P array args n (i + 1) with
        | .error e => .error e
        | .ok coords => .ok (wrapInt (coord - 1) :: coords)

/-- Embeds `luaA_checkcoords`: the coordinates written to `coords`. -/
def luaA_checkcoords (P : Platform) (array : luaA_Array) (args : List LuaValue) :
    Except LuaError (List Int) :=
  checkcoords_loop P array args array.ndims 0

/-! ## Interface to Lua -/

/-- Embeds `strlen`: the bytes before the first NUL. -/
def strlen (s : String) : Nat :=
  ((s.toList.takeWhile (fun c => c ≠ Char.ofNat 0)).map Char.utf8Size).sum

/-- The `switch` of `l_array`: the accepted type characters. -/
def is_type_character (type : Char) : Bool :=
  match type with
  | 'c' => true
  | 'C' => true
  | 's' => true
  | 'S' => true
  | 'l' => true
  | 'L' => true
  | 'f' => true
  | 'd' => true
  | 'n' => true
  | 'b' => true
  | 'B' => true
  | _ => false

/-- An `int` converted to `size_t` (64 bits). -/
def size_t (x : Int) : Nat := (x % 2 ^ 64).toNat

/-- The allocator: for a request of `n` bytes either failure or the bytes
found in the fresh block. -/
abbrev Malloc := Nat → Option (Nat → Nat)

/-- The contents of a fresh block of `n` bytes. -/
def fresh_block (g : Nat → Nat) (n : Nat) : List Nat := (List.range n).map (fun i => g i % 256)

/-- The loop of `l_array` over the sizes, from `i` with `n` iterations to go;
`args` are the stack slots from slot 1 on.  Result: `dims` and `totalsize`. -/
def l_array_loop (P : Platform) (args : List LuaValue) :
    Nat → Nat → Int → Except LuaError (List Int × Int)
  | 0, _, totalsize => .ok ([], totalsize)
  | n + 1, i, totalsize =>
    match luaL_checknumber P (args.getD (i + 1) .nil) (i + 2) with
    | .error e => .error e
    | .ok x =>
      let dim := double_to_int x
      if dim ≤ 0 then .error .negative_size
      else
        match l_array_loop P args n (i + 1) (wrapInt (totalsize * dim)) with
        | .error e => .error e
        | .ok (dims, total) => .ok (dim :: dims, total)

/-- Embeds `l_array`: `array.array(type, size_1, ..., size_n)`. -/
def l_array (P : Platform) (malloc : Malloc) (args : List LuaValue) :
    Except LuaError luaA_Array :=
  match luaL_checkstring P (args.getD 0 .nil) 1 with
  | .error e => .error e
  | .ok typestr =>
    if strlen typestr ≠ 1 then .error .bad_type_character
    else
      let type := typestr.toList.headD (Char.ofNat 0)
      if is_type_character type = false then .error .bad_type_character
      else
        let ndims := args.length - 1
        if ndims > MAX_DIMS then .error .too_many_dimensions
        else
          match l_array_loop P args ndims 0 1 with
          | .error e => .error e
          | .ok (dims, totalsize) =>
            let typebits := type_size_in_bits P type
            let size := wrapInt (Int.tdiv (wrapInt (totalsize * typebits)) 8 + 1)
            match malloc (size_t size) with
            | none => .error .cannot_allocate
            | some _ =>
              .ok { type := type, ndims := ndims, dims := dims, datasize := size,
                    data := List.replicate (size_t size) 0 }

/-- Embeds `lm_array_set`: `a:set(i_1, ..., i_n, value)`; `args` are the stack
slots from slot 2 on. -/
def lm_array_set (P : Platform) (array : luaA_Array) (args : List LuaValue) :
    Outcome luaA_Array Unit :=
  if 1 + args.length ≠ 2 + array.ndims then .raised .wrong_number_of_arguments array
  else
    match luaA_checkcoords P array args with
    | .error e => .raised e array
    | .ok coords =>
      let index := calculate_index array coords
      match luaA_checkarrayelement P (args.getD array.ndims .nil) (2 + array.ndims) array.type with
      | .error e => .raised e array
      | .ok e =>
        match insert_element P array index e with
        | none => .undefined
        | some array2 => .returned () array2

/-- Embeds `lm_array_get`: `a:get(i_1, ..., i_n)`. -/
def lm_array_get (P : Platform) (array : luaA_Array) (args : List LuaValue) :
    Outcome luaA_Array LuaValue :=
  if 1 + args.length ≠ 1 + array.ndims then .raised .wrong_number_of_arguments array
  else
    match luaA_checkcoords P array args with
    | .error e => .raised e array
    | .ok coords =>
      let index := calculate_index array coords
      match extract_element P array index with
      | none => .undefined
      | some e => .returned (luaA_pusharrayelement e array.type) array

/-- The loop of `lm_array_clear` that stores `c` at every offset, from `i`
with `n` iterations to go. -/
def clear_loop (P : Platform) (c : luaA_ArrayElement) : Nat → Int → luaA_Array → Option luaA_Array
  | 0, _, array => some array
  | n + 1, i, array =>
    match insert_element P array i c with
    | none => none
    | some array2 => clear_loop P c n (i + 1) array2

/-- Embeds `bzero(data, n)` -/
def bzero (data : List Nat) (n : Nat) : Option (List Nat) :=
  if n ≤ data.length then some (List.replicate n 0 ++ data.drop n) else none

/-- Embeds `lm_array_clear`: `a:clear([value])`. -/
def lm_array_clear (P : Platform) (array : luaA_Array) (args : List LuaValue) :
    Outcome luaA_Array Unit :=
  if 1 + args.length > 1 then
    match luaA_checkarrayelement P (args.getD 0 .nil) 2 array.type with
    | .error e => .raised e array
    | .ok c =>
      let count := calculate_total_size array
      match clear_loop P c count.toNat 0 array with
      | none => .undefined
      | some array2 => .returned () array2
  else
    match bzero array.data (size_t array.datasize) with
    | none => .undefined
    | some d => .returned () { array with data := d }

/-- A loop `for (j = 0; j < n; j++) d[j] = f(j, d[j])` over the `int`-sized
words of a buffer, from word `j` with `n` iterations to go.  `f` gives
`none` when computing the new word is undefined. -/
def word_loop (f : Nat → Nat → Option Nat) : Nat → Nat → List Nat → Option (List Nat)
  | 0, _, d => some d
  | n + 1, j, d =>
    match load d (4 * (j : Int)) 4 with
    | none => none
    | some x =>
      match f j x with
      | none => none
      | some y =>
        match store d (4 * (j : Int)) 4 y with
        | none => none
        | some d2 => word_loop f n (j + 1) d2

/-- A loop `for (k = 0; k < n; k++) cd[base + k] = f(base + k, cd[base + k])`
over single bytes, from `k` with `n` iterations to go. -/
def byte_loop (f : Nat → Nat → Option Nat) (base : Nat) : Nat → Nat → List Nat → Option (List Nat)
  | 0, _, d => some d
  | n + 1, k, d =>
    match peek d ((base + k : Nat) : Int) with
    | none => none
    | some x =>
      match f (base + k) x with
      | none => none
      | some y =>
        match poke d ((base + k : Nat) : Int) (y % 256) with
        | none => none
        | some d2 => byte_loop f base n (k + 1) d2

/-- The two loops shared by `lm_array_bor`, `lm_array_band`, `lm_array_bxor`:
`datasize / sizeof(int)` word steps, then `datasize % sizeof(int)` byte steps
that start at byte `j * sizeof(int)`, each combining with the same place of `d2`. -/
def bitwise_pass (op : Nat → Nat → Nat) (datasize : Int) (d1 d2 : List Nat) :
    Option (List Nat) :=
  match word_loop (fun j x => (load d2 (4 * (j : Int)) 4).map (fun y => op x y))
      (size_t datasize / 4) 0 d1 with
  | none => none
  | some d =>
    byte_loop (fun i x => (peek d2 (i : Int)).map (fun y => op x y))
      (size_t datasize / 4 * 4) (size_t datasize % 4) 0 d

/-- The common body of the three binary bitwise functions. -/
def lm_array_bitwise (op : Nat → Nat → Nat) (a1 a2 : luaA_Array) :
    Outcome (luaA_Array × luaA_Array) Unit :=
  match check_type_compatible a1 a2 with
  | .error e => .raised e (a1, a2)
  | .ok _ =>
    match check_size_compatible a1 a2 with
    | .error e => .raised e (a1, a2)
    | .ok _ =>
      match bitwise_pass op a1.datasize a1.data a2.data with
      | none => .undefined
      | some d => .returned () ({ a1 with data := d }, a2)

/-- Embeds `lm_array_bor`: `a1:bor(a2)` -/
def lm_array_bor (a1 a2 : luaA_Array) : Outcome (luaA_Array × luaA_Array) Unit :=
  lm_array_bitwise (fun x y => x ||| y) a1 a2

/-- Embeds `lm_array_band`: `a1:band(a2)` -/
def lm_array_band (a1 a2 : luaA_Array) : Outcome (luaA_Array × luaA_Array) Unit :=
  lm_array_bitwise (fun x y => x &&& y) a1 a2

/-- Embeds `lm_array_bxor`: `a1:bxor(a2)` -/
def lm_array_bxor (a1 a2 : luaA_Array) : Outcome (luaA_Array × luaA_Array) Unit :=
  lm_array_bitwise (fun x y => x ^^^ y) a1 a2

/-- Embeds `lm_array_bnot`: `a:bnot()`.  `~` flips the 32 bits of a word and the 8
bits of a byte. -/
def lm_array_bnot (a : luaA_Array) : Outcome luaA_Array Unit :=
  match word_loop (fun _ x => some (x ^^^ 4294967295)) (size_t a.datasize / 4) 0 a.data with
  | none => .undefined
  | some d =>
    match byte_loop (fun _ x => some (x ^^^ 255)) (size_t a.datasize / 4 * 4)
        (size_t a.datasize % 4) 0 d with
    | none => .undefined
    | some d2 => .returned () { a with data := d2 }

/-- Value of `x + y` in the element type `T` (before the result is stored). -/
def elem_add (P : Platform) (T : CType) (x y : Int) : Int :=
  match T with
  | .float => P.float_add x.toNat y.toNat
  | .double => P.double_add x.toNat y.toNat
  | .lua_Number => P.double_add x.toNat y.toNat
  | _ => x + y

/-- Value of `x * y` in the element type `T`. -/
def elem_mul (P : Platform) (T : CType) (x y : Int) : Int :=
  match T with
  | .float => P.float_mul x.toNat y.toNat
  | .double => P.double_mul x.toNat y.toNat
  | .lua_Number => P.double_mul x.toNat y.toNat
  | _ => x * y

/-- Value of `-x` in the element type `T`. -/
def elem_neg (P : Platform) (T : CType) (x : Int) : Int :=
  match T with
  | .float => P.float_neg x.toNat
  | .double => P.double_neg x.toNat
  | .lua_Number => P.double_neg x.toNat
  | _ => -x

/-- The element loop of `lm_array_add` and `lm_array_multiply`:
`((type*)d1)[i] = op(((type*)d1)[i], ((type*)d2)[i])` from offset `i` with `n`
iterations to go.  With no `TYPESWITCH` case the body does nothing. -/
def arith_loop (P : Platform) (type : Char) (op : CType → Int → Int → Int) (d2 : List Nat) :
    Nat → Int → List Nat → Option (List Nat)
  | 0, _, d1 => some d1
  | n + 1, i, d1 =>
    match TYPESWITCH type with
    | none => arith_loop P type op d2 n (i + 1) d1
    | some T =>
      match read_as P T d1 i with
      | none => none
      | some x =>
        match read_as P T d2 i with
        | none => none
        | some y =>
          match write_as P T d1 i (op T x y) with
          | none => none
          | some d => arith_loop P type op d2 n (i + 1) d

/-- Embeds `lm_array_add`: `a1:add(a2)` -/
def lm_array_add (P : Platform) (a1 a2 : luaA_Array) : Outcome (luaA_Array × luaA_Array) Unit :=
  match check_type_compatible a1 a2 with
  | .error e => .raised e (a1, a2)
  | .ok _ =>
    match check_size_compatible a1 a2 with
    | .error e => .raised e (a1, a2)
    | .ok _ =>
      if a1.type = 'b' ∨ a1.type = 'B' then .raised .cannot_add_boolean (a1, a2)
      else
        match arith_loop P a1.type (elem_add P) a2.data (calculate_total_size a1).toNat 0
            a1.data with
        | none => .undefined
        | some d => .returned () ({ a1 with data := d }, a2)

/-- Embeds `lm_array_multiply`: `a1:multiply(a2)` -/
def lm_array_multiply (P : Platform) (a1 a2 : luaA_Array) :
    Outcome (luaA_Array × luaA_Array) Unit :=
  match check_type_compatible a1 a2 with
  | .error e => .raised e (a1, a2)
  | .ok _ =>
    match check_size_compatible a1 a2 with
    | .error e => .raised e (a1, a2)
    | .ok _ =>
      if a1.type = 'b' ∨ a1.type = 'B' then .raised .cannot_multiply_boolean (a1, a2)
      else
        match arith_loop P a1.type (elem_mul P) a2.data (calculate_total_size a1).toNat 0
            a1.data with
        | none => .undefined
        | some d => .returned () ({ a1 with data := d }, a2)

/-- The element loop of `lm_array_negate`. -/
def negate_loop (P : Platform) (type : Char) : Nat → Int → List Nat → Option (List Nat)
  | 0, _, d => some d
  | n + 1, i, d =>
    match TYPESWITCH type with
    | none => negate_loop P type n (i + 1) d
    | some T =>
      match read_as P T d i with
      | none => none
      | some x =>
        match write_as P T d i (elem_neg P T x) with
        | none => none
        | some d2 => negate_loop P type n (i + 1) d2

/-- Embeds `lm_array_negate`: `a:negate()` -/
def lm_array_negate (P : Platform) (a : luaA_Array) : Outcome luaA_Array Unit :=
  if a.type = 'b' ∨ a.type = 'B' then .raised .cannot_negate_boolean a
  else if a.type = 'C' ∨ a.type = 'S' ∨ a.type = 'L' then .raised .cannot_negate_unsigned a
  else
    match negate_loop P a.type (calculate_total_size a).toNat 0 a.data with
    | none => .undefined
    | some d => .returned () { a with data := d }

/-- Embeds `lm_array_copy`: `a:copy()`.  The result is the new array; the state is `a`. -/
def lm_array_copy (malloc : Malloc) (a : luaA_Array) : Outcome luaA_Array luaA_Array :=
  match malloc (size_t a.datasize) with
  | none => .raised .cannot_allocate a
  | some _ =>
    if size_t a.datasize ≤ a.data.length then
      .returned { a with data := a.data.take (size_t a.datasize) } a
    else .undefined

/-- The loop of `lm_array_shiftcopy` that reads the shifts, from `d` with `n`
iterations to go; `args` are the stack slots from slot 2 on. -/
def shifts_loop (P : Platform) (args : List LuaValue) : Nat → Nat → Except LuaError (List Int)
  | 0, _ => .ok []
  | n + 1, d =>
    match luaL_checknumber P (args.getD d .nil) (d + 2) with
    | .error e => .error e
    | .ok x =>
      match shifts_loop P args n (d + 1) with
      | .error e => .error e
      | .ok shifts => .ok (double_to_int x :: shifts)

/-- The loop that fills `location2`, from `d` with `n` iterations to go.
`%` by zero is undefined. -/
def location2_loop (a : luaA_Array) (shifts location : List Int) : Nat → Nat → Option (List Int)
  | 0, _ => some []
  | n + 1, d =>
    if a.dims.getD d 0 = 0 then none
    else
      match location2_loop a shifts location n (d + 1) with
      | none => none
      | some rest =>
        some (Int.tmod (wrapInt (location.getD d 0 + shifts.getD d 0)) (a.dims.getD d 0) :: rest)

/-- The inner `for` loop that steps `location` to the next point, from `d`
with `n` iterations to go.  `none`: the loop ended with `d == a->ndims`. -/
def advance (a : luaA_Array) (location : List Int) : Nat → Nat → Option (List Int)
  | 0, _ => none
  | n + 1, d =>
    if location.getD d 0 ≠ wrapInt (a.dims.getD d 0 - 1) then
      some (List.replicate d 0 ++ (location.set d (wrapInt (location.getD d 0 + 1))).drop d)
    else advance a location n (d + 1)

/-- The `while (1)` loop of `lm_array_shiftcopy`, run for at most `fuel` iterations. -/
def shiftcopy_loop (P : Platform) (a : luaA_Array) (shifts : List Int) :
    Nat → luaA_Array → List Int → Outcome luaA_Array luaA_Array
  | 0, _, _ => .unfinished
  | fuel + 1, a2, location =>
    match location2_loop a shifts location a.ndims 0 with
    | none => .undefined
    | some location2 =>
      let index := calculate_index a location
      let index2 := calculate_index a2 location2
      match extract_element P a index with
      | none => .undefined
      | some buffer =>
        match insert_element P a2 index2 buffer with
        | none => .undefined
        | some a3 =>
          match advance a location a.ndims 0 with
          | none => .returned a3 a
          | some location3 => shiftcopy_loop P a shifts fuel a3 location3

/-- Embeds `lm_array_shiftcopy`: `a:shiftcopy(shift_1, ..., shift_n)`, with the
`while` loop run for at most `fuel` iterations.  The result is the new array;
the state is `a`. -/
def lm_array_shiftcopy (P : Platform) (malloc : Malloc) (fuel : Nat) (a : luaA_Array)
    (args : List LuaValue) : Outcome luaA_Array luaA_Array :=
  match shifts_loop P args a.ndims 0 with
  | .error e => .raised e a
  | .ok shifts =>
    match malloc (size_t a.datasize) with
    | none => .raised .cannot_allocate a
    | some g =>
      shiftcopy_loop P a shifts fuel { a with data := fresh_block g (size_t a.datasize) }
        (List.replicate MAX_DIMS 0)

/-! ## Evaluation on small inputs -/

/-- A platform with 8-byte `long`; its operators on `float` and `double` are
stand-ins that are not used by the examples. -/
def lp64 : Platform where
  sizeof_long := 8
  sizeof_long_pos := by decide
  float_add := fun _ _ => 0
  float_mul := fun _ _ => 0
  float_neg := fun _ => 0
  double_add := fun _ _ => 0
  double_mul := fun _ _ => 0
  double_neg := fun _ => 0
  lua_str2number := fun _ => none
  lua_number2str := fun _ => ""

/-- An allocator that always succeeds and hands out blocks filled with `0xAA`. -/
def malloc_ok : Malloc := fun _ => some (fun _ => 170)

/-- The Lua number with integer value `n`. -/
def num (n : Int) : LuaValue := .number (n : ℚ)

/-! ## The linear offset of the specification -/

/-- The stride of dimension `i` in the words of the specification:
`stride_0 = 1` and `stride_i = stride_(i-1) * extent_(i-1)`. -/
def spec_stride (extents : List Int) : Nat → Int
  | 0 => 1
  | i + 1 => spec_stride extents i * extents.getD i 0

/-- The linear offset in the words of the specification: the sum over the
first `n` dimensions of `coord_i * stride_i`. -/
def spec_linear_offset (extents coords : List Int) (n : Nat) : Int :=
  ((List.range n).map (fun i => coords.getD i 0 * spec_stride extents i)).sum

/-- A coordinate tuple lies inside the shape: `0 ≤ coord_i < extent_i` in
each of the first `n` dimensions. -/
def in_range (extents coords : List Int) (n : Nat) : Prop :=
  ∀ i, i < n → 0 ≤ coords.getD i 0 ∧ coords.getD i 0 < extents.getD i 0

/-! ## Definitions used to state the properties -/

/-- The representation invariant of an array built by `l_array` without
overflow of the `int` size computation: a known type character, at most
`MAX_DIMS` dimensions, each extent a positive `int`, an element count whose bit
size fits an `int`, and a buffer of `datasize` bytes (each below 256) where
`datasize` is the value computed by `l_array`. -/
structure Valid (P : Platform) (a : luaA_Array) : Prop where
  type_ok : is_type_character a.type = true
  ndims_le : a.ndims ≤ MAX_DIMS
  dims_pos : ∀ i, i < a.ndims → 1 ≤ a.dims.getD i 0
  dims_int : ∀ i, i < a.ndims → a.dims.getD i 0 ≤ INT_MAX
  fits : spec_stride a.dims a.ndims * type_size_in_bits P a.type ≤ INT_MAX
  datasize_eq : a.datasize = spec_stride a.dims a.ndims * type_size_in_bits P a.type / 8 + 1
  data_len : (a.data.length : Int) = a.datasize
  bytes : ∀ b, b ∈ a.data → b < 256

instance instDecidableValid (P : Platform) (a : luaA_Array) : Decidable (Valid P a) :=
  decidable_of_iff
    (is_type_character a.type = true ∧ a.ndims ≤ MAX_DIMS
      ∧ (∀ i, i < a.ndims → 1 ≤ a.dims.getD i 0)
      ∧ (∀ i, i < a.ndims → a.dims.getD i 0 ≤ INT_MAX)
      ∧ spec_stride a.dims a.ndims * type_size_in_bits P a.type ≤ INT_MAX
      ∧ a.datasize = spec_stride a.dims a.ndims * type_size_in_bits P a.type / 8 + 1
      ∧ (a.data.length : Int) = a.datasize
      ∧ ∀ b, b ∈ a.data → b < 256)
    ⟨fun h => ⟨h.1, h.2.1, h.2.2.1, h.2.2.2.1, h.2.2.2.2.1, h.2.2.2.2.2.1, h.2.2.2.2.2.2.1,
        h.2.2.2.2.2.2.2⟩,
      fun h => ⟨h.1, h.2, h.3, h.4, h.5, h.6, h.7, h.8⟩⟩

/-- The value an element has when it is read back after `insert_element`
stored `e`: `e` converted to the element type. -/
def elem_norm (P : Platform) (type : Char) (e : luaA_ArrayElement) : luaA_ArrayElement :=
  match TYPESWITCH type with
  | some T => to_type P T e
  | none =>
    match type with
    | 'B' => to_type P .char e
    | 'b' => if e ≠ 0 then 1 else 0
    | _ => 0

/-- The arguments a Lua caller passes for the coordinate tuple `c` (counted
from 0): the numbers `c_i + 1`. -/
def lua_coords (c : List Int) : List LuaValue := c.map (fun x => num (x + 1))

/-- A value `set` accepts for an array of the given type: a boolean for the
two boolean encodings, a number for the numeric ones. -/
def valid_value (type : Char) (v : LuaValue) : Prop :=
  match v with
  | .boolean _ => type = 'b' ∨ type = 'B'
  | .number _ => (TYPESWITCH type).isSome = true
  | _ => False

/-- Wraparound to the width and signedness of the integer type `T`: the
representative of `v` modulo `2 ^ width` in `[-2^(width-1), 2^(width-1))` for a
signed type and in `[0, 2^width)` for an unsigned one. -/
def spec_wrap (P : Platform) (T : CType) (v : Int) : Int :=
  if T.signed then Int.bmod v (2 ^ (8 * sizeof P T)) else v % (2 : Int) ^ (8 * sizeof P T)

/-- The values for which C defines the conversion that `set` and `clear`
apply, or for which compiled code behaves as if it were defined: a number
stored in an 8- or 16-bit integer encoding has its integer part within `int`;
one stored in `l` within `long`; one stored in `L` from `LONG_MIN` up to
`ULONG_MAX`; one stored in `f` rounds to a finite `float`; one stored in `d`
or `n` is a `double`. -/
def in_conversion_range (P : Platform) (type : Char) (v : LuaValue) : Prop :=
  match v with
  | .number x =>
    match TYPESWITCH type with
    | some .float => ieee_finite 24 8 (float_bits x)
    | some .double => is_double x
    | some .lua_Number => is_double x
    | some .long =>
      -(2 : Int) ^ (8 * P.sizeof_long - 1) ≤ trunc x ∧ trunc x < (2 : Int) ^ (8 * P.sizeof_long - 1)
    | some .unsigned_long =>
      -(2 : Int) ^ (8 * P.sizeof_long - 1) ≤ trunc x ∧ trunc x < (2 : Int) ^ (8 * P.sizeof_long)
    | some _ => -2147483648 ≤ trunc x ∧ trunc x ≤ 2147483647
    | none => True
  | _ => True

/-- The value read back after `v` was stored, as the round-trip property
states it: a boolean is kept; a number stored in `d` or `n` is kept; a number
stored in `f` is rounded to a `float`; a number stored in an integer encoding
is truncated towards zero, reduced modulo `2 ^ width` into the range of the
type, and read back as a `double`. -/
def spec_roundtrip (P : Platform) (type : Char) (v : LuaValue) : LuaValue :=
  match v with
  | .boolean b => .boolean b
  | .number x =>
    match TYPESWITCH type with
    | some .float => .number (float_value (float_bits x))
    | some .double => .number x
    | some .lua_Number => .number x
    | some T => .number ((round_to_double (spec_wrap P T (trunc x)) : Int) : ℚ)
    | none => .nil
  | _ => .nil

/-- The number 5.5. -/
def five_point_five : ℚ := ⟨11, 2, by decide, by decide⟩

/-- The destination coordinates of the specification: `(c_i + shift_i) mod
extent_i` in each of the first `n` dimensions, the remainder taken in
`[0, extent_i)`. -/
def spec_shift (extents shifts c : List Int) (n : Nat) : List Int :=
  (List.range n).map (fun i => (c.getD i 0 + shifts.getD i 0) % extents.getD i 0)

/-- The coordinates that `spec_shift` sends to `d`. -/
def spec_unshift (extents shifts d : List Int) (n : Nat) : List Int :=
  (List.range n).map (fun i => (d.getD i 0 - shifts.getD i 0) % extents.getD i 0)

/-- The 2x2 array of encoding `l` holding 1, 2, 3, 4 at the coordinates
(0,0), (1,0), (0,1), (1,1), on a platform with 8-byte `long`. -/
def square_1234 : luaA_Array :=
  ⟨'l', 2, [2, 2], 33,
    1 :: List.replicate 7 0 ++ 2 :: List.replicate 7 0 ++ 3 :: List.replicate 7 0
      ++ 4 :: List.replicate 7 0 ++ [0]⟩

/-- An array has the encoding, dimension count and extents of another one. -/
def same_shape (a a2 : luaA_Array) : Prop :=
  a2.type = a.type ∧ a2.ndims = a.ndims ∧ a2.dims = a.dims

/-- The state of the argument arrays after a call, when the call returned or
raised an error. -/
def Outcome.final {σ α : Type} : Outcome σ α → Option σ
  | .returned _ s => some s
  | .raised _ s => some s
  | .undefined => none
  | .unfinished => none

/-- The new array a call returned, for the calls that return one. -/
def Outcome.result {σ α : Type} : Outcome σ α → Option α
  | .returned x _ => some x
  | _ => none

/-- The arrays a Lua program can hold: those made by `array.array` and those
obtained from them by the methods `set`, `clear` (fill), `bnot`, `bor`, `band`,
`bxor`, `add`, `multiply`, `negate`, `copy` and `shiftcopy`. -/
inductive Reachable (P : Platform) : luaA_Array → Prop where
  | construct (malloc : Malloc) (args : List LuaValue) (a : luaA_Array) :
      l_array P malloc args = .ok a → Reachable P a
  | set (a a2 : luaA_Array) (args : List LuaValue) :
      Reachable P a → (lm_array_set P a args).final = some a2 → Reachable P a2
  | fill (a a2 : luaA_Array) (args : List LuaValue) :
      Reachable P a → (lm_array_clear P a args).final = some a2 → Reachable P a2
  | bnot (a a2 : luaA_Array) : Reachable P a → (lm_array_bnot a).final = some a2 → Reachable P a2
  | bor_left (a1 a2 b1 b2 : luaA_Array) : Reachable P a1 → Reachable P a2 →
      (lm_array_bor a1 a2).final = some (b1, b2) → Reachable P b1
  | bor_right (a1 a2 b1 b2 : luaA_Array) : Reachable P a1 → Reachable P a2 →
      (lm_array_bor a1 a2).final = some (b1, b2) → Reachable P b2
  | band_left (a1 a2 b1 b2 : luaA_Array) : Reachable P a1 → Reachable P a2 →
      (lm_array_band a1 a2).final = some (b1, b2) → Reachable P b1
  | band_right (a1 a2 b1 b2 : luaA_Array) : Reachable P a1 → Reachable P a2 →
      (lm_array_band a1 a2).final = some (b1, b2) → Reachable P b2
  | bxor_left (a1 a2 b1 b2 : luaA_Array) : Reachable P a1 → Reachable P a2 →
      (lm_array_bxor a1 a2).final = some (b1, b2) → Reachable P b1
  | bxor_right (a1 a2 b1 b2 : luaA_Array) : Reachable P a1 → Reachable P a2 →
      (lm_array_bxor a1 a2).final = some (b1, b2) → Reachable P b2
  | add_left (a1 a2 b1 b2 : luaA_Array) : Reachable P a1 → Reachable P a2 →
      (lm_array_add P a1 a2).final = some (b1, b2) → Reachable P b1
  | add_right (a1 a2 b1 b2 : luaA_Array) : Reachable P a1 → Reachable P a2 →
      (lm_array_add P a1 a2).final = some (b1, b2) → Reachable P b2
  | multiply_left (a1 a2 b1 b2 : luaA_Array) : Reachable P a1 → Reachable P a2 →
      (lm_array_multiply P a1 a2).final = some (b1, b2) → Reachable P b1
  | multiply_right (a1 a2 b1 b2 : luaA_Array) : Reachable P a1 → Reachable P a2 →
      (lm_array_multiply P a1 a2).final = some (b1, b2) → Reachable P b2
  | negate (a a2 : luaA_Array) :
      Reachable P a → (lm_array_negate P a).final = some a2 → Reachable P a2
  | copy_source (malloc : Malloc) (a a2 : luaA_Array) :
      Reachable P a → (lm_array_copy malloc a).final = some a2 → Reachable P a2
  | copy_result (malloc : Malloc) (a a2 : luaA_Array) :
      Reachable P a → (lm_array_copy malloc a).result = some a2 → Reachable P a2
  | shiftcopy_source (malloc : Malloc) (fuel : Nat) (a a2 : luaA_Array) (args : List LuaValue) :
      Reachable P a → (lm_array_shiftcopy P malloc fuel a args).final = some a2 → Reachable P a2
  | shiftcopy_result (malloc : Malloc) (fuel : Nat) (a a2 : luaA_Array) (args : List LuaValue) :
      Reachable P a → (lm_array_shiftcopy P malloc fuel a args).result = some a2 →
      Reachable P a2

/-- The shape invariant: at most `MAX_DIMS` dimensions, every extent at least
1, and one of the eleven type characters. -/
def shape_inv (a : luaA_Array) : Prop :=
  a.ndims ≤ MAX_DIMS ∧ (∀ i, i < a.ndims → 1 ≤ a.dims.getD i 0)
    ∧ is_type_character a.type = true

/-- Dimension `k` (counted from 0) is the first one in which the extents of
two arrays differ. -/
def first_difference (a1 a2 : luaA_Array) (k : Nat) : Prop :=
  k < a1.ndims ∧ a1.dims.getD k 0 ≠ a2.dims.getD k 0
    ∧ ∀ i, i < k → a1.dims.getD i 0 = a2.dims.getD i 0

/-- Two arrays have the same dimension count and the same extents. -/
def same_extents (a1 a2 : luaA_Array) : Prop :=
  a1.ndims = a2.ndims ∧ ∀ i, i < a1.ndims → a1.dims.getD i 0 = a2.dims.getD i 0

/-- The order of the compatibility checks of a binary operation: a type
mismatch is reported first, then a different number of dimensions,
then the first dimension of different size (counted from 1); and every raised
error leaves both arrays as they were. -/
def checks_first (op : luaA_Array → luaA_Array → Outcome (luaA_Array × luaA_Array) Unit) :
    Prop :=
  ∀ a1 a2,
    (a1.type ≠ a2.type → op a1 a2 = .raised .not_same_type (a1, a2))
    ∧ (a1.type = a2.type → a1.ndims ≠ a2.ndims →
        op a1 a2 = .raised .different_number_of_dimensions (a1, a2))
    ∧ (a1.type = a2.type → a1.ndims = a2.ndims → ∀ k, first_difference a1 a2 k →
        op a1 a2 = .raised (.dimension_of_different_size (k + 1)) (a1, a2))
    ∧ (∀ e s, op a1 a2 = .raised e s → s = (a1, a2))

/-! ## Definitions for the validation of `get` and `set` -/

/-- The coordinate argument `x` of the caller is accepted for a dimension of
the given extent: its integer part lies in `1..extent`.  For an integer `x`
this says `1 ≤ x ≤ extent`. -/
def coord_accepted (extent : Int) (x : ℚ) : Prop := 1 ≤ x ∧ x < (extent : ℚ) + 1

instance instDecidableCoordAccepted (extent : Int) (x : ℚ) :
    Decidable (coord_accepted extent x) :=
  inferInstanceAs (Decidable (1 ≤ x ∧ x < (extent : ℚ) + 1))

/-- Dimension `k` (counted from 0) is the first one whose coordinate argument
is not accepted. -/
def first_offending (a : luaA_Array) (xs : List ℚ) (k : Nat) : Prop :=
  k < a.ndims ∧ ¬ coord_accepted (a.dims.getD k 0) (xs.getD k 0)
    ∧ ∀ i, i < k → coord_accepted (a.dims.getD i 0) (xs.getD i 0)

instance instDecidableFirstOffending (a : luaA_Array) (xs : List ℚ) (k : Nat) :
    Decidable (first_offending a xs k) :=
  inferInstanceAs (Decidable (k < a.ndims ∧ ¬ coord_accepted (a.dims.getD k 0) (xs.getD k 0)
    ∧ ∀ i, i < k → coord_accepted (a.dims.getD i 0) (xs.getD i 0)))

/-- An operator on unsigned numbers that acts on each bit position on its
own: a bit field of the result is the operator applied to the same bit fields
of the operands. -/
def acts_bitwise (op : Nat → Nat → Nat) : Prop :=
  ∀ x y m n, op x y / 2 ^ m % 2 ^ n = op (x / 2 ^ m % 2 ^ n) (y / 2 ^ m % 2 ^ n)

/-- The outcome the specification asks of a binary bitwise function: the
operator applied to each byte of the first buffer and the byte at the same
place of the second buffer, the second array being left as it was. -/
def spec_bytewise (op : Nat → Nat → Nat) (a1 a2 : luaA_Array) :
    Outcome (luaA_Array × luaA_Array) Unit :=
  .returned () ({ a1 with data := List.zipWith op a1.data a2.data }, a2)

/-- The two loops of `lm_array_bor`, `lm_array_band`, `lm_array_bxor` when both
arguments are the same array (`a:bxor(a)`): `a1` and `a2` are then one
pointer, `d2` is `d1`, and `d2[j]` reads the word that the step overwrites. -/
def bitwise_pass_self (op : Nat → Nat → Nat) (datasize : Int) (d : List Nat) :
    Option (List Nat) :=
  match word_loop (fun _ x => some (op x x)) (size_t datasize / 4) 0 d with
  | none => none
  | some d2 =>
    byte_loop (fun _ x => some (op x x)) (size_t datasize / 4 * 4) (size_t datasize % 4) 0 d2

/-- The common body of the three binary bitwise functions when both arguments
are the same array.  There is one array in the state. -/
def lm_array_bitwise_self (op : Nat → Nat → Nat) (a : luaA_Array) : Outcome luaA_Array Unit :=
  match check_type_compatible a a with
  | .error e => .raised e a
  | .ok _ =>
    match check_size_compatible a a with
    | .error e => .raised e a
    | .ok _ =>
      match bitwise_pass_self op a.datasize a.data with
      | none => .undefined
      | some d => .returned () { a with data := d }

/-- The call `a:bor(a)` of `lm_array_bor`. -/
def lm_array_bor_self (a : luaA_Array) : Outcome luaA_Array Unit :=
  lm_array_bitwise_self (fun x y => x ||| y) a

/-- The call `a:band(a)` of `lm_array_band`. -/
def lm_array_band_self (a : luaA_Array) : Outcome luaA_Array Unit :=
  lm_array_bitwise_self (fun x y => x &&& y) a

/-- The call `a:bxor(a)` of `lm_array_bxor`. -/
def lm_array_bxor_self (a : luaA_Array) : Outcome luaA_Array Unit :=
  lm_array_bitwise_self (fun x y => x ^^^ y) a

/-! ## Definitions for the arithmetic functions -/

/-- The element loop of `lm_array_add` and `lm_array_multiply` when both
arguments are the same array (`a:add(a)`): `a1->data` and `a2->data` are then
one buffer and both operands of the step are read from it. -/
def arith_loop_self (P : Platform) (type : Char) (op : CType → Int → Int → Int) :
    Nat → Int → List Nat → Option (List Nat)
  | 0, _, d1 => some d1
  | n + 1, i, d1 =>
    match TYPESWITCH type with
    | none => arith_loop_self P type op n (i + 1) d1
    | some T =>
      match read_as P T d1 i with
      | none => none
      | some x =>
        match write_as P T d1 i (op T x x) with
        | none => none
        | some d => arith_loop_self P type op n (i + 1) d

/-- The call `a:add(a)` of `lm_array_add`.  There is one array in the state. -/
def lm_array_add_self (P : Platform) (a : luaA_Array) : Outcome luaA_Array Unit :=
  match check_type_compatible a a with
  | .error e => .raised e a
  | .ok _ =>
    match check_size_compatible a a with
    | .error e => .raised e a
    | .ok _ =>
      if a.type = 'b' ∨ a.type = 'B' then .raised .cannot_add_boolean a
      else
        match arith_loop_self P a.type (elem_add P) (calculate_total_size a).toNat 0 a.data with
        | none => .undefined
        | some d => .returned () { a with data := d }

/-- The call `a:multiply(a)` of `lm_array_multiply`. -/
def lm_array_multiply_self (P : Platform) (a : luaA_Array) : Outcome luaA_Array Unit :=
  match check_type_compatible a a with
  | .error e => .raised e a
  | .ok _ =>
    match check_size_compatible a a with
    | .error e => .raised e a
    | .ok _ =>
      if a.type = 'b' ∨ a.type = 'B' then .raised .cannot_multiply_boolean a
      else
        match arith_loop_self P a.type (elem_mul P) (calculate_total_size a).toNat 0 a.data with
        | none => .undefined
        | some d => .returned () { a with data := d }

/-! ## Definitions for `clear` and for fresh arrays -/

/-- The zero value of an encoding: `false` for the two boolean encodings, the
number 0 for the numeric ones. -/
def spec_zero (type : Char) : LuaValue :=
  if type = 'b' ∨ type = 'B' then .boolean false else .number 0

/-- The buffer size the specification states: the bit size `total * bits`
divided by 8 and rounded up, plus one guard byte. -/
def spec_datasize_ceil (total bits : Int) : Int := (total * bits + 7) / 8 + 1

/-! ## Definitions for the odometer of `lm_array_shiftcopy` -/

/-- The `while (1)` loop of `lm_array_shiftcopy` together with the values that
`location` takes: the loop of `shiftcopy_loop`, which in addition records the
value of `location` at the start of each iteration, in order. -/
def shiftcopy_trace (P : Platform) (a : luaA_Array) (shifts : List Int) :
    Nat → luaA_Array → List Int → Outcome luaA_Array luaA_Array × List (List Int)
  | 0, _, _ => (.unfinished, [])
  | fuel + 1, a2, location =>
    match location2_loop a shifts location a.ndims 0 with
    | none => (.undefined, [location])
    | some location2 =>
      let index := calculate_index a location
      let index2 := calculate_index a2 location2
      match extract_element P a index with
      | none => (.undefined, [location])
      | some buffer =>
        match insert_element P a2 index2 buffer with
        | none => (.undefined, [location])
        | some a3 =>
          match advance a location a.ndims 0 with
          | none => (.returned a3 a, [location])
          | some location3 =>
            ((shiftcopy_trace P a shifts fuel a3 location3).1,
              location :: (shiftcopy_trace P a shifts fuel a3 location3).2)

/-- The function `lm_array_shiftcopy` together with the values that `location`
takes in its `while` loop. -/
def lm_array_shiftcopy_trace (P : Platform) (malloc : Malloc) (fuel : Nat) (a : luaA_Array)
    (args : List LuaValue) : Outcome luaA_Array luaA_Array × List (List Int) :=
  match shifts_loop P args a.ndims 0 with
  | .error e => (.raised e a, [])
  | .ok shifts =>
    match malloc (size_t a.datasize) with
    | none => (.raised .cannot_allocate a, [])
    | some g =>
      shiftcopy_trace P a shifts fuel { a with data := fresh_block g (size_t a.datasize) }
        (List.replicate MAX_DIMS 0)

/-- The values that `location` takes when only the stepping of the `while (1)`
loop of `lm_array_shiftcopy` is run, the copy of the element left out.
`none`: the stepping is still running after `fuel` iterations. -/
def odometer (a : luaA_Array) : Nat → List Int → Option (List (List Int))
  | 0, _ => none
  | fuel + 1, location =>
    match advance a location a.ndims 0 with
    | none => some [location]
    | some location3 => (odometer a fuel location3).map (fun rest => location :: rest)

/-! # Theorems -/

/-! ## The floating-point formats -/

theorem log2_eq {n k : Nat} (h1 : 2 ^ k ≤ n) (h2 : n < 2 ^ (k + 1)) : Nat.log2 n = k := by
  have hn : n ≠ 0 := by
    have := Nat.two_pow_pos k
    omega
  have a : k ≤ Nat.log2 n := (Nat.le_log2 hn).2 h1
  have b : Nat.log2 n < k + 1 := (Nat.log2_lt hn).2 h2
  omega

/-- The fields of a finite magnitude: the shift of its binade, its significand. -/
theorem ieee_mag_fields (p t : Nat) (_hp : 1 ≤ p) :
    ∃ shift q, Nat.log2 (ieee_mag p t) - (p - 1) = shift ∧ ieee_mag p t = q * 2 ^ shift
      ∧ shift * 2 ^ (p - 1) + q = t := by
  unfold ieee_mag
  have hpos := Nat.two_pow_pos (p - 1)
  by_cases h : t < 2 ^ (p - 1)
  · rw [if_pos h]
    refine ⟨0, t, ?_, by simp, by simp⟩
    by_cases h0 : t = 0
    · subst h0
      simp [Nat.log2]
    · have : Nat.log2 t < p - 1 := (Nat.log2_lt h0).2 h
      omega
  · rw [if_neg h]
    have he : 1 ≤ t / 2 ^ (p - 1) := by
      rw [Nat.one_le_div_iff hpos]
      omega
    have hm : t % 2 ^ (p - 1) < 2 ^ (p - 1) := Nat.mod_lt _ hpos
    have hdm := Nat.div_add_mod t (2 ^ (p - 1))
    have hk := Nat.two_pow_pos (t / 2 ^ (p - 1) - 1)
    have hlog : Nat.log2 ((2 ^ (p - 1) + t % 2 ^ (p - 1)) * 2 ^ (t / 2 ^ (p - 1) - 1))
        = p - 1 + (t / 2 ^ (p - 1) - 1) := by
      apply log2_eq
      · rw [pow_add]
        exact Nat.mul_le_mul_right _ (by omega)
      · rw [pow_succ, pow_add]
        have : (2 ^ (p - 1) + t % 2 ^ (p - 1)) * 2 ^ (t / 2 ^ (p - 1) - 1)
            < (2 ^ (p - 1) * 2) * 2 ^ (t / 2 ^ (p - 1) - 1) :=
          Nat.mul_lt_mul_of_pos_right (by omega) hk
        calc _ < (2 ^ (p - 1) * 2) * 2 ^ (t / 2 ^ (p - 1) - 1) := this
          _ = 2 ^ (p - 1) * 2 ^ (t / 2 ^ (p - 1) - 1) * 2 := by ring
    refine ⟨t / 2 ^ (p - 1) - 1, 2 ^ (p - 1) + t % 2 ^ (p - 1), ?_, rfl, ?_⟩
    · rw [hlog]
      omega
    · have : (t / 2 ^ (p - 1) - 1) * 2 ^ (p - 1) + 2 ^ (p - 1)
          = t / 2 ^ (p - 1) * 2 ^ (p - 1) := by
        have : t / 2 ^ (p - 1) = (t / 2 ^ (p - 1) - 1) + 1 := by omega
        nth_rewrite 2 [this]
        ring
      rw [mul_comm] at hdm
      omega

/-- Encoding the value of a finite bit pattern and decoding it again gives the
value back. -/
theorem ieee_roundtrip (p ebits u bits : Nat) (hp : 1 ≤ p) (hfin : ieee_finite p ebits bits) :
    ieee_decode p ebits u (ieee_encode p ebits u (ieee_decode p ebits u bits))
      = ieee_decode p ebits u bits := by
  unfold ieee_finite at hfin
  generalize ht : bits % 2 ^ (p - 1 + ebits) = t at hfin
  obtain ⟨shift, q, hshift, hq, htq⟩ := ieee_mag_fields p t hp
  generalize hM : ieee_mag p t = M at hshift hq
  generalize hx : ieee_decode p ebits u bits = x
  have hxM : x = (M : ℚ) / 2 ^ u ∨ x = -(M : ℚ) / 2 ^ u := by
    rw [← hx]
    unfold ieee_decode
    rw [ht, hM]
    split
    · right; ring
    · left; ring
  have h2u : (0 : ℚ) < 2 ^ u := by positivity
  have hden : (0 : ℚ) < x.den := by exact_mod_cast x.den_pos
  -- the numerator scaled by `2 ^ u` is `M` times the denominator
  have hnum : x.num.natAbs * 2 ^ u = M * x.den := by
    have hxd : (x.num : ℚ) / x.den = x := Rat.num_div_den x
    rcases hxM with h | h
    · have : (x.num : ℚ) * 2 ^ u = (M : ℚ) * x.den := by
        have e := hxd.trans h
        field_simp at e
        linarith
      have hi : x.num * 2 ^ u = (M : Int) * x.den := by exact_mod_cast this
      have := congrArg Int.natAbs hi
      simpa [Int.natAbs_mul, Int.natAbs_pow] using this
    · have : (x.num : ℚ) * 2 ^ u = -((M : ℚ) * x.den) := by
        have e := hxd.trans h
        field_simp at e
        linarith
      have hi : x.num * 2 ^ u = -((M : Int) * x.den) := by exact_mod_cast this
      have := congrArg Int.natAbs hi
      simpa [Int.natAbs_mul, Int.natAbs_pow] using this
  have hn0 : x.num.natAbs * 2 ^ u / x.den = M := by
    rw [hnum]
    exact Nat.mul_div_cancel _ x.den_pos
  have hqs : M / 2 ^ shift = q := by
    rw [hq]
    exact Nat.mul_div_cancel _ (Nat.two_pow_pos shift)
  have henc : ieee_encode p ebits u x = (if x < 0 then 2 ^ (p - 1 + ebits) else 0) + t := by
    unfold ieee_encode
    simp only [hn0, hshift, hqs]
    have hrem : x.num.natAbs * 2 ^ u - q * 2 ^ shift * x.den = 0 := by
      rw [hnum, hq]
      exact Nat.sub_self _
    have hpos : 0 < 2 ^ shift * x.den := Nat.mul_pos (Nat.two_pow_pos shift) x.den_pos
    have hc : ¬ (2 * 0 > 2 ^ shift * x.den ∨ (2 * 0 = 2 ^ shift * x.den ∧ q % 2 = 1)) := by
      rintro (h | ⟨h, _⟩) <;> omega
    rw [hrem, if_neg hc, htq, Nat.min_eq_left (Nat.le_of_lt hfin)]
  rw [henc]
  have htlt : t < 2 ^ (p - 1 + ebits) := by
    rw [← ht]
    exact Nat.mod_lt _ (Nat.two_pow_pos _)
  unfold ieee_decode
  have hMnn : (0 : ℚ) ≤ (M : ℚ) / 2 ^ u := by positivity
  by_cases hneg : x < 0
  · rw [if_pos hneg]
    have h1 : (2 ^ (p - 1 + ebits) + t) % 2 ^ (p - 1 + ebits) = t := by
      rw [Nat.add_mod_left, Nat.mod_eq_of_lt htlt]
    have h2 : (2 ^ (p - 1 + ebits) + t) / 2 ^ (p - 1 + ebits) % 2 = 1 := by
      rw [Nat.add_div_left _ (Nat.two_pow_pos _), Nat.div_eq_of_lt htlt]
    rw [h1, h2, if_pos rfl, hM]
    rcases hxM with h | h
    · rw [h] at hneg
      linarith
    · rw [h]
      ring
  · rw [if_neg hneg, Nat.zero_add, Nat.mod_eq_of_lt htlt, Nat.div_eq_of_lt htlt]
    simp only [Nat.zero_mod, zero_ne_one, if_false, hM]
    rcases hxM with h | h
    · rw [h]
      ring
    · have hz : (M : ℚ) / 2 ^ u = 0 := by
        rw [h] at hneg
        have : -(M : ℚ) / 2 ^ u = -((M : ℚ) / 2 ^ u) := by ring
        rw [this] at hneg
        linarith
      rw [h]
      have : -(M : ℚ) / 2 ^ u = -((M : ℚ) / 2 ^ u) := by ring
      rw [this, hz]
      simp [hz]

theorem ieee_encode_lt (p ebits u : Nat) (x : ℚ) (hp : 1 ≤ p) :
    ieee_encode p ebits u x < 2 ^ (p + ebits) := by
  unfold ieee_encode
  simp only
  have h1 : (2 ^ ebits - 1) * 2 ^ (p - 1) < 2 ^ (p - 1 + ebits) := by
    rw [pow_add, mul_comm (2 ^ (p - 1))]
    exact Nat.mul_lt_mul_of_pos_right (by have := Nat.two_pow_pos ebits; omega)
      (Nat.two_pow_pos _)
  have h2 : 2 ^ (p - 1 + ebits) + 2 ^ (p - 1 + ebits) ≤ 2 ^ (p + ebits) := by
    rw [← Nat.two_mul, ← pow_succ']
    apply Nat.pow_le_pow_right (by decide)
    omega
  have hsb : (if x < 0 then 2 ^ (p - 1 + ebits) else 0) ≤ 2 ^ (p - 1 + ebits) := by
    split <;> omega
  refine lt_of_le_of_lt (Nat.add_le_add hsb (Nat.min_le_right _ _)) ?_
  generalize 2 ^ (p - 1 + ebits) = A at h1 h2 ⊢
  generalize (2 ^ ebits - 1) * 2 ^ (p - 1) = B at h1 ⊢
  generalize 2 ^ (p + ebits) = C at h2 ⊢
  omega

/-! ## Conversions between numbers -/

theorem trunc_intCast (n : Int) : trunc (n : ℚ) = n := by
  unfold trunc
  rw [Rat.num_intCast, Rat.den_intCast]
  exact Int.tdiv_one n

theorem double_to_int_range (x : ℚ) :
    -2147483648 ≤ double_to_int x ∧ double_to_int x ≤ 2147483647 := by
  unfold double_to_int
  split
  · assumption
  · omega

theorem double_to_int_of_range {x : ℚ} (h1 : -2147483648 ≤ trunc x)
    (h2 : trunc x ≤ 2147483647) : double_to_int x = trunc x := by
  unfold double_to_int
  rw [if_pos ⟨h1, h2⟩]

theorem double_to_int_intCast {n : Int} (h1 : -2147483648 ≤ n) (h2 : n ≤ 2147483647) :
    double_to_int (n : ℚ) = n := by
  rw [double_to_int_of_range (by rw [trunc_intCast]; exact h1) (by rw [trunc_intCast]; exact h2),
    trunc_intCast]

/-- An integer below `2 ^ 53` in magnitude converts to `double` exactly. -/
theorem round_to_double_small {n : Int} (h1 : -9007199254740992 < n)
    (h2 : n < 9007199254740992) : round_to_double n = n := by
  unfold round_to_double
  rw [if_pos (by omega)]

/-- A `double` stored as a `double` and read back is unchanged. -/
theorem double_roundtrip {x : ℚ} (h : is_double x) : double_value (double_bits x) = x := by
  obtain ⟨bits, hfin, rfl⟩ := h
  exact ieee_roundtrip 53 11 1074 bits (by decide) hfin

/-- A `float` stored as a `float` and read back is unchanged. -/
theorem float_roundtrip {x : ℚ} (h : is_float x) : float_value (float_bits x) = x := by
  obtain ⟨bits, hfin, rfl⟩ := h
  exact ieee_roundtrip 24 8 149 bits (by decide) hfin

theorem float_bits_lt (x : ℚ) : float_bits x < 2 ^ 32 :=
  ieee_encode_lt 24 8 149 x (by decide)

theorem double_bits_lt (x : ℚ) : double_bits x < 2 ^ 64 :=
  ieee_encode_lt 53 11 1074 x (by decide)

theorem float_value_zero : float_value 0 = 0 := by
  simp [float_value, ieee_decode, ieee_mag]

theorem double_value_zero : double_value 0 = 0 := by
  simp [double_value, ieee_decode, ieee_mag]

/-! ## Arithmetic on `int` -/

theorem wrapInt_emod (x : Int) : wrapInt x % 4294967296 = x % 4294967296 := by
  unfold wrapInt
  omega

theorem wrapInt_congr {x y : Int} (h : x % 4294967296 = y % 4294967296) :
    wrapInt x = wrapInt y := by
  unfold wrapInt
  omega

theorem wrapInt_of_range {x : Int} (h1 : -2147483648 ≤ x) (h2 : x ≤ 2147483647) :
    wrapInt x = x := by
  unfold wrapInt
  omega

theorem wrapInt_add_wrapInt_mul (s c z : Int) :
    wrapInt (wrapInt s + wrapInt (c * wrapInt z)) = wrapInt (s + c * z) := by
  apply wrapInt_congr
  rw [Int.add_emod, wrapInt_emod, wrapInt_emod, Int.mul_emod, wrapInt_emod, ← Int.mul_emod,
    ← Int.add_emod]

theorem wrapInt_wrapInt_mul (z e : Int) : wrapInt (wrapInt z * e) = wrapInt (z * e) := by
  apply wrapInt_congr
  rw [Int.mul_emod, wrapInt_emod, ← Int.mul_emod]

theorem spec_linear_offset_succ (extents coords : List Int) (n : Nat) :
    spec_linear_offset extents coords (n + 1)
      = spec_linear_offset extents coords n + coords.getD n 0 * spec_stride extents n := by
  simp [spec_linear_offset, List.range_succ]

/-- The state of the loop of `calculate_index` after `n` iterations. -/
theorem calculate_index_state (dims coords : List Int) (n : Nat) :
    (List.range n).foldl
      (fun (st : Int × Int) i =>
        (wrapInt (st.1 + wrapInt (coords.getD i 0 * st.2)), wrapInt (st.2 * dims.getD i 0)))
      (0, 1)
    = (wrapInt (spec_linear_offset dims coords n), wrapInt (spec_stride dims n)) := by
  induction n with
  | zero => simp [spec_linear_offset, spec_stride, wrapInt]
  | succ n ih =>
    rw [List.range_succ, List.foldl_append, ih]
    simp only [List.foldl_cons, List.foldl_nil]
    rw [wrapInt_add_wrapInt_mul, wrapInt_wrapInt_mul, spec_linear_offset_succ]
    rfl

theorem calculate_index_eq_wrap (a : luaA_Array) (coords : List Int) :
    calculate_index a coords = wrapInt (spec_linear_offset a.dims coords a.ndims) := by
  unfold calculate_index
  rw [calculate_index_state]

theorem spec_stride_pos (extents : List Int) (n : Nat)
    (hpos : ∀ i, i < n → 1 ≤ extents.getD i 0) : 1 ≤ spec_stride extents n := by
  induction n with
  | zero => simp [spec_stride]
  | succ n ih =>
    have h1 := ih (fun i hi => hpos i (Nat.lt_succ_of_lt hi))
    have h2 := hpos n (Nat.lt_succ_self n)
    simp only [spec_stride]
    nlinarith

/-- Inside the shape the offset lies in `[0, stride_n)`: below the element count. -/
theorem spec_linear_offset_bounds (extents coords : List Int) (n : Nat)
    (hpos : ∀ i, i < n → 1 ≤ extents.getD i 0) (hin : in_range extents coords n) :
    0 ≤ spec_linear_offset extents coords n
      ∧ spec_linear_offset extents coords n < spec_stride extents n := by
  induction n with
  | zero => simp [spec_linear_offset, spec_stride]
  | succ n ih =>
    have hpos2 : ∀ i, i < n → 1 ≤ extents.getD i 0 := fun i hi => hpos i (Nat.lt_succ_of_lt hi)
    have h1 := ih hpos2 (fun i hi => hin i (Nat.lt_succ_of_lt hi))
    have h2 := hin n (Nat.lt_succ_self n)
    have h3 := spec_stride_pos extents n hpos2
    rw [spec_linear_offset_succ]
    simp only [spec_stride]
    constructor
    · nlinarith
    · nlinarith

/-- Without overflow `calculate_index` returns the stride sum itself. -/
theorem calculate_index_exact (a : luaA_Array) (coords : List Int)
    (hpos : ∀ i, i < a.ndims → 1 ≤ a.dims.getD i 0)
    (hfit : spec_stride a.dims a.ndims ≤ INT_MAX) (hin : in_range a.dims coords a.ndims) :
    calculate_index a coords = spec_linear_offset a.dims coords a.ndims := by
  rw [calculate_index_eq_wrap]
  have hb := spec_linear_offset_bounds a.dims coords a.ndims hpos hin
  unfold INT_MAX at hfit
  exact wrapInt_of_range (by omega) (by omega)

/-- Claim C1 (amended): `calculate_index` returns the sum over the dimensions of
`coord_i * stride_i` with `stride_0 = 1`, `stride_i = stride_(i-1) * extent_(i-1)`
(the first dimension varies fastest), reduced to an `int`: for every array and
every coordinate tuple the `int` returned is the low 32 bits of that sum; when
the extents are positive, the element count fits an `int` and the coordinates
lie inside the shape, it is that sum exactly. -/
theorem calculate_index_is_stride_sum (a : luaA_Array) (coords : List Int) :
    calculate_index a coords = wrapInt (spec_linear_offset a.dims coords a.ndims)
    ∧ ((∀ i, i < a.ndims → 1 ≤ a.dims.getD i 0) → spec_stride a.dims a.ndims ≤ INT_MAX →
        in_range a.dims coords a.ndims →
        calculate_index a coords = spec_linear_offset a.dims coords a.ndims) :=
  ⟨calculate_index_eq_wrap a coords, calculate_index_exact a coords⟩

/-- Claim C1 as stated fails: `array.array('b', 65536, 65536)` returns an array
of `2 ^ 32` elements, and at the coordinates (65535, 65535), which lie inside
its shape, `calculate_index` returns -1 while the sum of `coord_i * stride_i`
is 4294967295. -/
theorem calculate_index_is_stride_sum_counterexample :
    l_array lp64 malloc_ok [.string "b", num 65536, num 65536]
        = .ok ⟨'b', 2, [65536, 65536], 1, [0]⟩
      ∧ in_range [65536, 65536] [65535, 65535] 2
      ∧ calculate_index ⟨'b', 2, [65536, 65536], 1, [0]⟩ [65535, 65535] = -1
      ∧ spec_linear_offset [65536, 65536] [65535, 65535] 2 = 4294967295 := by
  refine ⟨by decide, by unfold in_range; decide, by decide, by decide⟩

theorem calculate_index_is_stride_sum_witness :
    calculate_index ⟨'l', 3, [2, 3, 4], 193, List.replicate 193 0⟩ [1, 2, 3]
      = spec_linear_offset [2, 3, 4] [1, 2, 3] 3 :=
  (calculate_index_is_stride_sum ⟨'l', 3, [2, 3, 4], 193, List.replicate 193 0⟩ [1, 2, 3]).2
    (by decide) (by decide)
    (by unfold in_range; decide)

/-! ## Lemmas on the buffer -/

theorem poke_some {d : List Nat} {off : Int} (b : Nat) (h0 : 0 ≤ off)
    (h1 : off < (d.length : Int)) : poke d off b = some (d.set off.toNat b) := by
  unfold poke
  rw [if_pos]
  exact ⟨h0, by omega⟩

theorem poke_length {d d2 : List Nat} {off : Int} {b : Nat} (h : poke d off b = some d2) :
    d2.length = d.length := by
  unfold poke at h
  split at h
  · cases h
    simp
  · cases h

theorem poke_bounds {d d2 : List Nat} {off : Int} {b : Nat} (h : poke d off b = some d2) :
    0 ≤ off ∧ off < (d.length : Int) := by
  unfold poke at h
  split at h
  · rename_i hc
    exact ⟨hc.1, by omega⟩
  · cases h

theorem peek_poke_same {d d2 : List Nat} {off : Int} {b : Nat} (h : poke d off b = some d2) :
    peek d2 off = some b := by
  unfold poke at h
  split at h
  · rename_i hc
    cases h
    unfold peek
    rw [if_pos hc.1]
    exact List.getElem?_set_self hc.2
  · cases h

theorem peek_poke_ne {d d2 : List Nat} {off off2 : Int} {b : Nat}
    (h : poke d off b = some d2) (hne : off2 ≠ off) : peek d2 off2 = peek d off2 := by
  unfold poke at h
  split at h
  · rename_i hc
    cases h
    unfold peek
    by_cases h2 : 0 ≤ off2
    · rw [if_pos h2, if_pos h2]
      apply List.getElem?_set_ne
      omega
    · rw [if_neg h2, if_neg h2]
  · cases h

theorem peek_lt {d : List Nat} {off : Int} (h0 : 0 ≤ off) (h1 : off < (d.length : Int)) :
    ∃ b, peek d off = some b := by
  unfold peek
  rw [if_pos h0]
  have h2 : off.toNat < d.length := by omega
  exact ⟨d[off.toNat], List.getElem?_eq_getElem h2⟩

theorem store_length {d d2 : List Nat} {off : Int} {w v : Nat}
    (h : store d off w v = some d2) : d2.length = d.length := by
  induction w generalizing d off v with
  | zero =>
    simp only [store] at h
    cases h
    rfl
  | succ w ih =>
    simp only [store] at h
    split at h
    · cases h
    · rename_i d1 hp
      rw [ih h, poke_length hp]

theorem store_some (d : List Nat) (off : Int) (w v : Nat) (h0 : 0 ≤ off)
    (h1 : off + w ≤ (d.length : Int)) : ∃ d2, store d off w v = some d2 := by
  induction w generalizing d off v with
  | zero => exact ⟨d, rfl⟩
  | succ w ih =>
    simp only [store]
    have hp := poke_some (d := d) (v % 256) h0 (by push_cast at h1; omega)
    rw [hp]
    apply ih
    · omega
    · rw [List.length_set]
      push_cast at h1
      omega

theorem store_bounds {d d2 : List Nat} {off : Int} {w v : Nat} (hw : 0 < w)
    (h : store d off w v = some d2) : 0 ≤ off ∧ off + w ≤ (d.length : Int) := by
  induction w generalizing d off v with
  | zero => omega
  | succ w ih =>
    simp only [store] at h
    split at h
    · cases h
    · rename_i d1 hp
      have hb := poke_bounds hp
      rcases Nat.eq_zero_or_pos w with hz | hpos
      · subst hz
        push_cast
        omega
      · have h2 := ih hpos h
        rw [poke_length hp] at h2
        push_cast
        omega

theorem peek_store_outside {d d2 : List Nat} {off off2 : Int} {w v : Nat}
    (h : store d off w v = some d2) (hout : off2 < off ∨ off + w ≤ off2) :
    peek d2 off2 = peek d off2 := by
  induction w generalizing d off v with
  | zero =>
    simp only [store] at h
    cases h
    rfl
  | succ w ih =>
    simp only [store] at h
    split at h
    · cases h
    · rename_i d1 hp
      rw [ih h (by push_cast at hout; omega)]
      exact peek_poke_ne hp (by push_cast at hout; omega)

theorem poke_bytes {d d2 : List Nat} {off : Int} {b : Nat} (h : poke d off b = some d2)
    (hb : b < 256) (hd : ∀ x, x ∈ d → x < 256) : ∀ x, x ∈ d2 → x < 256 := by
  unfold poke at h
  split at h
  · cases h
    intro x hx
    rcases List.mem_or_eq_of_mem_set hx with h1 | h1
    · exact hd x h1
    · rw [h1]
      exact hb
  · cases h

theorem store_bytes {d d2 : List Nat} {off : Int} {w v : Nat} (h : store d off w v = some d2)
    (hd : ∀ x, x ∈ d → x < 256) : ∀ x, x ∈ d2 → x < 256 := by
  induction w generalizing d off v with
  | zero =>
    simp only [store] at h
    cases h
    exact hd
  | succ w ih =>
    simp only [store] at h
    split at h
    · cases h
    · rename_i d1 hp
      exact ih h (poke_bytes hp (Nat.mod_lt _ (by norm_num)) hd)

theorem load_congr {d d2 : List Nat} {off : Int} {w : Nat}
    (h : ∀ k : Nat, k < w → peek d2 (off + k) = peek d (off + k)) :
    load d2 off w = load d off w := by
  induction w generalizing off with
  | zero => rfl
  | succ w ih =>
    simp only [load]
    have h0 := h 0 (Nat.succ_pos w)
    simp only [Nat.cast_zero, add_zero] at h0
    rw [h0]
    have h1 : load d2 (off + 1) w = load d (off + 1) w := by
      apply ih
      intro k hk
      have := h (k + 1) (Nat.succ_lt_succ hk)
      push_cast at this
      rw [add_assoc, add_comm 1 (k : Int)]
      exact this
    rw [h1]

theorem load_store_outside {d d2 : List Nat} {off off2 : Int} {w w2 v : Nat}
    (h : store d off w v = some d2) (hout : off2 + w2 ≤ off ∨ off + w ≤ off2) :
    load d2 off2 w2 = load d off2 w2 := by
  apply load_congr
  intro k hk
  exact peek_store_outside h (by omega)

theorem load_store_same {d d2 : List Nat} {off : Int} {w v : Nat}
    (h : store d off w v = some d2) : load d2 off w = some (v % 256 ^ w) := by
  induction w generalizing d off v with
  | zero => simp [load, Nat.mod_one]
  | succ w ih =>
    simp only [store] at h
    split at h
    · cases h
    · rename_i d1 hp
      simp only [load]
      rw [peek_store_outside h (Or.inl (by omega)), peek_poke_same hp, ih h]
      simp only
      congr 1
      rw [pow_succ', Nat.mod_mul]

theorem load_some (d : List Nat) (off : Int) (w : Nat) (h0 : 0 ≤ off)
    (h1 : off + w ≤ (d.length : Int)) : ∃ r, load d off w = some r := by
  induction w generalizing off with
  | zero => exact ⟨0, rfl⟩
  | succ w ih =>
    simp only [load]
    obtain ⟨b, hb⟩ := peek_lt (d := d) h0 (by push_cast at h1; omega)
    obtain ⟨r, hr⟩ := ih (off + 1) (by omega) (by push_cast at h1; omega)
    rw [hb, hr]
    exact ⟨_, rfl⟩

theorem sizeof_pos (P : Platform) (T : CType) : 0 < sizeof P T := by
  cases T <;> simp [sizeof, P.sizeof_long_pos]

/-- Reading a signed width back: the two ways of writing the two's complement
value of `v` agree. -/
theorem signed_wrap_eq (v H : Int) (hH : 0 < H) :
    (v + H) % (2 * H) - H = if H ≤ v % (2 * H) then v % (2 * H) - 2 * H else v % (2 * H) := by
  have h0 := Int.emod_nonneg v (show (2 * H) ≠ 0 by omega)
  have h1 := Int.emod_lt_of_pos v (show 0 < 2 * H by omega)
  have h2 : (v + H) % (2 * H) = (v % (2 * H) + H) % (2 * H) := by
    rw [Int.emod_add_emod]
  rw [h2]
  split
  · have h3 : (v % (2 * H) + H) % (2 * H) = (v % (2 * H) + H - 2 * H) % (2 * H) := by
      rw [Int.sub_emod, Int.emod_self, sub_zero, Int.emod_emod]
    rw [h3, Int.emod_eq_of_lt (by omega) (by omega)]
    omega
  · rw [Int.emod_eq_of_lt (by omega) (by omega)]
    omega

theorem pow_bits_split (w : Nat) (hw : 0 < w) : (2 : Int) ^ (8 * w) = 2 * 2 ^ (8 * w - 1) := by
  have : 8 * w = (8 * w - 1) + 1 := by omega
  conv_lhs => rw [this]
  rw [pow_succ]
  ring

theorem read_write_same {P : Platform} {T : CType} {d d2 : List Nat} {index v : Int}
    (h : write_as P T d index v = some d2) : read_as P T d2 index = some (to_type P T v) := by
  unfold write_as at h
  unfold read_as
  rw [load_store_same h]
  have hw := sizeof_pos P T
  have hM : (0 : Int) < 2 ^ (8 * sizeof P T) := by positivity
  have hnn := Int.emod_nonneg v (ne_of_gt hM)
  have hlt := Int.emod_lt_of_pos v hM
  have h256 : (256 : Nat) ^ sizeof P T = 2 ^ (8 * sizeof P T) := by
    rw [pow_mul]
    norm_num
  have hrawN : (v % (2 : Int) ^ (8 * sizeof P T)).toNat % 256 ^ sizeof P T
      = (v % (2 : Int) ^ (8 * sizeof P T)).toNat := by
    apply Nat.mod_eq_of_lt
    rw [h256]
    have : ((v % (2 : Int) ^ (8 * sizeof P T)).toNat : Int)
        < ((2 ^ (8 * sizeof P T) : Nat) : Int) := by
      rw [Int.toNat_of_nonneg hnn]
      push_cast
      exact hlt
    exact_mod_cast this
  have hcast : ((v % (2 : Int) ^ (8 * sizeof P T)).toNat : Int) = v % (2 : Int) ^ (8 * sizeof P T) :=
    Int.toNat_of_nonneg hnn
  have hcmp : (2 ^ (8 * sizeof P T - 1) ≤ (v % (2 : Int) ^ (8 * sizeof P T)).toNat)
      ↔ ((2 : Int) ^ (8 * sizeof P T - 1) ≤ v % (2 : Int) ^ (8 * sizeof P T)) := by
    rw [← hcast]
    constructor
    · intro h1
      exact_mod_cast h1
    · intro h1
      exact_mod_cast h1
  simp only [hrawN, hcmp, hcast]
  unfold to_type
  cases hs : T.signed
  · simp
  · simp only [true_and, if_true]
    rw [pow_bits_split _ hw, signed_wrap_eq _ _ (by positivity)]
    split <;> rfl

theorem read_write_other {P : Platform} {T : CType} {d d2 : List Nat} {index index2 v : Int}
    (h : write_as P T d index v = some d2) (hne : index2 ≠ index) :
    read_as P T d2 index2 = read_as P T d index2 := by
  unfold write_as at h
  unfold read_as
  have hw : (0 : Int) < (sizeof P T : Int) := by exact_mod_cast sizeof_pos P T
  rw [load_store_outside h]
  rcases lt_or_gt_of_ne hne with h1 | h1
  · left
    nlinarith
  · right
    nlinarith

theorem write_some (P : Platform) (T : CType) (d : List Nat) (index v : Int) (h0 : 0 ≤ index)
    (h1 : (index + 1) * sizeof P T ≤ (d.length : Int)) :
    ∃ d2, write_as P T d index v = some d2 ∧ d2.length = d.length := by
  unfold write_as
  have hw : (0 : Int) < (sizeof P T : Int) := by exact_mod_cast sizeof_pos P T
  obtain ⟨d2, hd2⟩ := store_some d (index * sizeof P T) (sizeof P T)
    (v % 2 ^ (8 * sizeof P T)).toNat (by positivity) (by nlinarith)
  exact ⟨d2, hd2, store_length hd2⟩

theorem read_some (P : Platform) (T : CType) (d : List Nat) (index : Int) (h0 : 0 ≤ index)
    (h1 : (index + 1) * sizeof P T ≤ (d.length : Int)) : ∃ e, read_as P T d index = some e := by
  unfold read_as
  have hw : (0 : Int) < (sizeof P T : Int) := by exact_mod_cast sizeof_pos P T
  obtain ⟨r, hr⟩ := load_some d (index * sizeof P T) (sizeof P T) (by positivity) (by nlinarith)
  rw [hr]
  dsimp only
  split <;> exact ⟨_, rfl⟩

/-! ## Elements of a well-formed array -/

/-- The type characters fall in three groups: those with a `TYPESWITCH` case,
the byte boolean and the packed boolean. -/
theorem type_character_cases {t : Char} (h : is_type_character t = true) :
    (∃ T, TYPESWITCH t = some T) ∨ (t = 'B' ∧ TYPESWITCH t = none)
      ∨ (t = 'b' ∧ TYPESWITCH t = none) := by
  unfold is_type_character at h
  split at h
  all_goals first
    | (left; exact ⟨_, rfl⟩)
    | (right; left; exact ⟨rfl, rfl⟩)
    | (right; right; exact ⟨rfl, rfl⟩)
    | cases h

theorem and_one_shiftLeft_ne_zero (x k : Nat) : (x &&& (1 <<< k) ≠ 0) ↔ x.testBit k = true := by
  rw [Nat.one_shiftLeft, Nat.and_two_pow]
  cases h : x.testBit k <;> simp

theorem testBit_set_bit (x k j : Nat) (hj : j < 8) :
    ((x ||| (1 <<< k)) % 256).testBit j = (x.testBit j || decide (k = j)) := by
  have h256 : (256 : Nat) = 2 ^ 8 := by norm_num
  rw [h256, Nat.testBit_mod_two_pow, Nat.testBit_or, Nat.one_shiftLeft, Nat.testBit_two_pow]
  simp [hj]

theorem testBit_clear_bit (x k j : Nat) (hj : j < 8) :
    ((x &&& (255 ^^^ (1 <<< k))) % 256).testBit j = (x.testBit j && !decide (k = j)) := by
  have h256 : (256 : Nat) = 2 ^ 8 := by norm_num
  have h255 : (255 : Nat) = 2 ^ 8 - 1 := by norm_num
  rw [h256, Nat.testBit_mod_two_pow, Nat.testBit_and, Nat.testBit_xor, h255,
    Nat.testBit_two_pow_sub_one, Nat.one_shiftLeft, Nat.testBit_two_pow]
  simp [hj]

theorem tdiv_tmod_nonneg {i : Int} (h : 0 ≤ i) :
    Int.tdiv i 8 = i / 8 ∧ Int.tmod i 8 = i % 8 := by
  constructor
  · exact Int.tdiv_eq_ediv h (by norm_num)
  · exact Int.tmod_eq_emod h (by norm_num)

theorem insert_element_shape {P : Platform} {a a2 : luaA_Array} {i e : Int}
    (h : insert_element P a i e = some a2) :
    ∃ d, a2 = { a with data := d } ∧ d.length = a.data.length
      ∧ ((∀ x, x ∈ a.data → x < 256) → ∀ x, x ∈ d → x < 256) := by
  unfold insert_element at h
  split at h
  · rw [Option.map_eq_some'] at h
    obtain ⟨d, hw, rfl⟩ := h
    exact ⟨d, rfl, store_length hw, store_bytes hw⟩
  · split at h
    · rw [Option.map_eq_some'] at h
      obtain ⟨d, hw, rfl⟩ := h
      exact ⟨d, rfl, store_length hw, store_bytes hw⟩
    · split at h
      · cases h
      · split at h
        · cases h
        · rw [Option.map_eq_some'] at h
          obtain ⟨d, hp, rfl⟩ := h
          exact ⟨d, rfl, poke_length hp, poke_bytes hp (Nat.mod_lt _ (by norm_num))⟩
    · cases h
      exact ⟨a.data, rfl, rfl, fun hx => hx⟩

theorem valid_with_data {P : Platform} {a : luaA_Array} (hv : Valid P a) {d : List Nat}
    (hd : d.length = a.data.length) (hb : ∀ x, x ∈ d → x < 256) : Valid P { a with data := d } :=
  ⟨hv.type_ok, hv.ndims_le, hv.dims_pos, hv.dims_int, hv.fits, hv.datasize_eq, by
    show (d.length : Int) = a.datasize
    rw [hd]
    exact hv.data_len, hb⟩

theorem valid_of_insert {P : Platform} {a a2 : luaA_Array} {i e : Int} (hv : Valid P a)
    (h : insert_element P a i e = some a2) :
    Valid P a2 ∧ a2.type = a.type ∧ a2.ndims = a.ndims ∧ a2.dims = a.dims := by
  obtain ⟨d, rfl, hl, hb⟩ := insert_element_shape h
  exact ⟨valid_with_data hv hl (hb hv.bytes), rfl, rfl, rfl⟩

theorem buffer_typed {P : Platform} {a : luaA_Array} {T : CType} (hv : Valid P a)
    (hT : TYPESWITCH a.type = some T) :
    (a.data.length : Int) = spec_stride a.dims a.ndims * sizeof P T + 1 := by
  rw [hv.data_len, hv.datasize_eq]
  unfold type_size_in_bits
  rw [hT]
  simp only
  push_cast
  rw [← mul_assoc, Int.mul_ediv_cancel _ (by norm_num : (8 : Int) ≠ 0)]

theorem buffer_byte_bool {P : Platform} {a : luaA_Array} (hv : Valid P a) (hB : a.type = 'B') :
    (a.data.length : Int) = spec_stride a.dims a.ndims + 1 := by
  rw [hv.data_len, hv.datasize_eq]
  unfold type_size_in_bits
  rw [hB]
  simp [TYPESWITCH]

theorem buffer_bit_bool {P : Platform} {a : luaA_Array} (hv : Valid P a) (hb : a.type = 'b') :
    (a.data.length : Int) = spec_stride a.dims a.ndims / 8 + 1 := by
  rw [hv.data_len, hv.datasize_eq]
  unfold type_size_in_bits
  rw [hb]
  simp [TYPESWITCH]

theorem extract_with_data (P : Platform) (a : luaA_Array) (d : List Nat) (i : Int) :
    extract_element P { a with data := d } i
      = (match TYPESWITCH a.type with
        | some T => read_as P T d i
        | none =>
          match a.type with
          | 'B' => read_as P .char d i
          | 'b' =>
            if Int.tmod i 8 < 0 then none
            else
              match peek d (Int.tdiv i 8) with
              | none => none
              | some byte => some (if byte &&& (1 <<< (Int.tmod i 8).toNat) ≠ 0 then 1 else 0)
          | _ => some 0) := rfl

/-- Storing an element and reading the same offset back gives the element
converted to the element type. -/
theorem insert_extract_same {P : Platform} {a : luaA_Array} (hv : Valid P a) {i : Int}
    (h0 : 0 ≤ i) (h1 : i < spec_stride a.dims a.ndims) (e : luaA_ArrayElement) :
    ∃ d, insert_element P a i e = some { a with data := d } ∧ d.length = a.data.length
      ∧ extract_element P { a with data := d } i = some (elem_norm P a.type e) := by
  rcases type_character_cases hv.type_ok with ⟨T, hT⟩ | ⟨hB, hT⟩ | ⟨hb, hT⟩
  · have hlen := buffer_typed hv hT
    have hw : (0 : Int) < (sizeof P T : Int) := by exact_mod_cast sizeof_pos P T
    obtain ⟨d, hd, hl⟩ := write_some P T a.data i e h0 (by nlinarith)
    refine ⟨d, ?_, hl, ?_⟩
    · unfold insert_element
      rw [hT]
      simp only [hd, Option.map_some']
    · rw [extract_with_data, hT]
      simp only [elem_norm, hT]
      exact read_write_same hd
  · have hlen := buffer_byte_bool hv hB
    obtain ⟨d, hd, hl⟩ := write_some P .char a.data i e h0 (by simp [sizeof]; omega)
    refine ⟨d, ?_, hl, ?_⟩
    · unfold insert_element
      rw [hT, hB]
      simp only [hd, Option.map_some']
    · rw [extract_with_data, hT, hB]
      simp only [elem_norm, hT, hB]
      exact read_write_same hd
  · have hlen := buffer_bit_bool hv hb
    obtain ⟨hdiv, hmod⟩ := tdiv_tmod_nonneg h0
    have hk : ¬ (Int.tmod i 8 < 0) := by omega
    have hoff : 0 ≤ Int.tdiv i 8 ∧ Int.tdiv i 8 < (a.data.length : Int) := by omega
    obtain ⟨byte, hbyte⟩ := peek_lt hoff.1 hoff.2
    have hkn : (Int.tmod i 8).toNat < 8 := by omega
    refine ⟨a.data.set (Int.tdiv i 8).toNat
      ((if e ≠ 0 then byte ||| (1 <<< (Int.tmod i 8).toNat)
        else byte &&& (255 ^^^ (1 <<< (Int.tmod i 8).toNat))) % 256), ?_, by simp, ?_⟩
    · unfold insert_element
      rw [hT, hb]
      simp only [if_neg hk, hbyte]
      rw [poke_some _ hoff.1 hoff.2]
      rfl
    · rw [extract_with_data, hT, hb]
      simp only [if_neg hk]
      have hp := poke_some (d := a.data)
        ((if e ≠ 0 then byte ||| (1 <<< (Int.tmod i 8).toNat)
          else byte &&& (255 ^^^ (1 <<< (Int.tmod i 8).toNat))) % 256) hoff.1 hoff.2
      rw [peek_poke_same hp]
      have hn : elem_norm P 'b' e = if e ≠ 0 then 1 else 0 := rfl
      dsimp only
      rw [hn]
      by_cases he : e = 0
      · simp only [he, ne_eq, not_true_eq_false, if_false]
        have hc : ¬ ((byte &&& (255 ^^^ (1 <<< (Int.tmod i 8).toNat))) % 256
            &&& (1 <<< (Int.tmod i 8).toNat) ≠ 0) := by
          rw [and_one_shiftLeft_ne_zero, testBit_clear_bit _ _ _ hkn]
          simp
        rw [if_neg hc]
      · simp only [ne_eq, he, not_false_eq_true, if_true]
        have hc : (byte ||| (1 <<< (Int.tmod i 8).toNat)) % 256
            &&& (1 <<< (Int.tmod i 8).toNat) ≠ 0 := by
          rw [and_one_shiftLeft_ne_zero, testBit_set_bit _ _ _ hkn]
          simp
        rw [if_pos hc]

/-- Storing an element leaves every other offset as it was. -/
theorem insert_extract_other {P : Platform} {a a2 : luaA_Array} {i j e : Int}
    (h : insert_element P a i e = some a2) (h0 : 0 ≤ i) (hj : 0 ≤ j) (hne : j ≠ i) :
    extract_element P a2 j = extract_element P a j := by
  unfold insert_element at h
  split at h
  · rename_i T hT
    rw [Option.map_eq_some'] at h
    obtain ⟨d, hw, rfl⟩ := h
    rw [extract_with_data]
    unfold extract_element
    rw [hT]
    exact read_write_other hw hne
  · rename_i hT
    split at h
    · rename_i hB
      rw [Option.map_eq_some'] at h
      obtain ⟨d, hw, rfl⟩ := h
      rw [extract_with_data]
      unfold extract_element
      rw [hT, hB]
      exact read_write_other hw hne
    · rename_i hb
      split at h
      · cases h
      · split at h
        · cases h
        · rename_i hk byte hbyte
          rw [Option.map_eq_some'] at h
          obtain ⟨d, hp, rfl⟩ := h
          rw [extract_with_data]
          unfold extract_element
          rw [hT, hb]
          obtain ⟨hdiv, hmod⟩ := tdiv_tmod_nonneg h0
          obtain ⟨hdivj, hmodj⟩ := tdiv_tmod_nonneg hj
          have hkj : ¬ (Int.tmod j 8 < 0) := by omega
          simp only [if_neg hkj]
          by_cases hsame : Int.tdiv j 8 = Int.tdiv i 8
          · rw [hsame, peek_poke_same hp, hbyte]
            simp only
            have hjn : (Int.tmod j 8).toNat < 8 := by omega
            have hkne : (Int.tmod i 8).toNat ≠ (Int.tmod j 8).toNat := by omega
            congr 1
            have key : ∀ x y : Nat, x.testBit (Int.tmod j 8).toNat = y.testBit (Int.tmod j 8).toNat →
                ((if x &&& (1 <<< (Int.tmod j 8).toNat) ≠ 0 then (1 : Int) else 0)
                  = (if y &&& (1 <<< (Int.tmod j 8).toNat) ≠ 0 then (1 : Int) else 0)) := by
              intro x y hxy
              by_cases hx : x.testBit (Int.tmod j 8).toNat = true
              · rw [if_pos ((and_one_shiftLeft_ne_zero _ _).2 hx),
                  if_pos ((and_one_shiftLeft_ne_zero _ _).2 (hxy ▸ hx))]
              · rw [if_neg (fun hh => hx ((and_one_shiftLeft_ne_zero _ _).1 hh)),
                  if_neg (fun hh => hx (hxy ▸ (and_one_shiftLeft_ne_zero _ _).1 hh))]
            apply key
            by_cases he : e = 0
            · simp only [he, ne_eq, not_true_eq_false, if_false]
              rw [testBit_clear_bit _ _ _ hjn]
              simp [hkne]
            · simp only [ne_eq, he, not_false_eq_true, if_true]
              rw [testBit_set_bit _ _ _ hjn]
              simp [hkne]
          · rw [peek_poke_ne hp hsame]
    · cases h
      rfl

/-- Inside the element count every offset can be read. -/
theorem extract_some {P : Platform} {a : luaA_Array} (hv : Valid P a) {i : Int}
    (h0 : 0 ≤ i) (h1 : i < spec_stride a.dims a.ndims) :
    ∃ e, extract_element P a i = some e := by
  obtain ⟨d, hd, _, _⟩ := insert_extract_same hv h0 h1 0
  unfold extract_element
  rcases type_character_cases hv.type_ok with ⟨T, hT⟩ | ⟨hB, hT⟩ | ⟨hb, hT⟩
  · have hlen := buffer_typed hv hT
    have hw : (0 : Int) < (sizeof P T : Int) := by exact_mod_cast sizeof_pos P T
    rw [hT]
    exact read_some P T a.data i h0 (by nlinarith)
  · have hlen := buffer_byte_bool hv hB
    rw [hT, hB]
    exact read_some P .char a.data i h0 (by simp [sizeof]; omega)
  · have hlen := buffer_bit_bool hv hb
    obtain ⟨hdiv, hmod⟩ := tdiv_tmod_nonneg h0
    have hk : ¬ (Int.tmod i 8 < 0) := by omega
    have hoff : 0 ≤ Int.tdiv i 8 ∧ Int.tdiv i 8 < (a.data.length : Int) := by omega
    obtain ⟨byte, hbyte⟩ := peek_lt hoff.1 hoff.2
    rw [hT, hb]
    simp only [if_neg hk, hbyte]
    exact ⟨_, rfl⟩

/-! ## Calls with coordinates inside the shape -/

theorem lua_coords_getD (pre : List Int) (x : Int) (xs : List Int) (rest : List LuaValue) :
    (lua_coords (pre ++ x :: xs) ++ rest).getD pre.length .nil = num (x + 1) := by
  induction pre with
  | nil => simp [lua_coords]
  | cons p ps ih =>
    simp only [lua_coords, List.cons_append, List.map_cons, List.length_cons,
      List.getD_cons_succ] at ih ⊢
    exact ih

theorem checkcoords_loop_in_range (P : Platform) (a : luaA_Array) (rest : List LuaValue)
    (c pre : List Int)
    (hin : ∀ k, k < c.length → 0 ≤ c.getD k 0 ∧ c.getD k 0 < a.dims.getD (pre.length + k) 0
      ∧ a.dims.getD (pre.length + k) 0 ≤ INT_MAX) :
    checkcoords_loop P a (lua_coords (pre ++ c) ++ rest) c.length pre.length = .ok c := by
  induction c generalizing pre with
  | nil => rfl
  | cons x xs ih =>
    simp only [List.length_cons, checkcoords_loop]
    rw [lua_coords_getD]
    have h0 := hin 0 (by simp)
    simp only [List.getD_cons_zero, Nat.add_zero] at h0
    unfold INT_MAX at h0
    simp only [num, luaL_checknumber]
    have hw : double_to_int ((x + 1 : Int) : ℚ) = x + 1 :=
      double_to_int_intCast (by omega) (by omega)
    rw [hw]
    have hc : ¬ (x + 1 < 1 ∨ x + 1 > a.dims.getD pre.length 0) := by omega
    rw [if_neg hc]
    have hrec := ih (pre ++ [x]) (by
      intro k hk
      have := hin (k + 1) (by simp; omega)
      simp only [List.getD_cons_succ] at this
      simp only [List.length_append, List.length_singleton]
      rw [show pre.length + 1 + k = pre.length + (k + 1) by omega]
      exact this)
    simp only [List.length_append, List.length_singleton, List.append_assoc,
      List.singleton_append] at hrec
    rw [hrec]
    simp only
    rw [show x + 1 - 1 = x by ring, wrapInt_of_range (by omega) (by omega)]

theorem luaA_checkcoords_in_range {P : Platform} {a : luaA_Array} (hv : Valid P a) {c : List Int}
    (hlen : c.length = a.ndims) (hin : in_range a.dims c a.ndims) (rest : List LuaValue) :
    luaA_checkcoords P a (lua_coords c ++ rest) = .ok c := by
  unfold luaA_checkcoords
  have := checkcoords_loop_in_range P a rest c [] (by
    intro k hk
    simp only [List.length_nil, Nat.zero_add]
    rw [hlen] at hk
    exact ⟨(hin k hk).1, (hin k hk).2, hv.dims_int k hk⟩)
  rw [hlen] at this
  simpa using this

theorem calculate_index_in_range {P : Platform} {a : luaA_Array} (hv : Valid P a) {c : List Int}
    (hin : in_range a.dims c a.ndims) :
    calculate_index a c = spec_linear_offset a.dims c a.ndims := by
  refine calculate_index_exact a c hv.dims_pos ?_ hin
  have h1 := hv.fits
  have h2 := spec_stride_pos a.dims a.ndims hv.dims_pos
  have h3 : 1 ≤ type_size_in_bits P a.type := by
    unfold type_size_in_bits
    rcases type_character_cases hv.type_ok with ⟨T, hT⟩ | ⟨hB, hT⟩ | ⟨hb, hT⟩
    · rw [hT]
      have := sizeof_pos P T
      simp only
      push_cast
      omega
    · rw [hT, hB]
      simp
    · rw [hT, hb]
      simp
  nlinarith

/-- Call of `lm_array_set` with coordinates inside the shape: the element check, then
the store at the linear offset. -/
theorem lm_array_set_in_range {P : Platform} {a : luaA_Array} (hv : Valid P a) {c : List Int}
    (hlen : c.length = a.ndims) (hin : in_range a.dims c a.ndims) (v : LuaValue) :
    lm_array_set P a (lua_coords c ++ [v])
      = (match luaA_checkarrayelement P v (2 + a.ndims) a.type with
        | .error e => .raised e a
        | .ok e =>
          match insert_element P a (spec_linear_offset a.dims c a.ndims) e with
          | none => .undefined
          | some a2 => .returned () a2) := by
  unfold lm_array_set
  have hl : (lua_coords c).length = a.ndims := by simp [lua_coords, hlen]
  have harity : ¬ (1 + (lua_coords c ++ [v]).length ≠ 2 + a.ndims) := by
    simp only [List.length_append, List.length_singleton, hl]
    omega
  rw [if_neg harity, luaA_checkcoords_in_range hv hlen hin]
  dsimp only
  rw [calculate_index_in_range hv hin]
  have hget : (lua_coords c ++ [v]).getD a.ndims .nil = v := by
    rw [← hl]
    simp [List.getD_eq_getElem?_getD]
  rw [hget]

/-- Call of `lm_array_get` with coordinates inside the shape: the load at the linear offset. -/
theorem lm_array_get_in_range {P : Platform} {a : luaA_Array} (hv : Valid P a) {c : List Int}
    (hlen : c.length = a.ndims) (hin : in_range a.dims c a.ndims) :
    lm_array_get P a (lua_coords c)
      = (match extract_element P a (spec_linear_offset a.dims c a.ndims) with
        | none => .undefined
        | some e => .returned (luaA_pusharrayelement e a.type) a) := by
  unfold lm_array_get
  have hl : (lua_coords c).length = a.ndims := by simp [lua_coords, hlen]
  have harity : ¬ (1 + (lua_coords c).length ≠ 1 + a.ndims) := by
    rw [hl]
    omega
  have hc := luaA_checkcoords_in_range hv hlen hin []
  rw [List.append_nil] at hc
  rw [if_neg harity, hc]
  dsimp only
  rw [calculate_index_in_range hv hin]

/-! ## Round trip of `set` and `get` -/

theorem to_type_idem (P : Platform) (T : CType) (v : Int) :
    to_type P T (to_type P T v) = to_type P T v := by
  unfold to_type
  cases T.signed
  · simp only [Bool.false_eq_true, if_false]
    exact Int.emod_emod_of_dvd v (dvd_refl _)
  · simp only [if_true, sub_add_cancel]
    rw [Int.emod_emod_of_dvd _ (dvd_refl _)]

theorem to_type_signed (P : Platform) (T : CType) (hs : T.signed = true) (v : Int) :
    to_type P T v = Int.bmod v (2 ^ (8 * sizeof P T)) := by
  unfold to_type
  rw [if_pos hs]
  have hw := sizeof_pos P T
  rw [pow_bits_split _ hw, signed_wrap_eq _ _ (by positivity)]
  unfold Int.bmod
  have hM : (((2 : Nat) ^ (8 * sizeof P T) : Nat) : Int) = 2 * (2 : Int) ^ (8 * sizeof P T - 1) := by
    push_cast
    exact pow_bits_split _ hw
  have hH : (0 : Int) < (2 : Int) ^ (8 * sizeof P T - 1) := by positivity
  rw [hM]
  simp only
  have hhalf : (2 * (2 : Int) ^ (8 * sizeof P T - 1) + 1) / 2 = (2 : Int) ^ (8 * sizeof P T - 1) := by
    omega
  rw [hhalf]
  split
  · rename_i h1
    rw [if_neg (by omega)]
  · rename_i h1
    rw [if_pos (by omega)]

theorem to_type_unsigned (P : Platform) (T : CType) (hs : T.signed = false) (v : Int) :
    to_type P T v = v % (2 : Int) ^ (8 * sizeof P T) := by
  unfold to_type
  rw [if_neg (by simp [hs])]

theorem to_type_char_bool (P : Platform) (b : Bool) :
    to_type P .char (if b then 1 else 0) = if b then 1 else 0 := by
  cases b <;> simp [to_type, CType.signed, sizeof]

/-- What `get` pushes for an element that `set` made from the value `v`. -/
theorem to_type_eq_spec_wrap (P : Platform) (T : CType) (v : Int) :
    to_type P T v = spec_wrap P T v := by
  unfold spec_wrap
  cases hs : T.signed
  · rw [to_type_unsigned P T hs]
    simp
  · rw [to_type_signed P T hs]
    simp

/-- A valid value passes the check of `luaA_checkarrayelement`. -/
theorem check_valid_value {P : Platform} {n : Nat} {type : Char}
    (ht : is_type_character type = true) {v : LuaValue} (hval : valid_value type v) :
    ∃ e, luaA_checkarrayelement P v (2 + n) type = .ok e := by
  rcases type_character_cases ht with ⟨T, hT⟩ | ⟨hB, hT⟩ | ⟨hb, hT⟩
  · cases v with
    | nil => exact absurd hval (by simp [valid_value])
    | string s => exact absurd hval (by simp [valid_value])
    | boolean b =>
      simp only [valid_value] at hval
      rcases hval with h | h <;> (rw [h] at hT; simp [TYPESWITCH] at hT)
    | number x =>
      exact ⟨convert P T x, by simp [luaA_checkarrayelement, hT, luaL_checknumber]⟩
  · subst hB
    cases v with
    | nil => exact absurd hval (by simp [valid_value])
    | string s => exact absurd hval (by simp [valid_value])
    | number x => exact absurd hval (by simp [valid_value, TYPESWITCH])
    | boolean b => exact ⟨if b then 1 else 0, rfl⟩
  · subst hb
    cases v with
    | nil => exact absurd hval (by simp [valid_value])
    | string s => exact absurd hval (by simp [valid_value])
    | number x => exact absurd hval (by simp [valid_value, TYPESWITCH])
    | boolean b => exact ⟨if b then 1 else 0, rfl⟩

theorem bits_toNat (bits k : Nat) (h : bits < 2 ^ k) :
    (((bits : Nat) : Int) % (2 : Int) ^ k).toNat = bits := by
  have : ((bits : Nat) : Int) % (2 : Int) ^ k = ((bits % 2 ^ k : Nat) : Int) := by
    push_cast
    rfl
  rw [this, Nat.mod_eq_of_lt h, Int.toNat_ofNat]

/-- The element made of a valid value within the conversion range is read
back as `spec_roundtrip` states. -/
theorem push_norm_check {P : Platform} {n : Nat} {type : Char} (ht : is_type_character type = true)
    {v : LuaValue} (hval : valid_value type v) (hrange : in_conversion_range P type v) :
    ∃ e, luaA_checkarrayelement P v (2 + n) type = .ok e
      ∧ luaA_pusharrayelement (elem_norm P type e) type = spec_roundtrip P type v := by
  rcases type_character_cases ht with ⟨T, hT⟩ | ⟨hB, hT⟩ | ⟨hb, hT⟩
  · cases v with
    | nil => exact absurd hval (by simp [valid_value])
    | string s => exact absurd hval (by simp [valid_value])
    | boolean b =>
      simp only [valid_value] at hval
      rcases hval with h | h <;> (rw [h] at hT; simp [TYPESWITCH] at hT)
    | number x =>
      refine ⟨convert P T x, ?_, ?_⟩
      · simp [luaA_checkarrayelement, hT, luaL_checknumber]
      · simp only [in_conversion_range, hT] at hrange
        simp only [luaA_pusharrayelement, hT, elem_norm, spec_roundtrip]
        cases T with
        | float =>
          simp only [convert, to_number, to_type_unsigned P .float rfl, sizeof]
          rw [bits_toNat _ _ (float_bits_lt x)]
        | double =>
          simp only [convert, to_number, to_type_unsigned P .double rfl, sizeof]
          rw [bits_toNat _ _ (double_bits_lt x), double_roundtrip hrange]
        | lua_Number =>
          simp only [convert, to_number, to_type_unsigned P .lua_Number rfl, sizeof]
          rw [bits_toNat _ _ (double_bits_lt x), double_roundtrip hrange]
        | char =>
          simp only [convert, to_number, to_type_idem]
          rw [double_to_int_of_range hrange.1 hrange.2, to_type_eq_spec_wrap]
        | short =>
          simp only [convert, to_number, to_type_idem]
          rw [double_to_int_of_range hrange.1 hrange.2, to_type_eq_spec_wrap]
        | unsigned_char =>
          simp only [convert, to_number, to_type_idem]
          rw [double_to_int_of_range hrange.1 hrange.2, to_type_eq_spec_wrap]
        | unsigned_short =>
          simp only [convert, to_number, to_type_idem]
          rw [double_to_int_of_range hrange.1 hrange.2, to_type_eq_spec_wrap]
        | long =>
          simp only [convert, to_number, double_to_long]
          rw [if_pos hrange, to_type_eq_spec_wrap]
        | unsigned_long =>
          simp only [convert, to_number, double_to_unsigned_long]
          rw [if_neg (by omega), if_pos hrange.2, to_type_eq_spec_wrap]
          have hm : spec_wrap P .unsigned_long (trunc x % (2 : Int) ^ (8 * P.sizeof_long))
              = spec_wrap P .unsigned_long (trunc x) := by
            simp only [spec_wrap, CType.signed, Bool.false_eq_true, if_false, sizeof]
            exact Int.emod_emod_of_dvd _ (dvd_refl _)
          rw [hm]
  · subst hB
    cases v with
    | nil => exact absurd hval (by simp [valid_value])
    | string s => exact absurd hval (by simp [valid_value])
    | number x => exact absurd hval (by simp [valid_value, TYPESWITCH])
    | boolean b =>
      refine ⟨if b then 1 else 0, rfl, ?_⟩
      have h1 : elem_norm P 'B' (if b then 1 else 0) = to_type P .char (if b then 1 else 0) := rfl
      rw [h1, to_type_char_bool]
      cases b <;> rfl
  · subst hb
    cases v with
    | nil => exact absurd hval (by simp [valid_value])
    | string s => exact absurd hval (by simp [valid_value])
    | number x => exact absurd hval (by simp [valid_value, TYPESWITCH])
    | boolean b =>
      refine ⟨if b then 1 else 0, rfl, ?_⟩
      cases b <;> rfl

/-- Claim C2 (amended): for a well-formed array of any of the eleven encodings,
coordinates inside the shape and a valid value `v` within the conversion
range, `set` returns and `get` at the same coordinates then returns: `v` itself
for a boolean and for a number stored in `d` or `n`; `v` rounded to a `float`
for `f` (`v` itself when `v` is a `float`); for an integer encoding `v`
truncated towards zero, reduced by the width's wraparound and read back as a
`double` (exactly, below `2 ^ 53` in magnitude). -/
theorem set_get_roundtrip (P : Platform) (a : luaA_Array) (hv : Valid P a) (c : List Int)
    (hlen : c.length = a.ndims) (hin : in_range a.dims c a.ndims) (v : LuaValue)
    (hval : valid_value a.type v) (hrange : in_conversion_range P a.type v) :
    (∃ a2, lm_array_set P a (lua_coords c ++ [v]) = .returned () a2
      ∧ lm_array_get P a2 (lua_coords c) = .returned (spec_roundtrip P a.type v) a2)
    ∧ (∀ x, is_float x → float_value (float_bits x) = x)
    ∧ ∀ n : Int, -9007199254740992 < n → n < 9007199254740992 → round_to_double n = n := by
  refine ⟨?_, fun x hx => float_roundtrip hx, fun n h1 h2 => round_to_double_small h1 h2⟩
  obtain ⟨e, he, hpush⟩ := push_norm_check (P := P) (n := a.ndims) hv.type_ok hval hrange
  have hb := spec_linear_offset_bounds a.dims c a.ndims hv.dims_pos hin
  obtain ⟨d, hins, hdl, hext⟩ := insert_extract_same hv hb.1 hb.2 e
  refine ⟨{ a with data := d }, ?_, ?_⟩
  · rw [lm_array_set_in_range hv hlen hin, he]
    simp only [hins]
  · have hv2 : Valid P { a with data := d } := (valid_of_insert hv hins).1
    rw [lm_array_get_in_range hv2 hlen hin]
    simp only [hext, hpush]

/-- Claim C2 as stated fails: on the array made by `array('c', 3)`, `set` of the
number 5.5 at the first element followed by `get` there returns 5, which
differs from 5.5 by no multiple of `2 ^ 8`. -/
theorem set_get_roundtrip_counterexample :
    ∃ a a2, l_array lp64 malloc_ok [.string "c", num 3] = .ok a
      ∧ lm_array_set lp64 a (lua_coords [0] ++ [.number five_point_five]) = .returned () a2
      ∧ lm_array_get lp64 a2 (lua_coords [0]) = .returned (num 5) a2
      ∧ ∀ k : Int, ((5 : Int) : ℚ) ≠ five_point_five + 256 * (k : ℚ) := by
  refine ⟨⟨'c', 1, [3], 4, [0, 0, 0, 0]⟩, ⟨'c', 1, [3], 4, [5, 0, 0, 0]⟩, by decide, by decide,
    by decide, ?_⟩
  intro k h
  have hq : five_point_five = ((5 - 256 * k : Int) : ℚ) := by
    push_cast
    push_cast at h
    linarith
  have hden := congrArg Rat.den hq
  rw [Rat.den_intCast] at hden
  exact absurd hden (by decide)

theorem set_get_roundtrip_witness :
    (∃ a2, lm_array_set lp64 ⟨'s', 2, [2, 3], 13, List.replicate 13 0⟩
          (lua_coords [1, 2] ++ [num 70000]) = .returned () a2
      ∧ lm_array_get lp64 a2 (lua_coords [1, 2])
          = .returned (spec_roundtrip lp64 's' (num 70000)) a2)
    ∧ ∃ a2, lm_array_set lp64 ⟨'d', 1, [2], 17, List.replicate 17 0⟩
          (lua_coords [1] ++ [.number (3 / 2)]) = .returned () a2
      ∧ lm_array_get lp64 a2 (lua_coords [1]) = .returned (.number (3 / 2)) a2 :=
  ⟨(set_get_roundtrip lp64 ⟨'s', 2, [2, 3], 13, List.replicate 13 0⟩
    (by decide) [1, 2] rfl
    (by unfold in_range; decide) (num 70000) (by simp [valid_value, num, TYPESWITCH])
    (by
      show -2147483648 ≤ trunc ((70000 : Int) : ℚ) ∧ trunc ((70000 : Int) : ℚ) ≤ 2147483647
      rw [trunc_intCast]
      decide)).1,
   (set_get_roundtrip lp64 ⟨'d', 1, [2], 17, List.replicate 17 0⟩
    (by decide) [1] rfl
    (by unfold in_range; decide) (.number (3 / 2)) (by simp [valid_value, TYPESWITCH])
    ⟨1023 * 2 ^ 52 + 2 ^ 51, by unfold ieee_finite; norm_num,
      by unfold double_value ieee_decode ieee_mag; norm_num⟩).1⟩

/-! ## `set` changes one element -/

/-- Inside the shape the linear offset determines the coordinates. -/
theorem spec_linear_offset_inj (extents c c2 : List Int) (n : Nat)
    (hpos : ∀ i, i < n → 1 ≤ extents.getD i 0) (hin : in_range extents c n)
    (hin2 : in_range extents c2 n)
    (h : spec_linear_offset extents c n = spec_linear_offset extents c2 n) :
    ∀ i, i < n → c.getD i 0 = c2.getD i 0 := by
  induction n with
  | zero =>
    intro i hi
    omega
  | succ n ih =>
    have hpos2 : ∀ i, i < n → 1 ≤ extents.getD i 0 := fun i hi => hpos i (Nat.lt_succ_of_lt hi)
    have hinn : in_range extents c n := fun i hi => hin i (Nat.lt_succ_of_lt hi)
    have hinn2 : in_range extents c2 n := fun i hi => hin2 i (Nat.lt_succ_of_lt hi)
    have hb := spec_linear_offset_bounds extents c n hpos2 hinn
    have hb2 := spec_linear_offset_bounds extents c2 n hpos2 hinn2
    have hs := spec_stride_pos extents n hpos2
    rw [spec_linear_offset_succ, spec_linear_offset_succ] at h
    have htop : c.getD n 0 = c2.getD n 0 := by
      rcases lt_trichotomy (c.getD n 0) (c2.getD n 0) with h1 | h1 | h1
      · exfalso
        have : 0 ≤ (c2.getD n 0 - c.getD n 0 - 1) * spec_stride extents n :=
          mul_nonneg (by omega) (by omega)
        nlinarith
      · exact h1
      · exfalso
        have : 0 ≤ (c.getD n 0 - c2.getD n 0 - 1) * spec_stride extents n :=
          mul_nonneg (by omega) (by omega)
        nlinarith
    rw [htop] at h
    have hrest := ih hpos2 hinn hinn2 (by linarith)
    intro i hi
    rcases Nat.lt_succ_iff_lt_or_eq.1 hi with h1 | h1
    · exact hrest i h1
    · rw [h1]
      exact htop

theorem list_eq_of_getD {c c2 : List Int} {n : Nat} (hl : c.length = n) (hl2 : c2.length = n)
    (h : ∀ i, i < n → c.getD i 0 = c2.getD i 0) : c = c2 := by
  apply List.ext_getElem (by rw [hl, hl2])
  intro i h1 h2
  have := h i (by omega)
  rwa [List.getD_eq_getElem _ _ h1, List.getD_eq_getElem _ _ h2] at this

/-- Distinct coordinate tuples inside the shape have distinct linear offsets. -/
theorem spec_linear_offset_ne {P : Platform} {a : luaA_Array} (hv : Valid P a) {c c2 : List Int}
    (hlen : c.length = a.ndims) (hin : in_range a.dims c a.ndims)
    (hlen2 : c2.length = a.ndims) (hin2 : in_range a.dims c2 a.ndims) (hne : c2 ≠ c) :
    spec_linear_offset a.dims c2 a.ndims ≠ spec_linear_offset a.dims c a.ndims := by
  intro h
  exact hne (list_eq_of_getD hlen2 hlen
    (spec_linear_offset_inj a.dims c2 c a.ndims hv.dims_pos hin2 hin h))

/-- Claim C3 (amended): `set` changes exactly the targeted element.  For a
well-formed array (one whose size computation did not overflow `int`),
distinct coordinate tuples `c` and `c2` inside the shape and a valid value `v`,
`set` at `c` returns and `get` at `c2` returns afterwards the value it returned
before.  In particular, on the fresh 4x4 array of encoding `b`,
after `set` at (1,1) to `true` every other coordinate still reads `false`, so
the other bits of the byte are unchanged. -/
theorem set_changes_one_element :
    (∀ (P : Platform) (a : luaA_Array), Valid P a → ∀ (c c2 : List Int),
      c.length = a.ndims → in_range a.dims c a.ndims →
      c2.length = a.ndims → in_range a.dims c2 a.ndims → c2 ≠ c →
      ∀ v : LuaValue, valid_value a.type v →
      ∃ a2 x, lm_array_set P a (lua_coords c ++ [v]) = .returned () a2
        ∧ lm_array_get P a2 (lua_coords c2) = .returned x a2
        ∧ lm_array_get P a (lua_coords c2) = .returned x a)
    ∧ (∃ a a2, l_array lp64 malloc_ok [.string "b", num 4, num 4] = .ok a
        ∧ lm_array_set lp64 a (lua_coords [1, 1] ++ [.boolean true]) = .returned () a2
        ∧ lm_array_get lp64 a2 (lua_coords [1, 1]) = .returned (.boolean true) a2
        ∧ ∀ i j : Fin 4, (i, j) ≠ (1, 1) →
            lm_array_get lp64 a2 (lua_coords [(i.val : Int), (j.val : Int)])
              = .returned (.boolean false) a2) := by
  constructor
  · intro P a hv c c2 hlen hin hlen2 hin2 hne v hval
    obtain ⟨e, he⟩ := check_valid_value (P := P) (n := a.ndims) hv.type_ok hval
    have hb := spec_linear_offset_bounds a.dims c a.ndims hv.dims_pos hin
    have hb2 := spec_linear_offset_bounds a.dims c2 a.ndims hv.dims_pos hin2
    obtain ⟨d, hins, hdl, _⟩ := insert_extract_same hv hb.1 hb.2 e
    obtain ⟨x, hx⟩ := extract_some hv hb2.1 hb2.2
    have hv2 : Valid P { a with data := d } := (valid_of_insert hv hins).1
    have hother := insert_extract_other hins hb.1 hb2.1
      (spec_linear_offset_ne hv hlen hin hlen2 hin2 hne)
    refine ⟨{ a with data := d }, luaA_pusharrayelement x a.type, ?_, ?_, ?_⟩
    · rw [lm_array_set_in_range hv hlen hin, he]
      simp only [hins]
    · rw [lm_array_get_in_range hv2 hlen2 hin2]
      simp only [hother, hx]
    · rw [lm_array_get_in_range hv hlen2 hin2]
      simp only [hx]
  · refine ⟨⟨'b', 2, [4, 4], 3, [0, 0, 0]⟩, ⟨'b', 2, [4, 4], 3, [32, 0, 0]⟩, by decide, by decide,
      by decide, by decide⟩

/-- Claim C3 as stated fails: `array.array('c', 65536, 65536, 65536)` has
`2 ^ 48` elements, which is 0 as an `int`, and is returned with a buffer of 1
byte; the coordinates (0,0,0) and (0,0,1) both have offset 0 in it, so `set`
of 5 at (0,0,1) changes what `get` returns at (0,0,0) from 0 to 5. -/
theorem set_changes_one_element_counterexample :
    l_array lp64 malloc_ok [.string "c", num 65536, num 65536, num 65536]
        = .ok ⟨'c', 3, [65536, 65536, 65536], 1, [0]⟩
      ∧ in_range [65536, 65536, 65536] [0, 0, 1] 3
      ∧ lm_array_get lp64 ⟨'c', 3, [65536, 65536, 65536], 1, [0]⟩ (lua_coords [0, 0, 0])
        = .returned (num 0) ⟨'c', 3, [65536, 65536, 65536], 1, [0]⟩
      ∧ lm_array_set lp64 ⟨'c', 3, [65536, 65536, 65536], 1, [0]⟩
          (lua_coords [0, 0, 1] ++ [num 5])
        = .returned () ⟨'c', 3, [65536, 65536, 65536], 1, [5]⟩
      ∧ lm_array_get lp64 ⟨'c', 3, [65536, 65536, 65536], 1, [5]⟩ (lua_coords [0, 0, 0])
        = .returned (num 5) ⟨'c', 3, [65536, 65536, 65536], 1, [5]⟩ := by
  refine ⟨by decide, by unfold in_range; decide, by decide, by decide, by decide⟩

theorem set_changes_one_element_witness :
    ∃ a2 x, lm_array_set lp64 ⟨'b', 2, [4, 4], 3, [255, 0, 0]⟩
          (lua_coords [2, 0] ++ [.boolean false]) = .returned () a2
      ∧ lm_array_get lp64 a2 (lua_coords [3, 0]) = .returned x a2
      ∧ lm_array_get lp64 ⟨'b', 2, [4, 4], 3, [255, 0, 0]⟩ (lua_coords [3, 0])
          = .returned x ⟨'b', 2, [4, 4], 3, [255, 0, 0]⟩ :=
  set_changes_one_element.1 lp64 ⟨'b', 2, [4, 4], 3, [255, 0, 0]⟩
    (by decide) [2, 0] [3, 0]
    rfl (by unfold in_range; decide) rfl (by unfold in_range; decide) (by decide)
    (.boolean false) (by simp [valid_value])

/-! ## Elements read from a well-formed array -/

theorem peek_mem {d : List Nat} {off : Int} {b : Nat} (h : peek d off = some b) : b ∈ d := by
  unfold peek at h
  split at h
  · exact List.getElem?_mem h
  · cases h

theorem load_lt {d : List Nat} (hd : ∀ x, x ∈ d → x < 256) {off : Int} {w r : Nat}
    (h : load d off w = some r) : r < 256 ^ w := by
  induction w generalizing off r with
  | zero =>
    simp only [load, Option.some.injEq] at h
    omega
  | succ w ih =>
    simp only [load] at h
    split at h
    · cases h
    · rename_i b hb
      split at h
      · cases h
      · rename_i r2 hr2
        simp only [Option.some.injEq] at h
        have h1 := hd b (peek_mem hb)
        have h2 := ih hr2
        rw [pow_succ]
        omega

theorem to_type_of_read {P : Platform} {T : CType} {d : List Nat}
    (hd : ∀ x, x ∈ d → x < 256) {i x : Int} (h : read_as P T d i = some x) :
    to_type P T x = x := by
  unfold read_as at h
  split at h
  · cases h
  · rename_i raw hraw
    have hlt := load_lt hd hraw
    have hw := sizeof_pos P T
    have h256 : (256 : Nat) ^ sizeof P T = 2 ^ (8 * sizeof P T) := by
      rw [pow_mul]
      norm_num
    rw [h256] at hlt
    have hltI : (raw : Int) < (2 : Int) ^ (8 * sizeof P T) := by exact_mod_cast hlt
    have hsplit := pow_bits_split (sizeof P T) hw
    have hH : (0 : Int) < (2 : Int) ^ (8 * sizeof P T - 1) := by positivity
    unfold to_type
    split at h
    · rename_i hc
      simp only [Option.some.injEq] at h
      have hge : (2 : Int) ^ (8 * sizeof P T - 1) ≤ (raw : Int) := by exact_mod_cast hc.2
      rw [if_pos hc.1, ← h, Int.emod_eq_of_lt (by omega) (by omega)]
      ring
    · rename_i hc
      simp only [Option.some.injEq] at h
      rw [← h]
      by_cases hs : T.signed = true
      · have hlt2 : (raw : Int) < (2 : Int) ^ (8 * sizeof P T - 1) := by
          have : ¬ (2 ^ (8 * sizeof P T - 1) ≤ raw) := fun hh => hc ⟨hs, hh⟩
          have h3 : raw < 2 ^ (8 * sizeof P T - 1) := by omega
          exact_mod_cast h3
        rw [if_pos hs, Int.emod_eq_of_lt (by omega) (by omega)]
        ring
      · rw [if_neg hs, Int.emod_eq_of_lt (by omega) hltI]

/-- An element read from a well-formed array is a value of the element type:
storing it again stores the same value. -/
theorem elem_norm_of_extract {P : Platform} {a : luaA_Array} (hv : Valid P a) {i x : Int}
    (h : extract_element P a i = some x) : elem_norm P a.type x = x := by
  unfold extract_element at h
  unfold elem_norm
  rcases type_character_cases hv.type_ok with ⟨T, hT⟩ | ⟨hB, hT⟩ | ⟨hb, hT⟩
  · rw [hT] at h ⊢
    exact to_type_of_read hv.bytes h
  · rw [hT, hB] at h
    rw [hT, hB]
    exact to_type_of_read hv.bytes h
  · rw [hT, hb] at h
    rw [hT, hb]
    simp only at h ⊢
    split at h
    · cases h
    · split at h
      · cases h
      · simp only [Option.some.injEq] at h
        rw [← h]
        split <;> simp

/-! ## The shifted copy -/

theorem spec_shift_length (extents shifts c : List Int) (n : Nat) :
    (spec_shift extents shifts c n).length = n := by
  simp [spec_shift]

theorem spec_shift_getD (extents shifts c : List Int) (n i : Nat) (hi : i < n) :
    (spec_shift extents shifts c n).getD i 0
      = (c.getD i 0 + shifts.getD i 0) % extents.getD i 0 := by
  simp [spec_shift, List.getD_eq_getElem?_getD, List.getElem?_map, List.getElem?_range hi]

theorem spec_shift_in_range (extents shifts c : List Int) (n : Nat)
    (hpos : ∀ i, i < n → 1 ≤ extents.getD i 0) :
    in_range extents (spec_shift extents shifts c n) n := by
  intro i hi
  rw [spec_shift_getD _ _ _ _ _ hi]
  have := hpos i hi
  exact ⟨Int.emod_nonneg _ (by omega), Int.emod_lt_of_pos _ (by omega)⟩

/-- Shifting is one-to-one on the coordinates inside the shape. -/
theorem spec_shift_inj (extents shifts c c2 : List Int) (n : Nat)
    (hin : in_range extents c n) (hin2 : in_range extents c2 n)
    (h : spec_shift extents shifts c n = spec_shift extents shifts c2 n) :
    ∀ i, i < n → c.getD i 0 = c2.getD i 0 := by
  intro i hi
  have h1 := congrArg (fun l => l.getD i 0) h
  simp only [spec_shift_getD _ _ _ _ _ hi] at h1
  have h3 : c.getD i 0 ≡ c2.getD i 0 [ZMOD extents.getD i 0] :=
    Int.ModEq.add_right_cancel' (shifts.getD i 0) h1
  have h4 : c.getD i 0 % extents.getD i 0 = c2.getD i 0 % extents.getD i 0 := h3
  rwa [Int.emod_eq_of_lt (hin i hi).1 (hin i hi).2,
    Int.emod_eq_of_lt (hin2 i hi).1 (hin2 i hi).2] at h4

theorem map_num_getD (pre : List Int) (x : Int) (xs : List Int) :
    ((pre ++ x :: xs).map num).getD pre.length .nil = num x := by
  induction pre with
  | nil => simp
  | cons p ps ih =>
    simp only [List.cons_append, List.map_cons, List.length_cons, List.getD_cons_succ] at ih ⊢
    exact ih

theorem shifts_loop_ints (P : Platform) (s pre : List Int)
    (hs : ∀ x, x ∈ s → -2147483648 ≤ x ∧ x ≤ 2147483647) :
    shifts_loop P ((pre ++ s).map num) s.length pre.length = .ok s := by
  induction s generalizing pre with
  | nil => rfl
  | cons x xs ih =>
    simp only [List.length_cons, shifts_loop]
    rw [map_num_getD]
    simp only [num, luaL_checknumber]
    have hrec := ih (pre ++ [x]) (fun y hy => hs y (List.mem_cons_of_mem _ hy))
    simp only [List.length_append, List.length_singleton, List.append_assoc,
      List.singleton_append] at hrec
    rw [hrec]
    simp only
    have hx := hs x (List.mem_cons_self _ _)
    rw [double_to_int_intCast hx.1 hx.2]

theorem location2_loop_spec (a : luaA_Array) (shifts location : List Int)
    (hpos : ∀ i, i < a.ndims → 1 ≤ a.dims.getD i 0)
    (hin : in_range a.dims location a.ndims)
    (hs : ∀ i, i < a.ndims → 0 ≤ shifts.getD i 0
      ∧ shifts.getD i 0 + a.dims.getD i 0 - 1 ≤ INT_MAX)
    (m d : Nat) (hmd : d + m = a.ndims) :
    location2_loop a shifts location m d
      = some ((List.range' d m).map
          (fun i => (location.getD i 0 + shifts.getD i 0) % a.dims.getD i 0)) := by
  induction m generalizing d with
  | zero => rfl
  | succ m ih =>
    simp only [location2_loop]
    have hd : d < a.ndims := by omega
    have h1 := hpos d hd
    have h2 := hin d hd
    have h3 := hs d hd
    unfold INT_MAX at h3
    rw [if_neg (by omega), ih (d + 1) (by omega)]
    simp only [List.range'_succ, List.map_cons]
    rw [wrapInt_of_range (by omega) (by omega), Int.tmod_eq_emod (by omega) (by omega)]

theorem location2_spec (a : luaA_Array) (shifts location : List Int)
    (hpos : ∀ i, i < a.ndims → 1 ≤ a.dims.getD i 0)
    (hin : in_range a.dims location a.ndims)
    (hs : ∀ i, i < a.ndims → 0 ≤ shifts.getD i 0
      ∧ shifts.getD i 0 + a.dims.getD i 0 - 1 ≤ INT_MAX) :
    location2_loop a shifts location a.ndims 0
      = some (spec_shift a.dims shifts location a.ndims) := by
  rw [location2_loop_spec a shifts location hpos hin hs a.ndims 0 (by omega)]
  simp [spec_shift, List.range_eq_range']

/-! ## The odometer step -/

theorem offset_all_max (extents loc : List Int) (k : Nat)
    (hmax : ∀ i, i < k → loc.getD i 0 = extents.getD i 0 - 1) :
    spec_linear_offset extents loc k = spec_stride extents k - 1 := by
  induction k with
  | zero => simp [spec_linear_offset, spec_stride]
  | succ k ih =>
    rw [spec_linear_offset_succ, ih (fun i hi => hmax i (Nat.lt_succ_of_lt hi)),
      hmax k (Nat.lt_succ_self k)]
    simp only [spec_stride]
    ring

theorem offset_all_zero (extents loc : List Int) (k : Nat)
    (hz : ∀ i, i < k → loc.getD i 0 = 0) : spec_linear_offset extents loc k = 0 := by
  induction k with
  | zero => simp [spec_linear_offset]
  | succ k ih =>
    rw [spec_linear_offset_succ, ih (fun i hi => hz i (Nat.lt_succ_of_lt hi)),
      hz k (Nat.lt_succ_self k)]
    ring

/-- Carrying into digit `d`: when the digits below `d` are at their maximum
and become zero while digit `d` grows by one, the offset grows by one. -/
theorem offset_carry (extents loc loc2 : List Int) (d : Nat)
    (hmax : ∀ i, i < d → loc.getD i 0 = extents.getD i 0 - 1)
    (hz : ∀ i, i < d → loc2.getD i 0 = 0)
    (hd : loc2.getD d 0 = loc.getD d 0 + 1)
    (hup : ∀ i, d < i → loc2.getD i 0 = loc.getD i 0) (k : Nat) :
    spec_linear_offset extents loc2 (d + 1 + k) = spec_linear_offset extents loc (d + 1 + k) + 1 := by
  induction k with
  | zero =>
    rw [Nat.add_zero, spec_linear_offset_succ, spec_linear_offset_succ,
      offset_all_max extents loc d hmax, offset_all_zero extents loc2 d hz, hd]
    ring
  | succ k ih =>
    rw [← Nat.add_assoc, spec_linear_offset_succ, spec_linear_offset_succ, ih,
      hup (d + 1 + k) (by omega)]
    ring

theorem advance_getD (location : List Int) (d i : Nat) (v : Int) (hd : d < location.length) :
    (List.replicate d 0 ++ (location.set d v).drop d).getD i 0
      = if i < d then 0 else if i = d then v else location.getD i 0 := by
  by_cases h1 : i < d
  · rw [if_pos h1, List.getD_append _ _ _ _ (by simp [h1])]
    simp [List.getD_eq_getElem?_getD, List.getElem?_replicate, h1]
  · rw [if_neg h1, List.getD_append_right _ _ _ _ (by simp; omega)]
    simp only [List.length_replicate, List.getD_eq_getElem?_getD, List.getElem?_drop]
    rw [show d + (i - d) = i by omega, List.getElem?_set]
    by_cases h2 : i = d
    · rw [if_pos h2, if_pos h2.symm, if_pos hd]
      rfl
    · rw [if_neg h2, if_neg (fun h => h2 h.symm)]

/-- One step of the odometer on a location inside the shape: either the next
location, inside the shape and with the next linear offset, or the end of the
loop at the last linear offset. -/
theorem advance_spec (a : luaA_Array) (location : List Int)
    (hpos : ∀ i, i < a.ndims → 1 ≤ a.dims.getD i 0)
    (hint : ∀ i, i < a.ndims → a.dims.getD i 0 ≤ INT_MAX)
    (hlen : a.ndims ≤ location.length) (hin : in_range a.dims location a.ndims)
    (m d : Nat) (hmd : d + m = a.ndims)
    (hmax : ∀ i, i < d → location.getD i 0 = a.dims.getD i 0 - 1) :
    match advance a location m d with
    | some loc2 => loc2.length = location.length ∧ in_range a.dims loc2 a.ndims
        ∧ spec_linear_offset a.dims loc2 a.ndims = spec_linear_offset a.dims location a.ndims + 1
    | none => spec_linear_offset a.dims location a.ndims = spec_stride a.dims a.ndims - 1 := by
  induction m generalizing d with
  | zero =>
    simp only [advance]
    have : d = a.ndims := by omega
    subst this
    exact offset_all_max a.dims location a.ndims hmax
  | succ m ih =>
    simp only [advance]
    have hd : d < a.ndims := by omega
    have h1 := hpos d hd
    have h2 := hin d hd
    have h3 := hint d hd
    unfold INT_MAX at h3
    rw [wrapInt_of_range (x := a.dims.getD d 0 - 1) (by omega) (by omega)]
    by_cases hc : location.getD d 0 = a.dims.getD d 0 - 1
    · rw [if_neg (fun h => h hc)]
      apply ih (d + 1) (by omega)
      intro i hi
      rcases Nat.lt_succ_iff_lt_or_eq.1 hi with h | h
      · exact hmax i h
      · rw [h]
        exact hc
    · rw [if_pos hc]
      simp only
      rw [wrapInt_of_range (x := location.getD d 0 + 1) (by omega) (by omega)]
      have hg := fun i => advance_getD location d i (location.getD d 0 + 1) (by omega)
      refine ⟨?_, ?_, ?_⟩
      · simp only [List.length_append, List.length_replicate, List.length_drop, List.length_set]
        omega
      · intro i hi
        rw [hg i]
        by_cases h4 : i < d
        · rw [if_pos h4]
          have := hpos i hi
          omega
        · rw [if_neg h4]
          by_cases h5 : i = d
          · rw [if_pos h5, h5]
            omega
          · rw [if_neg h5]
            exact hin i hi
      · have hk : a.ndims = d + 1 + (a.ndims - d - 1) := by omega
        rw [hk]
        apply offset_carry a.dims location _ d hmax
        · intro i hi
          rw [hg i, if_pos hi]
        · rw [hg d, if_neg (by omega), if_pos rfl]
        · intro i hi
          rw [hg i, if_neg (by omega), if_neg (by omega)]

theorem spec_linear_offset_congr (extents c c2 : List Int) (n : Nat)
    (h : ∀ i, i < n → c.getD i 0 = c2.getD i 0) :
    spec_linear_offset extents c n = spec_linear_offset extents c2 n := by
  induction n with
  | zero => rfl
  | succ n ih =>
    rw [spec_linear_offset_succ, spec_linear_offset_succ,
      ih (fun i hi => h i (Nat.lt_succ_of_lt hi)), h n (Nat.lt_succ_self n)]

theorem spec_shift_congr (extents shifts c c2 : List Int) (n : Nat)
    (h : ∀ i, i < n → c.getD i 0 = c2.getD i 0) :
    spec_shift extents shifts c n = spec_shift extents shifts c2 n := by
  unfold spec_shift
  apply List.map_congr_left
  intro i hi
  rw [h i (List.mem_range.1 hi)]

theorem calculate_index_same_shape {a a2 : luaA_Array} (hn : a2.ndims = a.ndims)
    (hd : a2.dims = a.dims) (c : List Int) : calculate_index a2 c = calculate_index a c := by
  unfold calculate_index
  rw [hn, hd]

/-- Two coordinate tuples inside the shape whose shifted images have the same
linear offset have the same linear offset themselves. -/
theorem shifted_offset_inj (extents shifts c c2 : List Int) (n : Nat)
    (hpos : ∀ i, i < n → 1 ≤ extents.getD i 0)
    (hin : in_range extents c n) (hin2 : in_range extents c2 n)
    (h : spec_linear_offset extents (spec_shift extents shifts c n) n
      = spec_linear_offset extents (spec_shift extents shifts c2 n) n) :
    spec_linear_offset extents c n = spec_linear_offset extents c2 n := by
  have h1 := spec_linear_offset_inj extents _ _ n hpos
    (spec_shift_in_range extents shifts c n hpos) (spec_shift_in_range extents shifts c2 n hpos) h
  have h2 := list_eq_of_getD (spec_shift_length _ _ _ _) (spec_shift_length _ _ _ _) h1
  exact spec_linear_offset_congr extents c c2 n (spec_shift_inj extents shifts c c2 n hin hin2 h2)

/-- The `while` loop of `lm_array_shiftcopy`, started at a location inside the
shape with every element of smaller linear offset already copied, returns
with every element copied, provided the step budget covers the remaining
offsets. -/
theorem shiftcopy_loop_spec (P : Platform) (a : luaA_Array) (hv : Valid P a) (shifts : List Int)
    (hs : ∀ i, i < a.ndims → 0 ≤ shifts.getD i 0
      ∧ shifts.getD i 0 + a.dims.getD i 0 - 1 ≤ INT_MAX)
    (fuel : Nat) (a2 : luaA_Array) (location : List Int)
    (hv2 : Valid P a2) (ht : a2.type = a.type) (hn : a2.ndims = a.ndims) (hd : a2.dims = a.dims)
    (hlen : a.ndims ≤ location.length) (hin : in_range a.dims location a.ndims)
    (hfuel : spec_stride a.dims a.ndims - spec_linear_offset a.dims location a.ndims ≤ fuel)
    (hdone : ∀ c, in_range a.dims c a.ndims →
      spec_linear_offset a.dims c a.ndims < spec_linear_offset a.dims location a.ndims →
      extract_element P a2 (spec_linear_offset a.dims (spec_shift a.dims shifts c a.ndims) a.ndims)
        = extract_element P a (spec_linear_offset a.dims c a.ndims)) :
    ∃ a3, shiftcopy_loop P a shifts fuel a2 location = .returned a3 a ∧ Valid P a3
      ∧ a3.type = a.type ∧ a3.ndims = a.ndims ∧ a3.dims = a.dims
      ∧ ∀ c, in_range a.dims c a.ndims →
        extract_element P a3
            (spec_linear_offset a.dims (spec_shift a.dims shifts c a.ndims) a.ndims)
          = extract_element P a (spec_linear_offset a.dims c a.ndims) := by
  induction fuel generalizing a2 location with
  | zero =>
    have hb := spec_linear_offset_bounds a.dims location a.ndims hv.dims_pos hin
    exfalso
    have : spec_stride a.dims a.ndims - spec_linear_offset a.dims location a.ndims ≤ 0 := by
      exact_mod_cast hfuel
    omega
  | succ fuel ih =>
    have hb := spec_linear_offset_bounds a.dims location a.ndims hv.dims_pos hin
    have hin2 := spec_shift_in_range a.dims shifts location a.ndims hv.dims_pos
    have hb2 := spec_linear_offset_bounds a.dims _ a.ndims hv.dims_pos hin2
    obtain ⟨buffer, hbuf⟩ := extract_some hv hb.1 hb.2
    have hidx2 : calculate_index a2 (spec_shift a.dims shifts location a.ndims)
        = spec_linear_offset a.dims (spec_shift a.dims shifts location a.ndims) a.ndims := by
      rw [calculate_index_same_shape hn hd, calculate_index_in_range hv hin2]
    have hb2' : spec_linear_offset a.dims (spec_shift a.dims shifts location a.ndims) a.ndims
        < spec_stride a2.dims a2.ndims := by
      rw [hn, hd]
      exact hb2.2
    obtain ⟨d, hins, hdl, hext⟩ := insert_extract_same hv2 hb2.1 hb2' buffer
    obtain ⟨hv3, ht3, hn3, hd3⟩ := valid_of_insert hv2 hins
    have hnorm : elem_norm P a2.type buffer = buffer := by
      rw [ht]
      exact elem_norm_of_extract hv hbuf
    rw [hnorm] at hext
    -- every element of offset at most the current one is now copied
    have hdone2 : ∀ c, in_range a.dims c a.ndims →
        spec_linear_offset a.dims c a.ndims ≤ spec_linear_offset a.dims location a.ndims →
        extract_element P { a2 with data := d }
            (spec_linear_offset a.dims (spec_shift a.dims shifts c a.ndims) a.ndims)
          = extract_element P a (spec_linear_offset a.dims c a.ndims) := by
      intro c hc hle
      rcases lt_or_eq_of_le hle with hlt | heq
      · have hcb := spec_linear_offset_bounds a.dims _ a.ndims hv.dims_pos
          (spec_shift_in_range a.dims shifts c a.ndims hv.dims_pos)
        rw [insert_extract_other hins hb2.1 hcb.1 ?_]
        · exact hdone c hc hlt
        · intro hEq
          have := shifted_offset_inj a.dims shifts c location a.ndims hv.dims_pos hc hin hEq
          omega
      · have hcl := spec_linear_offset_inj a.dims c location a.ndims hv.dims_pos hc hin heq
        rw [spec_shift_congr a.dims shifts c location a.ndims hcl, hext, heq, hbuf]
    simp only [shiftcopy_loop]
    rw [location2_spec a shifts location hv.dims_pos hin hs]
    simp only
    rw [calculate_index_in_range hv hin, hidx2, hbuf]
    simp only [hins]
    have hadv := advance_spec a location hv.dims_pos hv.dims_int hlen hin a.ndims 0 (by omega)
      (fun i hi => absurd hi (Nat.not_lt_zero i))
    cases hA : advance a location a.ndims 0 with
    | none =>
      rw [hA] at hadv
      simp only at hadv
      refine ⟨{ a2 with data := d }, rfl, hv3, by rw [ht3, ht], by rw [hn3, hn], by rw [hd3, hd], ?_⟩
      intro c hc
      have hcb := spec_linear_offset_bounds a.dims c a.ndims hv.dims_pos hc
      exact hdone2 c hc (by omega)
    | some loc3 =>
      rw [hA] at hadv
      simp only at hadv
      obtain ⟨hl3, hin3, hoff3⟩ := hadv
      simp only
      apply ih { a2 with data := d } loc3 hv3 (by rw [ht3, ht]) (by rw [hn3, hn]) (by rw [hd3, hd])
        (by omega) hin3
      · rw [hoff3]
        push_cast at hfuel
        omega
      · intro c hc hlt
        exact hdone2 c hc (by omega)

theorem size_t_datasize {P : Platform} {a : luaA_Array} (hv : Valid P a) :
    ((size_t a.datasize : Nat) : Int) = a.datasize := by
  have h1 := hv.fits
  have h2 := hv.datasize_eq
  have h3 := hv.data_len
  unfold INT_MAX at h1
  unfold size_t
  have h4 : (0 : Int) ≤ a.datasize := by
    rw [← h3]
    exact Int.natCast_nonneg _
  have h5 : a.datasize < 2 ^ 64 := by
    rw [h2]
    norm_num
    omega
  rw [Int.emod_eq_of_lt h4 h5]
  exact Int.toNat_of_nonneg h4

theorem fresh_block_valid {P : Platform} {a : luaA_Array} (hv : Valid P a) (g : Nat → Nat) :
    Valid P { a with data := fresh_block g (size_t a.datasize) } := by
  apply valid_with_data hv
  · have h1 := size_t_datasize hv
    have h2 := hv.data_len
    have h3 : (fresh_block g (size_t a.datasize)).length = size_t a.datasize := by
      simp [fresh_block]
    rw [h3]
    omega
  · intro x hx
    simp only [fresh_block, List.mem_map] at hx
    obtain ⟨i, _, rfl⟩ := hx
    exact Nat.mod_lt _ (by norm_num)

theorem replicate_zero_getD (n i : Nat) : (List.replicate n (0 : Int)).getD i 0 = 0 := by
  simp only [List.getD_eq_getElem?_getD, List.getElem?_replicate]
  split <;> rfl

theorem spec_unshift_spec (extents shifts d : List Int) (n : Nat)
    (hpos : ∀ i, i < n → 1 ≤ extents.getD i 0) (hlen : d.length = n)
    (hin : in_range extents d n) :
    (spec_unshift extents shifts d n).length = n
      ∧ in_range extents (spec_unshift extents shifts d n) n
      ∧ spec_shift extents shifts (spec_unshift extents shifts d n) n = d := by
  have hg : ∀ i, i < n → (spec_unshift extents shifts d n).getD i 0
      = (d.getD i 0 - shifts.getD i 0) % extents.getD i 0 := by
    intro i hi
    simp [spec_unshift, List.getD_eq_getElem?_getD, List.getElem?_map, List.getElem?_range hi]
  refine ⟨by simp [spec_unshift], ?_, ?_⟩
  · intro i hi
    rw [hg i hi]
    have := hpos i hi
    exact ⟨Int.emod_nonneg _ (by omega), Int.emod_lt_of_pos _ (by omega)⟩
  · apply list_eq_of_getD (spec_shift_length _ _ _ _) hlen
    intro i hi
    rw [spec_shift_getD _ _ _ _ _ hi, hg i hi, Int.emod_add_emod, sub_add_cancel]
    exact Int.emod_eq_of_lt (hin i hi).1 (hin i hi).2

/-- Call of `lm_array_shiftcopy` with shifts that are non-negative and small enough
for `location[d] + shifts[d]` to fit an `int`, at the level of elements. -/
theorem lm_array_shiftcopy_elements (P : Platform) (malloc : Malloc) (a : luaA_Array)
    (hv : Valid P a) (s : List Int) (hlen : s.length = a.ndims)
    (hs : ∀ i, i < a.ndims → 0 ≤ s.getD i 0 ∧ s.getD i 0 + a.dims.getD i 0 - 1 ≤ INT_MAX)
    (hm : (malloc (size_t a.datasize)).isSome = true) (fuel : Nat)
    (hfuel : spec_stride a.dims a.ndims ≤ fuel) :
    ∃ a2, lm_array_shiftcopy P malloc fuel a (s.map num) = .returned a2 a ∧ Valid P a2
      ∧ a2.type = a.type ∧ a2.ndims = a.ndims ∧ a2.dims = a.dims
      ∧ ∀ c, in_range a.dims c a.ndims →
        extract_element P a2 (spec_linear_offset a.dims (spec_shift a.dims s c a.ndims) a.ndims)
          = extract_element P a (spec_linear_offset a.dims c a.ndims) := by
  unfold lm_array_shiftcopy
  have hsl := shifts_loop_ints P s [] (by
    intro x hx
    obtain ⟨i, hi⟩ := List.mem_iff_getElem?.1 hx
    have hil : i < s.length := by
      by_contra hcon
      rw [List.getElem?_eq_none (by omega)] at hi
      cases hi
    have hxi : s.getD i 0 = x := by
      rw [List.getD_eq_getElem?_getD, hi]
      rfl
    have h1 := hs i (by omega)
    have h2 := hv.dims_pos i (by omega)
    unfold INT_MAX at h1
    omega)
  simp only [List.nil_append, List.length_nil] at hsl
  rw [hlen] at hsl
  rw [hsl]
  simp only
  cases hg : malloc (size_t a.datasize) with
  | none => simp [hg] at hm
  | some g =>
    simp only
    have hloc : in_range a.dims (List.replicate MAX_DIMS 0) a.ndims := by
      intro i hi
      rw [replicate_zero_getD]
      have := hv.dims_pos i hi
      omega
    have hoff : spec_linear_offset a.dims (List.replicate MAX_DIMS 0) a.ndims = 0 :=
      offset_all_zero _ _ _ (fun i _ => replicate_zero_getD _ i)
    exact shiftcopy_loop_spec P a hv s hs fuel _ _ (fresh_block_valid hv g) rfl rfl rfl
      (by simpa using hv.ndims_le) hloc (by rw [hoff]; omega)
      (by
        intro c hc hlt
        have := spec_linear_offset_bounds a.dims c a.ndims hv.dims_pos hc
        rw [hoff] at hlt
        omega)

/-- Claim C4 (the code at the failing input): on the array made by
`array('c', 3)`, `shiftcopy` with the shift -1 computes the destination
coordinate `(0 + -1) % 3 = -1` in its first iteration and stores at offset -1,
outside the new buffer. -/
theorem shiftcopy_negative_shift_undefined :
    ∃ a, l_array lp64 malloc_ok [.string "c", num 3] = .ok a
      ∧ location2_loop a [-1] (List.replicate MAX_DIMS 0) a.ndims 0 = some [-1]
      ∧ ∀ fuel, lm_array_shiftcopy lp64 malloc_ok (fuel + 1) a [num (-1)] = .undefined :=
  ⟨⟨'c', 1, [3], 4, [0, 0, 0, 0]⟩, by decide, by decide, fun _ => rfl⟩

/-- Claim C5 (amended): for a well-formed array `a` and a shift vector `s` whose
entries are non-negative and small enough that `c_i + s_i` fits an `int`
(`s_i + extent_i - 1 ≤ INT_MAX`), `shiftcopy(a, s)` (allocation permitting,
the loop given at least one step per element) leaves `a` unchanged and
returns an array of the same encoding and shape in which every coordinate `d`
inside the shape holds the element of `a` at the unique coordinate `c` with
`d_i = (c_i + s_i) mod extent_i`.  On the 2x2 `l` array holding 1, 2, 3, 4,
`shiftcopy(a, [1, 0])` holds 2, 1, 4, 3. -/
theorem shiftcopy_nonneg :
    (∀ (P : Platform) (malloc : Malloc) (a : luaA_Array), Valid P a →
      ∀ s : List Int, s.length = a.ndims →
      (∀ i, i < a.ndims → 0 ≤ s.getD i 0 ∧ s.getD i 0 + a.dims.getD i 0 - 1 ≤ INT_MAX) →
      (malloc (size_t a.datasize)).isSome = true →
      ∀ fuel : Nat, spec_stride a.dims a.ndims ≤ fuel →
      ∃ a2, lm_array_shiftcopy P malloc fuel a (s.map num) = .returned a2 a
        ∧ a2.type = a.type ∧ a2.ndims = a.ndims ∧ a2.dims = a.dims
        ∧ ∀ d, d.length = a.ndims → in_range a.dims d a.ndims →
          ∃ c, c.length = a.ndims ∧ in_range a.dims c a.ndims
            ∧ spec_shift a.dims s c a.ndims = d
            ∧ (∀ c2, c2.length = a.ndims → in_range a.dims c2 a.ndims →
                spec_shift a.dims s c2 a.ndims = d → c2 = c)
            ∧ ∃ x, lm_array_get P a2 (lua_coords d) = .returned x a2
                ∧ lm_array_get P a (lua_coords c) = .returned x a)
    ∧ (∃ b, lm_array_shiftcopy lp64 malloc_ok 4 square_1234 [num 1, num 0]
          = .returned b square_1234
        ∧ lm_array_get lp64 b (lua_coords [0, 0]) = .returned (num 2) b
        ∧ lm_array_get lp64 b (lua_coords [1, 0]) = .returned (num 1) b
        ∧ lm_array_get lp64 b (lua_coords [0, 1]) = .returned (num 4) b
        ∧ lm_array_get lp64 b (lua_coords [1, 1]) = .returned (num 3) b) := by
  constructor
  · intro P malloc a hv s hlen hs hm fuel hfuel
    obtain ⟨a2, hret, hv2, ht, hn, hd, hel⟩ :=
      lm_array_shiftcopy_elements P malloc a hv s hlen hs hm fuel hfuel
    refine ⟨a2, hret, ht, hn, hd, ?_⟩
    intro d hdl hdin
    obtain ⟨hcl, hcin, hcs⟩ := spec_unshift_spec a.dims s d a.ndims hv.dims_pos hdl hdin
    refine ⟨spec_unshift a.dims s d a.ndims, hcl, hcin, hcs, ?_, ?_⟩
    · intro c2 hl2 hin2 hs2
      exact list_eq_of_getD hl2 hcl
        (spec_shift_inj a.dims s c2 _ a.ndims hin2 hcin (by rw [hs2, hcs]))
    · have hcb := spec_linear_offset_bounds a.dims _ a.ndims hv.dims_pos hcin
      obtain ⟨x, hx⟩ := extract_some hv hcb.1 hcb.2
      have h2 := hel _ hcin
      rw [hcs, hx] at h2
      refine ⟨luaA_pusharrayelement x a.type, ?_, ?_⟩
      · rw [lm_array_get_in_range hv2 (by rw [hn]; exact hdl) (by rw [hd, hn]; exact hdin),
          hd, hn, h2, ht]
      · rw [lm_array_get_in_range hv hcl hcin, hx]
  · refine ⟨⟨'l', 2, [2, 2], 33,
      2 :: List.replicate 7 0 ++ 1 :: List.replicate 7 0 ++ 4 :: List.replicate 7 0
        ++ 3 :: List.replicate 7 0 ++ [170]⟩, ?_, ?_, ?_, ?_, ?_⟩ <;> decide

/-- Claim C5 as stated fails: on the array made by `array('c', 3)` the shift
2147483647 is non-negative, yet at the location 1 the sum `1 + 2147483647`
does not fit an `int`, the remainder is negative and the store falls outside
the new buffer, however many steps the loop is given. -/
theorem shiftcopy_nonneg_counterexample :
    ∃ a, l_array lp64 malloc_ok [.string "c", num 3] = .ok a
      ∧ Valid lp64 a
      ∧ (0 : Int) ≤ 2147483647
      ∧ location2_loop a [2147483647] [1, 0, 0, 0, 0, 0, 0, 0] a.ndims 0 = some [-2]
      ∧ ∀ fuel, lm_array_shiftcopy lp64 malloc_ok (fuel + 2) a [num 2147483647] = .undefined :=
  ⟨⟨'c', 1, [3], 4, [0, 0, 0, 0]⟩, by decide,
    (by decide),
    by decide, by decide, fun _ => rfl⟩

theorem shiftcopy_nonneg_witness :
    ∃ a2, lm_array_shiftcopy lp64 malloc_ok 6 ⟨'C', 2, [2, 3], 7, [1, 2, 3, 4, 5, 6, 0]⟩
          ([5, 1].map num) = .returned a2 ⟨'C', 2, [2, 3], 7, [1, 2, 3, 4, 5, 6, 0]⟩
      ∧ a2.type = 'C' ∧ a2.ndims = 2 ∧ a2.dims = [2, 3]
      ∧ ∀ d, d.length = 2 → in_range [2, 3] d 2 →
        ∃ c, c.length = 2 ∧ in_range [2, 3] c 2 ∧ spec_shift [2, 3] [5, 1] c 2 = d
          ∧ (∀ c2, c2.length = 2 → in_range [2, 3] c2 2 → spec_shift [2, 3] [5, 1] c2 2 = d →
              c2 = c)
          ∧ ∃ x, lm_array_get lp64 a2 (lua_coords d) = .returned x a2
              ∧ lm_array_get lp64 ⟨'C', 2, [2, 3], 7, [1, 2, 3, 4, 5, 6, 0]⟩ (lua_coords c)
                  = .returned x ⟨'C', 2, [2, 3], 7, [1, 2, 3, 4, 5, 6, 0]⟩ :=
  shiftcopy_nonneg.1 lp64 malloc_ok ⟨'C', 2, [2, 3], 7, [1, 2, 3, 4, 5, 6, 0]⟩
    (by decide)
    [5, 1] rfl (by decide) rfl 6 (by decide)

/-- Claim C6 (the code at the failing input): on the array `a` of encoding `c`
and extent 3 holding 1, 2, 3, `shiftcopy(a, 1)` returns the array `b` holding
3, 1, 2, and `shiftcopy(b, -1)` stores outside its new buffer in the first
iteration instead of returning a copy equal to `a`. -/
theorem shiftcopy_inverse_undefined :
    ∃ b, Valid lp64 ⟨'c', 1, [3], 4, [1, 2, 3, 0]⟩
      ∧ lm_array_shiftcopy lp64 malloc_ok 3 ⟨'c', 1, [3], 4, [1, 2, 3, 0]⟩ [num 1]
          = .returned b ⟨'c', 1, [3], 4, [1, 2, 3, 0]⟩
      ∧ b.data = [3, 1, 2, 170]
      ∧ ∀ fuel, lm_array_shiftcopy lp64 malloc_ok (fuel + 1) b [num (-1)] = .undefined :=
  ⟨⟨'c', 1, [3], 4, [3, 1, 2, 170]⟩,
    (by decide),
    by decide, rfl, fun _ => rfl⟩

/-! ## Construction -/

theorem same_shape_refl (a : luaA_Array) : same_shape a a := ⟨rfl, rfl, rfl⟩

theorem same_shape_data (a : luaA_Array) (d : List Nat) : same_shape a { a with data := d } :=
  ⟨rfl, rfl, rfl⟩

theorem same_shape_trans {a b c : luaA_Array} (h1 : same_shape a b) (h2 : same_shape b c) :
    same_shape a c :=
  ⟨h2.1.trans h1.1, h2.2.1.trans h1.2.1, h2.2.2.trans h1.2.2⟩

theorem same_shape_insert {P : Platform} {a a2 : luaA_Array} {i e : Int}
    (h : insert_element P a i e = some a2) : same_shape a a2 := by
  obtain ⟨d, rfl, _, _⟩ := insert_element_shape h
  exact same_shape_data a d

theorem same_shape_clear_loop {P : Platform} {c : luaA_ArrayElement} (n : Nat) (i : Int)
    {a a2 : luaA_Array} (h : clear_loop P c n i a = some a2) : same_shape a a2 := by
  induction n generalizing i a with
  | zero =>
    simp only [clear_loop, Option.some.injEq] at h
    rw [← h]
    exact same_shape_refl a
  | succ n ih =>
    simp only [clear_loop] at h
    split at h
    · cases h
    · rename_i a1 h1
      exact same_shape_trans (same_shape_insert h1) (ih (i + 1) h)

theorem same_shape_set (P : Platform) (a a2 : luaA_Array) (args : List LuaValue)
    (h : (lm_array_set P a args).final = some a2) : same_shape a a2 := by
  unfold lm_array_set at h
  split at h
  · simp only [Outcome.final, Option.some.injEq] at h
    rw [← h]
    exact same_shape_refl a
  · split at h
    · simp only [Outcome.final, Option.some.injEq] at h
      rw [← h]
      exact same_shape_refl a
    · simp only at h
      split at h
      · simp only [Outcome.final, Option.some.injEq] at h
        rw [← h]
        exact same_shape_refl a
      · split at h
        · cases h
        · rename_i a3 h3
          simp only [Outcome.final, Option.some.injEq] at h
          rw [← h]
          exact same_shape_insert h3

theorem same_shape_clear (P : Platform) (a a2 : luaA_Array) (args : List LuaValue)
    (h : (lm_array_clear P a args).final = some a2) : same_shape a a2 := by
  unfold lm_array_clear at h
  split at h
  · split at h
    · simp only [Outcome.final, Option.some.injEq] at h
      rw [← h]
      exact same_shape_refl a
    · simp only at h
      split at h
      · cases h
      · rename_i a3 h3
        simp only [Outcome.final, Option.some.injEq] at h
        rw [← h]
        exact same_shape_clear_loop _ _ h3
  · split at h
    · cases h
    · simp only [Outcome.final, Option.some.injEq] at h
      rw [← h]
      exact same_shape_data a _

theorem same_shape_bnot (a a2 : luaA_Array) (h : (lm_array_bnot a).final = some a2) :
    same_shape a a2 := by
  unfold lm_array_bnot at h
  split at h
  · cases h
  · split at h
    · cases h
    · simp only [Outcome.final, Option.some.injEq] at h
      rw [← h]
      exact same_shape_data a _

theorem same_shape_bitwise (op : Nat → Nat → Nat) (a1 a2 b1 b2 : luaA_Array)
    (h : (lm_array_bitwise op a1 a2).final = some (b1, b2)) :
    same_shape a1 b1 ∧ b2 = a2 := by
  unfold lm_array_bitwise at h
  split at h
  · simp only [Outcome.final, Option.some.injEq, Prod.mk.injEq] at h
    rw [← h.1, ← h.2]
    exact ⟨same_shape_refl a1, rfl⟩
  · split at h
    · simp only [Outcome.final, Option.some.injEq, Prod.mk.injEq] at h
      rw [← h.1, ← h.2]
      exact ⟨same_shape_refl a1, rfl⟩
    · split at h
      · cases h
      · simp only [Outcome.final, Option.some.injEq, Prod.mk.injEq] at h
        rw [← h.1, ← h.2]
        exact ⟨same_shape_data a1 _, rfl⟩

theorem same_shape_add (P : Platform) (a1 a2 b1 b2 : luaA_Array)
    (h : (lm_array_add P a1 a2).final = some (b1, b2)) : same_shape a1 b1 ∧ b2 = a2 := by
  unfold lm_array_add at h
  split at h
  · simp only [Outcome.final, Option.some.injEq, Prod.mk.injEq] at h
    rw [← h.1, ← h.2]
    exact ⟨same_shape_refl a1, rfl⟩
  · split at h
    · simp only [Outcome.final, Option.some.injEq, Prod.mk.injEq] at h
      rw [← h.1, ← h.2]
      exact ⟨same_shape_refl a1, rfl⟩
    · split at h
      · simp only [Outcome.final, Option.some.injEq, Prod.mk.injEq] at h
        rw [← h.1, ← h.2]
        exact ⟨same_shape_refl a1, rfl⟩
      · split at h
        · cases h
        · simp only [Outcome.final, Option.some.injEq, Prod.mk.injEq] at h
          rw [← h.1, ← h.2]
          exact ⟨same_shape_data a1 _, rfl⟩

theorem same_shape_multiply (P : Platform) (a1 a2 b1 b2 : luaA_Array)
    (h : (lm_array_multiply P a1 a2).final = some (b1, b2)) : same_shape a1 b1 ∧ b2 = a2 := by
  unfold lm_array_multiply at h
  split at h
  · simp only [Outcome.final, Option.some.injEq, Prod.mk.injEq] at h
    rw [← h.1, ← h.2]
    exact ⟨same_shape_refl a1, rfl⟩
  · split at h
    · simp only [Outcome.final, Option.some.injEq, Prod.mk.injEq] at h
      rw [← h.1, ← h.2]
      exact ⟨same_shape_refl a1, rfl⟩
    · split at h
      · simp only [Outcome.final, Option.some.injEq, Prod.mk.injEq] at h
        rw [← h.1, ← h.2]
        exact ⟨same_shape_refl a1, rfl⟩
      · split at h
        · cases h
        · simp only [Outcome.final, Option.some.injEq, Prod.mk.injEq] at h
          rw [← h.1, ← h.2]
          exact ⟨same_shape_data a1 _, rfl⟩

theorem same_shape_negate (P : Platform) (a a2 : luaA_Array)
    (h : (lm_array_negate P a).final = some a2) : same_shape a a2 := by
  unfold lm_array_negate at h
  split at h
  · simp only [Outcome.final, Option.some.injEq] at h
    rw [← h]
    exact same_shape_refl a
  · split at h
    · simp only [Outcome.final, Option.some.injEq] at h
      rw [← h]
      exact same_shape_refl a
    · split at h
      · cases h
      · simp only [Outcome.final, Option.some.injEq] at h
        rw [← h]
        exact same_shape_data a _

theorem same_shape_copy (malloc : Malloc) (a : luaA_Array) :
    (∀ a2, (lm_array_copy malloc a).final = some a2 → a2 = a)
      ∧ (∀ a2, (lm_array_copy malloc a).result = some a2 → same_shape a a2) := by
  unfold lm_array_copy
  constructor
  · intro a2 h
    split at h
    · simp only [Outcome.final, Option.some.injEq] at h
      exact h.symm
    · split at h
      · simp only [Outcome.final, Option.some.injEq] at h
        exact h.symm
      · cases h
  · intro a2 h
    split at h
    · cases h
    · split at h
      · simp only [Outcome.result, Option.some.injEq] at h
        rw [← h]
        exact same_shape_data a _
      · cases h

theorem same_shape_shiftcopy_loop (P : Platform) (a : luaA_Array) (shifts : List Int)
    (fuel : Nat) (a2 : luaA_Array) (location : List Int) :
    (∀ s, (shiftcopy_loop P a shifts fuel a2 location).final = some s → s = a)
      ∧ (∀ r, (shiftcopy_loop P a shifts fuel a2 location).result = some r → same_shape a2 r) := by
  induction fuel generalizing a2 location with
  | zero => exact ⟨fun s h => (by cases h), fun r h => (by cases h)⟩
  | succ fuel ih =>
    simp only [shiftcopy_loop]
    split
    · exact ⟨fun s h => (by cases h), fun r h => (by cases h)⟩
    · split
      · exact ⟨fun s h => (by cases h), fun r h => (by cases h)⟩
      · split
        · exact ⟨fun s h => (by cases h), fun r h => (by cases h)⟩
        · rename_i a3 h3
          split
          · constructor
            · intro s h
              simp only [Outcome.final, Option.some.injEq] at h
              exact h.symm
            · intro r h
              simp only [Outcome.result, Option.some.injEq] at h
              rw [← h]
              exact same_shape_insert h3
          · rename_i loc3 _
            have := ih a3 loc3
            exact ⟨this.1, fun r h => same_shape_trans (same_shape_insert h3) (this.2 r h)⟩

theorem same_shape_shiftcopy (P : Platform) (malloc : Malloc) (fuel : Nat) (a : luaA_Array)
    (args : List LuaValue) :
    (∀ s, (lm_array_shiftcopy P malloc fuel a args).final = some s → s = a)
      ∧ (∀ r, (lm_array_shiftcopy P malloc fuel a args).result = some r → same_shape a r) := by
  unfold lm_array_shiftcopy
  split
  · constructor
    · intro s h
      simp only [Outcome.final, Option.some.injEq] at h
      exact h.symm
    · intro r h
      cases h
  · split
    · constructor
      · intro s h
        simp only [Outcome.final, Option.some.injEq] at h
        exact h.symm
      · intro r h
        cases h
    · rename_i shifts _ _ g _
      have := same_shape_shiftcopy_loop P a shifts fuel
        { a with data := fresh_block g (size_t a.datasize) } (List.replicate MAX_DIMS 0)
      exact ⟨this.1, fun r h => same_shape_trans (same_shape_data a _) (this.2 r h)⟩

theorem lm_array_get_state (P : Platform) (a a2 : luaA_Array) (args : List LuaValue)
    (h : (lm_array_get P a args).final = some a2) : a2 = a := by
  unfold lm_array_get at h
  split at h
  · simp only [Outcome.final, Option.some.injEq] at h
    exact h.symm
  · split at h
    · simp only [Outcome.final, Option.some.injEq] at h
      exact h.symm
    · try simp only at h
      split at h
      · cases h
      · simp only [Outcome.final, Option.some.injEq] at h
        exact h.symm

theorem shape_inv_of_same_shape {a a2 : luaA_Array} (h : same_shape a a2) (hs : shape_inv a) :
    shape_inv a2 := by
  obtain ⟨h1, h2, h3⟩ := h
  unfold shape_inv
  rw [h1, h2, h3]
  exact hs

theorem l_array_loop_shape (P : Platform) (args : List LuaValue) (n i : Nat) (total : Int)
    (dims : List Int) (t : Int) (h : l_array_loop P args n i total = .ok (dims, t)) :
    dims.length = n ∧ ∀ e, e ∈ dims → 1 ≤ e := by
  induction n generalizing i total dims t with
  | zero =>
    simp only [l_array_loop, Except.ok.injEq, Prod.mk.injEq] at h
    rw [← h.1]
    exact ⟨rfl, fun e he => by cases he⟩
  | succ n ih =>
    simp only [l_array_loop] at h
    split at h
    · cases h
    · split at h
      · cases h
      · rename_i x _ hx
        split at h
        · cases h
        · rename_i dims2 t2 h2
          simp only [Except.ok.injEq, Prod.mk.injEq] at h
          obtain ⟨hl, hp⟩ := ih _ _ _ _ h2
          rw [← h.1]
          refine ⟨by simp [hl], ?_⟩
          intro e he
          rcases List.mem_cons.1 he with h4 | h4
          · rw [h4]
            omega
          · exact hp e h4

theorem l_array_shape (P : Platform) (malloc : Malloc) (args : List LuaValue) (a : luaA_Array)
    (h : l_array P malloc args = .ok a) : shape_inv a ∧ a.dims.length = a.ndims := by
  unfold l_array at h
  split at h
  · cases h
  · split at h
    · cases h
    · try simp only at h
      split at h
      · cases h
      · rename_i htype
        split at h
        · cases h
        · rename_i hnd
          split at h
          · cases h
          · rename_i dims t hloop
            try simp only at h
            split at h
            · cases h
            · simp only [Except.ok.injEq] at h
              obtain ⟨hl, hp⟩ := l_array_loop_shape P args _ _ _ _ _ hloop
              rw [← h]
              refine ⟨⟨by simpa using hnd, ?_, by simpa using htype⟩, hl⟩
              intro i hi
              simp only at hi ⊢
              apply hp
              rw [List.getD_eq_getElem _ _ (by omega)]
              exact List.getElem_mem _

/-- Claim C8 (amended): every array produced by `construct`, and every array
reachable from it through `set`, `fill`, the bitwise and arithmetic
operations, `copy` and `shiftcopy`, has a dimension count between 0 and 8 and
every extent `>= 1` (and one of the eleven encodings); no operation changes
the dimension count, extents or encoding of an array passed to it (`get`
changes nothing at all), and the arrays returned by `copy` and `shiftcopy`
have those of their source. -/
theorem reachable_shape (P : Platform) :
    (∀ a, Reachable P a →
      0 ≤ a.ndims ∧ a.ndims ≤ MAX_DIMS ∧ (∀ i, i < a.ndims → 1 ≤ a.dims.getD i 0)
        ∧ is_type_character a.type = true)
    ∧ (∀ a a2 args, (lm_array_get P a args).final = some a2 → a2 = a)
    ∧ (∀ a a2 args, (lm_array_set P a args).final = some a2 → same_shape a a2)
    ∧ (∀ a a2 args, (lm_array_clear P a args).final = some a2 → same_shape a a2)
    ∧ (∀ a a2, (lm_array_bnot a).final = some a2 → same_shape a a2)
    ∧ (∀ a1 a2 b1 b2, (lm_array_bor a1 a2).final = some (b1, b2) → same_shape a1 b1 ∧ b2 = a2)
    ∧ (∀ a1 a2 b1 b2, (lm_array_band a1 a2).final = some (b1, b2) → same_shape a1 b1 ∧ b2 = a2)
    ∧ (∀ a1 a2 b1 b2, (lm_array_bxor a1 a2).final = some (b1, b2) → same_shape a1 b1 ∧ b2 = a2)
    ∧ (∀ a1 a2 b1 b2, (lm_array_add P a1 a2).final = some (b1, b2) →
        same_shape a1 b1 ∧ b2 = a2)
    ∧ (∀ a1 a2 b1 b2, (lm_array_multiply P a1 a2).final = some (b1, b2) →
        same_shape a1 b1 ∧ b2 = a2)
    ∧ (∀ a a2, (lm_array_negate P a).final = some a2 → same_shape a a2)
    ∧ (∀ malloc a, (∀ a2, (lm_array_copy malloc a).final = some a2 → a2 = a)
        ∧ (∀ a2, (lm_array_copy malloc a).result = some a2 → same_shape a a2))
    ∧ (∀ malloc fuel a args,
        (∀ a2, (lm_array_shiftcopy P malloc fuel a args).final = some a2 → a2 = a)
        ∧ (∀ a2, (lm_array_shiftcopy P malloc fuel a args).result = some a2 →
            same_shape a a2)) := by
  refine ⟨?_, lm_array_get_state P, same_shape_set P, same_shape_clear P, same_shape_bnot,
    same_shape_bitwise _, same_shape_bitwise _, same_shape_bitwise _,
    same_shape_add P, same_shape_multiply P, same_shape_negate P, same_shape_copy,
    same_shape_shiftcopy P⟩
  have key : ∀ a, Reachable P a → shape_inv a := by
    intro a h
    induction h with
    | construct malloc args a h => exact (l_array_shape P malloc args a h).1
    | set a a2 args _ h ih => exact shape_inv_of_same_shape (same_shape_set P a a2 args h) ih
    | fill a a2 args _ h ih => exact shape_inv_of_same_shape (same_shape_clear P a a2 args h) ih
    | bnot a a2 _ h ih => exact shape_inv_of_same_shape (same_shape_bnot a a2 h) ih
    | bor_left a1 a2 b1 b2 _ _ h ih1 _ =>
      exact shape_inv_of_same_shape (same_shape_bitwise _ a1 a2 b1 b2 h).1 ih1
    | bor_right a1 a2 b1 b2 _ _ h _ ih2 =>
      rw [(same_shape_bitwise _ a1 a2 b1 b2 h).2]
      exact ih2
    | band_left a1 a2 b1 b2 _ _ h ih1 _ =>
      exact shape_inv_of_same_shape (same_shape_bitwise _ a1 a2 b1 b2 h).1 ih1
    | band_right a1 a2 b1 b2 _ _ h _ ih2 =>
      rw [(same_shape_bitwise _ a1 a2 b1 b2 h).2]
      exact ih2
    | bxor_left a1 a2 b1 b2 _ _ h ih1 _ =>
      exact shape_inv_of_same_shape (same_shape_bitwise _ a1 a2 b1 b2 h).1 ih1
    | bxor_right a1 a2 b1 b2 _ _ h _ ih2 =>
      rw [(same_shape_bitwise _ a1 a2 b1 b2 h).2]
      exact ih2
    | add_left a1 a2 b1 b2 _ _ h ih1 _ =>
      exact shape_inv_of_same_shape (same_shape_add P a1 a2 b1 b2 h).1 ih1
    | add_right a1 a2 b1 b2 _ _ h _ ih2 =>
      rw [(same_shape_add P a1 a2 b1 b2 h).2]
      exact ih2
    | multiply_left a1 a2 b1 b2 _ _ h ih1 _ =>
      exact shape_inv_of_same_shape (same_shape_multiply P a1 a2 b1 b2 h).1 ih1
    | multiply_right a1 a2 b1 b2 _ _ h _ ih2 =>
      rw [(same_shape_multiply P a1 a2 b1 b2 h).2]
      exact ih2
    | negate a a2 _ h ih => exact shape_inv_of_same_shape (same_shape_negate P a a2 h) ih
    | copy_source malloc a a2 _ h ih =>
      rw [(same_shape_copy malloc a).1 a2 h]
      exact ih
    | copy_result malloc a a2 _ h ih =>
      exact shape_inv_of_same_shape ((same_shape_copy malloc a).2 a2 h) ih
    | shiftcopy_source malloc fuel a a2 args _ h ih =>
      rw [(same_shape_shiftcopy P malloc fuel a args).1 a2 h]
      exact ih
    | shiftcopy_result malloc fuel a a2 args _ h ih =>
      exact shape_inv_of_same_shape ((same_shape_shiftcopy P malloc fuel a args).2 a2 h) ih
  intro a h
  exact ⟨Nat.zero_le _, key a h⟩

/-- Claim C8 as stated fails: `array('c')`, with no extents, succeeds and makes
an array with dimension count 0, below the claimed minimum of 1. -/
theorem reachable_shape_counterexample :
    ∃ a, l_array lp64 malloc_ok [.string "c"] = .ok a ∧ Reachable lp64 a ∧ a.ndims = 0
      ∧ ¬ (1 ≤ a.ndims) :=
  ⟨⟨'c', 0, [], 2, [0, 0]⟩, by decide,
    Reachable.construct malloc_ok [.string "c"] _ (by decide), rfl, by decide⟩

theorem reachable_shape_witness :
    0 ≤ (⟨'c', 1, [3], 4, [0, 0, 0, 0]⟩ : luaA_Array).ndims
      ∧ (⟨'c', 1, [3], 4, [0, 0, 0, 0]⟩ : luaA_Array).ndims ≤ MAX_DIMS
      ∧ (∀ i, i < (⟨'c', 1, [3], 4, [0, 0, 0, 0]⟩ : luaA_Array).ndims →
          1 ≤ (⟨'c', 1, [3], 4, [0, 0, 0, 0]⟩ : luaA_Array).dims.getD i 0)
      ∧ is_type_character (⟨'c', 1, [3], 4, [0, 0, 0, 0]⟩ : luaA_Array).type = true :=
  (reachable_shape lp64).1 ⟨'c', 1, [3], 4, [0, 0, 0, 0]⟩
    (Reachable.construct malloc_ok [.string "c", num 3] _ (by decide))

/-! ## The checks of the binary operations -/

theorem check_size_loop_differs (a1 a2 : luaA_Array) (n i k : Nat) (hik : i ≤ k)
    (hkn : k < i + n) (hk : a1.dims.getD k 0 ≠ a2.dims.getD k 0)
    (heq : ∀ j, i ≤ j → j < k → a1.dims.getD j 0 = a2.dims.getD j 0) :
    check_size_loop a1 a2 n i = .error (.dimension_of_different_size (k + 1)) := by
  induction n generalizing i with
  | zero => omega
  | succ n ih =>
    simp only [check_size_loop]
    by_cases h : i = k
    · subst h
      rw [if_pos hk]
    · rw [if_neg (fun hne => hne (heq i (le_refl i) (by omega)))]
      exact ih (i + 1) (by omega) (by omega) (fun j h1 h2 => heq j (by omega) h2)

theorem check_size_loop_same (a1 a2 : luaA_Array) (n i : Nat)
    (heq : ∀ j, i ≤ j → j < i + n → a1.dims.getD j 0 = a2.dims.getD j 0) :
    check_size_loop a1 a2 n i = .ok () := by
  induction n generalizing i with
  | zero => rfl
  | succ n ih =>
    simp only [check_size_loop]
    rw [if_neg (fun hne => hne (heq i (le_refl i) (by omega)))]
    exact ih (i + 1) (fun j h1 h2 => heq j (by omega) (by omega))

theorem check_size_compatible_differs (a1 a2 : luaA_Array) (hn : a1.ndims = a2.ndims) (k : Nat)
    (hk : first_difference a1 a2 k) :
    check_size_compatible a1 a2 = .error (.dimension_of_different_size (k + 1)) := by
  unfold check_size_compatible
  rw [if_neg (by simp [hn])]
  exact check_size_loop_differs a1 a2 a1.ndims 0 k (Nat.zero_le k) (by simpa using hk.1) hk.2.1
    (fun j _ h2 => hk.2.2 j h2)

theorem check_size_compatible_same (a1 a2 : luaA_Array) (h : same_extents a1 a2) :
    check_size_compatible a1 a2 = .ok () := by
  unfold check_size_compatible
  rw [if_neg (by simp [h.1])]
  exact check_size_loop_same a1 a2 a1.ndims 0 (fun j _ h2 => h.2 j (by simpa using h2))

theorem checks_first_bitwise (op : Nat → Nat → Nat) : checks_first (lm_array_bitwise op) := by
  intro a1 a2
  refine ⟨?_, ?_, ?_, ?_⟩
  · intro h
    simp [lm_array_bitwise, check_type_compatible, h]
  · intro h1 h2
    simp [lm_array_bitwise, check_type_compatible, check_size_compatible, h1, h2]
  · intro h1 h2 k hk
    simp [lm_array_bitwise, check_type_compatible, h1, check_size_compatible_differs a1 a2 h2 k hk]
  · intro e s h
    unfold lm_array_bitwise at h
    split at h
    · simp only [Outcome.raised.injEq] at h
      exact h.2.symm
    · split at h
      · simp only [Outcome.raised.injEq] at h
        exact h.2.symm
      · split at h <;> cases h

theorem checks_first_add (P : Platform) : checks_first (lm_array_add P) := by
  intro a1 a2
  refine ⟨?_, ?_, ?_, ?_⟩
  · intro h
    simp [lm_array_add, check_type_compatible, h]
  · intro h1 h2
    simp [lm_array_add, check_type_compatible, check_size_compatible, h1, h2]
  · intro h1 h2 k hk
    simp [lm_array_add, check_type_compatible, h1, check_size_compatible_differs a1 a2 h2 k hk]
  · intro e s h
    unfold lm_array_add at h
    split at h
    · simp only [Outcome.raised.injEq] at h
      exact h.2.symm
    · split at h
      · simp only [Outcome.raised.injEq] at h
        exact h.2.symm
      · split at h
        · simp only [Outcome.raised.injEq] at h
          exact h.2.symm
        · split at h <;> cases h

theorem checks_first_multiply (P : Platform) : checks_first (lm_array_multiply P) := by
  intro a1 a2
  refine ⟨?_, ?_, ?_, ?_⟩
  · intro h
    simp [lm_array_multiply, check_type_compatible, h]
  · intro h1 h2
    simp [lm_array_multiply, check_type_compatible, check_size_compatible, h1, h2]
  · intro h1 h2 k hk
    simp [lm_array_multiply, check_type_compatible, h1,
      check_size_compatible_differs a1 a2 h2 k hk]
  · intro e s h
    unfold lm_array_multiply at h
    split at h
    · simp only [Outcome.raised.injEq] at h
      exact h.2.symm
    · split at h
      · simp only [Outcome.raised.injEq] at h
        exact h.2.symm
      · split at h
        · simp only [Outcome.raised.injEq] at h
          exact h.2.symm
        · split at h <;> cases h

/-- Claim C9 (amended): for each of `bor`, `band`, `bxor`, `add` and `multiply`
on arrays `a1` and `a2`: if the encodings differ the call fails with
`TypeMismatch`; otherwise, if the dimension counts differ, it fails with the
`ShapeMismatch` error that names no dimension; otherwise, if some extents
differ, it fails with the `ShapeMismatch` error naming the first
(lowest-numbered, 1-based) dimension whose extents differ; and in every
failing case both arrays, buffers included, are unchanged. -/
theorem binary_checks (P : Platform) :
    checks_first lm_array_bor ∧ checks_first lm_array_band ∧ checks_first lm_array_bxor
      ∧ checks_first (lm_array_add P) ∧ checks_first (lm_array_multiply P)
      ∧ LuaError.not_same_type.kind = .TypeMismatch
      ∧ LuaError.different_number_of_dimensions.kind = .ShapeMismatch
      ∧ ∀ k, (LuaError.dimension_of_different_size k).kind = .ShapeMismatch :=
  ⟨checks_first_bitwise _, checks_first_bitwise _, checks_first_bitwise _, checks_first_add P,
    checks_first_multiply P, rfl, rfl, fun _ => rfl⟩

/-- Claim C9 as stated fails: the arrays of shapes (2) and (3, 4) have the same
encoding and their first extents differ, yet `band` raises the error for a
different number of dimensions, which names no dimension, instead of the
error naming dimension 1. -/
theorem binary_checks_counterexample :
    (⟨'c', 1, [2], 3, [0, 0, 0]⟩ : luaA_Array).dims.getD 0 0
        ≠ (⟨'c', 2, [3, 4], 13, List.replicate 13 0⟩ : luaA_Array).dims.getD 0 0
      ∧ lm_array_band ⟨'c', 1, [2], 3, [0, 0, 0]⟩ ⟨'c', 2, [3, 4], 13, List.replicate 13 0⟩
        = .raised .different_number_of_dimensions
            (⟨'c', 1, [2], 3, [0, 0, 0]⟩, ⟨'c', 2, [3, 4], 13, List.replicate 13 0⟩)
      ∧ ∀ k, LuaError.different_number_of_dimensions ≠ LuaError.dimension_of_different_size k :=
  ⟨by decide, by decide, fun k h => by cases h⟩

theorem binary_checks_witness :
    lm_array_band ⟨'c', 2, [2, 3], 7, List.replicate 7 1⟩ ⟨'c', 2, [2, 4], 9, List.replicate 9 1⟩
      = .raised (.dimension_of_different_size (1 + 1))
          (⟨'c', 2, [2, 3], 7, List.replicate 7 1⟩, ⟨'c', 2, [2, 4], 9, List.replicate 9 1⟩) :=
  ((binary_checks lp64).2.1 ⟨'c', 2, [2, 3], 7, List.replicate 7 1⟩
    ⟨'c', 2, [2, 4], 9, List.replicate 9 1⟩).2.2.1 rfl rfl 1
    ⟨by decide, by decide, by decide⟩

/-! ## Operations an encoding does not support -/

/-- Claim C10 (amended): for every pair of arrays of the same encoding and
shape whose first operand has a boolean encoding (`b` or `B`), `add` and
`multiply` fail with `UnsupportedOperation`; for every pair whose first
operand is boolean they fail, with `TypeMismatch` or `ShapeMismatch` when the
pair differs in encoding or shape; and for every array with an unsigned
encoding (`C`, `S` or `L`), `negate` fails with `UnsupportedOperation`.  In
each case the arrays, buffers included, are unchanged. -/
theorem unsupported_operations (P : Platform) :
    (∀ a1 a2, (a1.type = 'b' ∨ a1.type = 'B') → a1.type = a2.type → same_extents a1 a2 →
        lm_array_add P a1 a2 = .raised .cannot_add_boolean (a1, a2)
        ∧ lm_array_multiply P a1 a2 = .raised .cannot_multiply_boolean (a1, a2))
    ∧ (∀ a1 a2, (a1.type = 'b' ∨ a1.type = 'B') →
        (∃ e, lm_array_add P a1 a2 = .raised e (a1, a2)
          ∧ (e.kind = .TypeMismatch ∨ e.kind = .ShapeMismatch ∨ e.kind = .UnsupportedOperation))
        ∧ (∃ e, lm_array_multiply P a1 a2 = .raised e (a1, a2)
          ∧ (e.kind = .TypeMismatch ∨ e.kind = .ShapeMismatch
            ∨ e.kind = .UnsupportedOperation)))
    ∧ (∀ a, (a.type = 'C' ∨ a.type = 'S' ∨ a.type = 'L') →
        lm_array_negate P a = .raised .cannot_negate_unsigned a)
    ∧ LuaError.cannot_add_boolean.kind = .UnsupportedOperation
    ∧ LuaError.cannot_multiply_boolean.kind = .UnsupportedOperation
    ∧ LuaError.cannot_negate_unsigned.kind = .UnsupportedOperation := by
  refine ⟨?_, ?_, ?_, rfl, rfl, rfl⟩
  · intro a1 a2 hb ht hs
    have hc := check_size_compatible_same a1 a2 hs
    constructor
    · simp only [lm_array_add, check_type_compatible, ht, ne_eq, not_true_eq_false, if_false, hc]
      rw [if_pos (by rw [← ht]; exact hb)]
    · simp only [lm_array_multiply, check_type_compatible, ht, ne_eq, not_true_eq_false,
        if_false, hc]
      rw [if_pos (by rw [← ht]; exact hb)]
  · intro a1 a2 hb
    by_cases ht : a1.type = a2.type
    · cases hc : check_size_compatible a1 a2 with
      | error e =>
        have hk : e.kind = .ShapeMismatch := by
          unfold check_size_compatible at hc
          split at hc
          · cases hc
            rfl
          · have aux : ∀ n i, check_size_loop a1 a2 n i = .error e → e.kind = .ShapeMismatch := by
              intro n
              induction n with
              | zero =>
                intro i h
                cases h
              | succ n ih =>
                intro i h
                simp only [check_size_loop] at h
                split at h
                · cases h
                  rfl
                · exact ih _ h
            exact aux _ _ hc
        constructor
        · refine ⟨e, ?_, Or.inr (Or.inl hk)⟩
          simp only [lm_array_add, check_type_compatible, ht, ne_eq, not_true_eq_false,
            if_false, hc]
        · refine ⟨e, ?_, Or.inr (Or.inl hk)⟩
          simp only [lm_array_multiply, check_type_compatible, ht, ne_eq, not_true_eq_false,
            if_false, hc]
      | ok u =>
        constructor
        · refine ⟨.cannot_add_boolean, ?_, Or.inr (Or.inr rfl)⟩
          simp only [lm_array_add, check_type_compatible, ht, ne_eq, not_true_eq_false,
            if_false, hc]
          rw [if_pos (by rw [← ht]; exact hb)]
        · refine ⟨.cannot_multiply_boolean, ?_, Or.inr (Or.inr rfl)⟩
          simp only [lm_array_multiply, check_type_compatible, ht, ne_eq, not_true_eq_false,
            if_false, hc]
          rw [if_pos (by rw [← ht]; exact hb)]
    · constructor
      · refine ⟨.not_same_type, ?_, Or.inl rfl⟩
        simp [lm_array_add, check_type_compatible, ht]
      · refine ⟨.not_same_type, ?_, Or.inl rfl⟩
        simp [lm_array_multiply, check_type_compatible, ht]
  · intro a h
    unfold lm_array_negate
    have hnb : ¬ (a.type = 'b' ∨ a.type = 'B') := by
      rcases h with h | h | h <;> rw [h] <;> decide
    rw [if_neg hnb, if_pos h]

/-- Claim C10 as stated fails: the first operand has the boolean encoding `b`
and the second the encoding `c`; `add` fails with the error for arrays of
different type (`TypeMismatch`), which is checked first, and not with
`UnsupportedOperation`. -/
theorem unsupported_operations_counterexample :
    lm_array_add lp64 ⟨'b', 1, [3], 1, [0]⟩ ⟨'c', 1, [3], 4, [0, 0, 0, 0]⟩
        = .raised .not_same_type (⟨'b', 1, [3], 1, [0]⟩, ⟨'c', 1, [3], 4, [0, 0, 0, 0]⟩)
      ∧ LuaError.not_same_type.kind ≠ ErrorKind.UnsupportedOperation := by
  decide

theorem unsupported_operations_witness :
    lm_array_add lp64 ⟨'B', 1, [3], 4, [0, 1, 0, 0]⟩ ⟨'B', 1, [3], 4, [1, 1, 0, 0]⟩
        = .raised .cannot_add_boolean
            (⟨'B', 1, [3], 4, [0, 1, 0, 0]⟩, ⟨'B', 1, [3], 4, [1, 1, 0, 0]⟩)
      ∧ lm_array_multiply lp64 ⟨'B', 1, [3], 4, [0, 1, 0, 0]⟩ ⟨'B', 1, [3], 4, [1, 1, 0, 0]⟩
        = .raised .cannot_multiply_boolean
            (⟨'B', 1, [3], 4, [0, 1, 0, 0]⟩, ⟨'B', 1, [3], 4, [1, 1, 0, 0]⟩) :=
  (unsupported_operations lp64).1 ⟨'B', 1, [3], 4, [0, 1, 0, 0]⟩ ⟨'B', 1, [3], 4, [1, 1, 0, 0]⟩
    (Or.inr rfl) rfl ⟨rfl, by decide⟩

/-! ## Arrays made by `l_array` are well formed -/

theorem wrapInt_le (x : Int) : -2147483648 ≤ wrapInt x ∧ wrapInt x ≤ 2147483647 := by
  unfold wrapInt
  omega

theorem wrapInt_idem (x : Int) : wrapInt (wrapInt x) = wrapInt x :=
  wrapInt_of_range (wrapInt_le x).1 (wrapInt_le x).2

theorem spec_stride_eq_prod_take (l : List Int) (k : Nat) (hk : k ≤ l.length) :
    spec_stride l k = (l.take k).prod := by
  induction k with
  | zero => simp [spec_stride]
  | succ k ih =>
    have hlt : k < l.length := by omega
    simp only [spec_stride]
    rw [ih (by omega), List.take_succ, List.prod_append, List.getD_eq_getElem _ _ hlt,
      List.getElem?_eq_getElem hlt]
    simp

theorem spec_stride_eq_prod (l : List Int) : spec_stride l l.length = l.prod := by
  rw [spec_stride_eq_prod_take l l.length (le_refl _), List.take_length]

/-- The loop of `l_array` returns the sizes as `int`s and their product as an `int`. -/
theorem l_array_loop_total (P : Platform) (args : List LuaValue) (n i : Nat) (total : Int)
    (dims : List Int) (t : Int) (hw : wrapInt total = total)
    (h : l_array_loop P args n i total = .ok (dims, t)) :
    t = wrapInt (total * dims.prod) ∧ ∀ e, e ∈ dims → e ≤ 2147483647 := by
  induction n generalizing i total dims t with
  | zero =>
    simp only [l_array_loop, Except.ok.injEq, Prod.mk.injEq] at h
    rw [← h.1, ← h.2]
    simp only [List.prod_nil, mul_one]
    exact ⟨hw.symm, fun e he => by cases he⟩
  | succ n ih =>
    simp only [l_array_loop] at h
    split at h
    · cases h
    · split at h
      · cases h
      · rename_i x _ hx
        split at h
        · cases h
        · rename_i dims2 t2 h2
          simp only [Except.ok.injEq, Prod.mk.injEq] at h
          obtain ⟨ht, hle⟩ := ih _ _ _ _ (wrapInt_idem _) h2
          rw [← h.1, ← h.2, ht, List.prod_cons, wrapInt_wrapInt_mul, mul_assoc]
          refine ⟨rfl, ?_⟩
          intro e he
          rcases List.mem_cons.1 he with h4 | h4
          · rw [h4]
            exact (double_to_int_range _).2
          · exact hle e h4

/-- What `l_array` records when it succeeds. -/
theorem l_array_fields (P : Platform) (malloc : Malloc) (args : List LuaValue) (a : luaA_Array)
    (h : l_array P malloc args = .ok a) :
    a.datasize = wrapInt (Int.tdiv (wrapInt (wrapInt a.dims.prod * type_size_in_bits P a.type)) 8
        + 1)
      ∧ a.data = List.replicate (size_t a.datasize) 0
      ∧ ∀ e, e ∈ a.dims → e ≤ 2147483647 := by
  unfold l_array at h
  split at h
  · cases h
  · split at h
    · cases h
    · try simp only at h
      split at h
      · cases h
      · split at h
        · cases h
        · split at h
          · cases h
          · rename_i dims t hloop
            try simp only at h
            split at h
            · cases h
            · simp only [Except.ok.injEq] at h
              obtain ⟨ht, hle⟩ := l_array_loop_total P args _ _ _ _ _ (by decide) hloop
              rw [one_mul] at ht
              subst ht
              rw [← h]
              exact ⟨rfl, rfl, hle⟩

/-- An array made by `l_array` is well formed as soon as the bit size of its
elements, the product of the extents times the width of the type, fits an
`int`: the size computation of `l_array` then does not overflow. -/
theorem l_array_valid (P : Platform) (malloc : Malloc) (args : List LuaValue) (a : luaA_Array)
    (h : l_array P malloc args = .ok a)
    (hfit : a.dims.prod * type_size_in_bits P a.type ≤ INT_MAX) : Valid P a := by
  obtain ⟨⟨hnd, hpos, htype⟩, hlen⟩ := l_array_shape P malloc args a h
  obtain ⟨hsize, hdata, hle⟩ := l_array_fields P malloc args a h
  have hstride : spec_stride a.dims a.ndims = a.dims.prod := by
    rw [← hlen]
    exact spec_stride_eq_prod a.dims
  have hprod := spec_stride_pos a.dims a.ndims hpos
  rw [hstride] at hprod
  have hbits : 1 ≤ type_size_in_bits P a.type := by
    unfold type_size_in_bits
    rcases type_character_cases htype with ⟨T, hT⟩ | ⟨hB, hT⟩ | ⟨hb, hT⟩
    · rw [hT]
      have := sizeof_pos P T
      simp only
      push_cast
      omega
    · rw [hT, hB]
      simp
    · rw [hT, hb]
      simp
  unfold INT_MAX at hfit
  have hp2 : a.dims.prod ≤ 2147483647 := by nlinarith
  have hnn : 0 ≤ a.dims.prod * type_size_in_bits P a.type := by positivity
  have hsz : a.datasize = a.dims.prod * type_size_in_bits P a.type / 8 + 1 := by
    rw [hsize, wrapInt_of_range (x := a.dims.prod) (by omega) hp2,
      wrapInt_of_range (x := a.dims.prod * type_size_in_bits P a.type) (by omega) hfit,
      Int.tdiv_eq_ediv hnn (by norm_num), wrapInt_of_range (by omega) (by omega)]
  refine ⟨htype, hnd, hpos, ?_, ?_, ?_, ?_, ?_⟩
  · intro i hi
    unfold INT_MAX
    apply hle
    rw [List.getD_eq_getElem _ _ (by omega)]
    exact List.getElem_mem _
  · rw [hstride]
    exact hfit
  · rw [hstride]
    exact hsz
  · rw [hdata, List.length_replicate]
    unfold size_t
    have h0 : 0 ≤ a.datasize := by omega
    rw [Int.emod_eq_of_lt h0 (by omega)]
    exact Int.toNat_of_nonneg h0
  · intro b hb
    rw [hdata] at hb
    rw [List.eq_of_mem_replicate hb]
    norm_num


/-! ## Validation in `get` and `set` -/

theorem peek_natCast (d : List Nat) (i : Nat) : peek d (i : Int) = d[i]? := by
  unfold peek
  simp

/-- The bytes of a loaded word are the bytes of the buffer. -/
theorem peek_load {d : List Nat} (hd : ∀ x, x ∈ d → x < 256) :
    ∀ (w : Nat) (off : Int) (x : Nat), load d off w = some x →
      ∀ k, k < w → peek d (off + k) = some (x / 256 ^ k % 256) := by
  intro w
  induction w with
  | zero => intro off x _ k hk; omega
  | succ w ih =>
    intro off x h k hk
    simp only [load] at h
    split at h
    · cases h
    · rename_i b hb
      split at h
      · cases h
      · rename_i r hr
        simp only [Option.some.injEq] at h
        subst h
        have hb256 := hd b (peek_mem hb)
        cases k with
        | zero =>
          simp only [Nat.cast_zero, add_zero, pow_zero, Nat.div_one]
          rw [hb]
          congr 1
          omega
        | succ k =>
          have := ih (off + 1) r hr k (by omega)
          have e : off + ((k + 1 : Nat) : Int) = off + 1 + (k : Int) := by push_cast; ring
          have hx : (b + 256 * r) / 256 = r := by omega
          rw [e, this, Nat.pow_succ', ← Nat.div_div_eq_div_mul, hx]

/-- The bytes written by a store are the bytes of the stored value. -/
theorem peek_store {d d2 : List Nat} {off : Int} {w v : Nat} (h : store d off w v = some d2) :
    ∀ k, k < w → peek d2 (off + k) = some (v / 256 ^ k % 256) := by
  induction w generalizing d off v with
  | zero => intro k hk; omega
  | succ w ih =>
    intro k hk
    simp only [store] at h
    split at h
    · cases h
    · rename_i d1 hp
      cases k with
      | zero =>
        simp only [Nat.cast_zero, add_zero, pow_zero, Nat.div_one]
        rw [peek_store_outside h (Or.inl (by omega)), peek_poke_same hp]
      | succ k =>
        have := ih h k (by omega)
        have e : off + ((k + 1 : Nat) : Int) = off + 1 + (k : Int) := by push_cast; ring
        rw [e, this, Nat.pow_succ', ← Nat.div_div_eq_div_mul]

/-- One step of the word loop, byte by byte. -/
theorem word_step {d d2 : List Nat} {j y : Nat} (h : store d (4 * (j : Int)) 4 y = some d2)
    (i : Nat) :
    d2[i]? = if 4 * j ≤ i ∧ i < 4 * j + 4 then some (y / 256 ^ (i - 4 * j) % 256) else d[i]? := by
  by_cases hi : 4 * j ≤ i ∧ i < 4 * j + 4
  · rw [if_pos hi, ← peek_natCast]
    have := peek_store h (i - 4 * j) (by omega)
    have e : 4 * (j : Int) + ((i - 4 * j : Nat) : Int) = (i : Int) := by omega
    rw [e] at this
    exact this
  · rw [if_neg hi, ← peek_natCast, ← peek_natCast]
    exact peek_store_outside h (by omega)

/-- The word loop applies `φ` to each byte of the words it passes, once. -/
theorem word_loop_spec (f : Nat → Nat → Option Nat) (φ : Nat → Nat → Nat) (q : Nat)
    (hf : ∀ j x, j < q → x < 256 ^ 4 →
      ∃ y, f j x = some y ∧ ∀ k, k < 4 → y / 256 ^ k % 256 = φ (4 * j + k) (x / 256 ^ k % 256)) :
    ∀ (n j : Nat) (d : List Nat), j + n ≤ q → 4 * (j + n) ≤ d.length →
      (∀ x, x ∈ d → x < 256) →
      ∃ r, word_loop f n j d = some r ∧ r.length = d.length ∧ (∀ x, x ∈ r → x < 256)
        ∧ ∀ i, r[i]? = if 4 * j ≤ i ∧ i < 4 * (j + n) then (d[i]?).map (φ i) else d[i]? := by
  intro n
  induction n with
  | zero =>
    intro j d _ _ hd
    refine ⟨d, rfl, rfl, hd, fun i => ?_⟩
    rw [if_neg (by omega)]
  | succ n ih =>
    intro j d hq hlen hd
    obtain ⟨x, hx⟩ := load_some d (4 * (j : Int)) 4 (by omega) (by push_cast; omega)
    obtain ⟨y, hy, hbytes⟩ := hf j x (by omega) (load_lt hd hx)
    obtain ⟨d2, hst⟩ := store_some d (4 * (j : Int)) 4 y (by omega) (by push_cast; omega)
    have hl2 := store_length hst
    obtain ⟨r, hr, hrl, hrb, hri⟩ := ih (j + 1) d2 (by omega) (by omega) (store_bytes hst hd)
    refine ⟨r, ?_, by omega, hrb, fun i => ?_⟩
    · simp only [word_loop, hx, hy, hst]
      exact hr
    · rw [hri i, word_step hst i]
      by_cases h1 : 4 * j ≤ i ∧ i < 4 * j + 4
      · rw [if_neg (by omega), if_pos h1, if_pos (by omega)]
        have hp := peek_load hd 4 (4 * (j : Int)) x hx (i - 4 * j) (by omega)
        have e : 4 * (j : Int) + ((i - 4 * j : Nat) : Int) = (i : Int) := by omega
        rw [e, peek_natCast] at hp
        rw [hp, hbytes (i - 4 * j) (by omega)]
        have e2 : 4 * j + (i - 4 * j) = i := by omega
        rw [e2]
        rfl
      · by_cases h2 : 4 * (j + 1) ≤ i ∧ i < 4 * (j + 1 + n)
        · rw [if_pos h2, if_neg h1, if_pos (by omega)]
        · rw [if_neg h2, if_neg h1, if_neg (by omega)]

/-- The byte loop applies `φ` to each byte it passes, once. -/
theorem byte_loop_spec (f : Nat → Nat → Option Nat) (φ : Nat → Nat → Nat) (base m : Nat)
    (hf : ∀ i x, base ≤ i → i < base + m → x < 256 → ∃ y, f i x = some y ∧ y % 256 = φ i x) :
    ∀ (n k : Nat) (d : List Nat), k + n ≤ m → base + k + n ≤ d.length →
      (∀ x, x ∈ d → x < 256) →
      ∃ r, byte_loop f base n k d = some r ∧ r.length = d.length ∧ (∀ x, x ∈ r → x < 256)
        ∧ ∀ i, r[i]? = if base + k ≤ i ∧ i < base + k + n then (d[i]?).map (φ i)
            else d[i]? := by
  intro n
  induction n with
  | zero =>
    intro k d _ _ hd
    refine ⟨d, rfl, rfl, hd, fun i => ?_⟩
    rw [if_neg (by omega)]
  | succ n ih =>
    intro k d hm hlen hd
    obtain ⟨x, hx⟩ := @peek_lt d ((base + k : Nat) : Int) (by omega) (by omega)
    obtain ⟨y, hy, hval⟩ := hf (base + k) x (by omega) (by omega) (hd x (peek_mem hx))
    have hst := @poke_some d ((base + k : Nat) : Int) (y % 256) (by omega)
      (by omega)
    have hl2 := poke_length hst
    obtain ⟨r, hr, hrl, hrb, hri⟩ := ih (k + 1) _ (by omega) (by omega)
      (poke_bytes hst (Nat.mod_lt _ (by decide)) hd)
    refine ⟨r, ?_, by omega, hrb, fun i => ?_⟩
    · simp only [byte_loop, hx, hy, hst]
      exact hr
    · rw [hri i]
      by_cases h1 : i = base + k
      · subst h1
        rw [if_neg (by omega), if_pos (by omega), ← peek_natCast, peek_poke_same hst,
          ← peek_natCast, hx, hval]
        rfl
      · have hne : peek (d.set ((base + k : Nat) : Int).toNat (y % 256)) (i : Int)
            = peek d (i : Int) := peek_poke_ne hst (by omega)
        rw [peek_natCast, peek_natCast] at hne
        rw [hne]
        by_cases h2 : base + (k + 1) ≤ i ∧ i < base + (k + 1) + n
        · rw [if_pos h2, if_pos (by omega)]
        · rw [if_neg h2, if_neg (by omega)]

/-- The word loop over `N / 4` words followed by the byte loop over the
`N % 4` bytes from byte `N / 4 * 4` applies `φ` to each of the `N` bytes, once. -/
theorem two_phase_spec (fw fb : Nat → Nat → Option Nat) (φ : Nat → Nat → Nat) (N : Nat)
    (hfw : ∀ j x, j < N / 4 → x < 256 ^ 4 →
      ∃ y, fw j x = some y
        ∧ ∀ k, k < 4 → y / 256 ^ k % 256 = φ (4 * j + k) (x / 256 ^ k % 256))
    (hfb : ∀ i x, N / 4 * 4 ≤ i → i < N / 4 * 4 + N % 4 → x < 256 →
      ∃ y, fb i x = some y ∧ y % 256 = φ i x)
    (d : List Nat) (hlen : d.length = N) (hd : ∀ x, x ∈ d → x < 256) :
    ∃ r1 r, word_loop fw (N / 4) 0 d = some r1
      ∧ byte_loop fb (N / 4 * 4) (N % 4) 0 r1 = some r
      ∧ r.length = N ∧ (∀ x, x ∈ r → x < 256) ∧ ∀ i, r[i]? = (d[i]?).map (φ i) := by
  obtain ⟨r1, h1, hl1, hb1, hi1⟩ := word_loop_spec fw φ (N / 4) hfw (N / 4) 0 d (by omega)
    (by omega) hd
  obtain ⟨r, h2, hl2, hb2, hi2⟩ := byte_loop_spec fb φ (N / 4 * 4) (N % 4) hfb (N % 4) 0 r1
    (by omega) (by omega) hb1
  refine ⟨r1, r, h1, h2, by omega, hb2, fun i => ?_⟩
  rw [hi2 i, hi1 i]
  by_cases ha : i < N / 4 * 4
  · rw [if_neg (by omega), if_pos (by omega)]
  · by_cases hb : i < N
    · rw [if_pos (by omega), if_neg (by omega)]
    · rw [if_neg (by omega), if_neg (by omega)]
      rw [List.getElem?_eq_none (by omega)]
      rfl
/-! ## The bitwise functions, byte by byte -/

theorem acts_bitwise_or : acts_bitwise (fun x y => x ||| y) := by
  intro x y m n
  apply Nat.eq_of_testBit_eq
  intro i
  simp only [← Nat.shiftRight_eq_div_pow, Nat.testBit_or, Nat.testBit_mod_two_pow,
    Nat.testBit_shiftRight]
  cases decide (i < n) <;> simp

theorem acts_bitwise_and : acts_bitwise (fun x y => x &&& y) := by
  intro x y m n
  apply Nat.eq_of_testBit_eq
  intro i
  simp only [← Nat.shiftRight_eq_div_pow, Nat.testBit_and, Nat.testBit_mod_two_pow,
    Nat.testBit_shiftRight]
  cases decide (i < n) <;> simp

theorem acts_bitwise_xor : acts_bitwise (fun x y => x ^^^ y) := by
  intro x y m n
  apply Nat.eq_of_testBit_eq
  intro i
  simp only [← Nat.shiftRight_eq_div_pow, Nat.testBit_xor, Nat.testBit_mod_two_pow,
    Nat.testBit_shiftRight]
  cases decide (i < n) <;> simp

theorem acts_bitwise_byte {op : Nat → Nat → Nat} (h : acts_bitwise op) (x y k : Nat) :
    op x y / 256 ^ k % 256 = op (x / 256 ^ k % 256) (y / 256 ^ k % 256) := by
  have := h x y (8 * k) 8
  rw [pow_mul] at this
  exact this

theorem acts_bitwise_lt {op : Nat → Nat → Nat} (h : acts_bitwise op) {x y : Nat}
    (hx : x < 256) (hy : y < 256) : op x y % 256 = op x y := by
  have := h x y 0 8
  simp only [pow_zero, Nat.div_one] at this
  rw [show (2 : Nat) ^ 8 = 256 from rfl, Nat.mod_eq_of_lt hx, Nat.mod_eq_of_lt hy] at this
  exact this

theorem size_t_natCast (N : Nat) (h : (N : Int) ≤ INT_MAX) : size_t (N : Int) = N := by
  unfold size_t
  unfold INT_MAX at h
  have : (N : Int) % 2 ^ 64 = (N : Int) := Int.emod_eq_of_lt (by omega) (by omega)
  rw [this]
  rfl

/-- The two-phase pass of `bor`, `band`, `bxor` over buffers of `N` bytes is the
operator applied to each pair of bytes. -/
theorem bitwise_pass_spec {op : Nat → Nat → Nat} (hop : acts_bitwise op) (N : Nat)
    (hN : (N : Int) ≤ INT_MAX) (d1 d2 : List Nat) (h1 : d1.length = N) (h2 : d2.length = N)
    (hb1 : ∀ x, x ∈ d1 → x < 256) (hb2 : ∀ x, x ∈ d2 → x < 256) :
    bitwise_pass op (N : Int) d1 d2 = some (List.zipWith op d1 d2) := by
  unfold bitwise_pass
  rw [size_t_natCast N hN]
  obtain ⟨r1, r, hw, hb, hl, _, hi⟩ := two_phase_spec
    (fun j x => (load d2 (4 * (j : Int)) 4).map (fun y => op x y))
    (fun i x => (peek d2 (i : Int)).map (fun y => op x y))
    (fun i x => op x (d2.getD i 0)) N
    (by
      intro j x hj hx
      obtain ⟨y, hy⟩ := load_some d2 (4 * (j : Int)) 4 (by omega) (by push_cast; omega)
      refine ⟨op x y, by simp only [hy, Option.map_some'], fun k hk => ?_⟩
      rw [acts_bitwise_byte hop]
      have hp := peek_load hb2 4 (4 * (j : Int)) y hy k hk
      have e : 4 * (j : Int) + (k : Int) = ((4 * j + k : Nat) : Int) := by push_cast; ring
      rw [e, peek_natCast] at hp
      show _ = op (x / 256 ^ k % 256) (d2.getD (4 * j + k) 0)
      rw [List.getD_eq_getElem?_getD, hp]
      rfl)
    (by
      intro i x h0 h3 hx
      have hi : i < d2.length := by omega
      refine ⟨op x d2[i], ?_, ?_⟩
      · show Option.map (fun y => op x y) (peek d2 (i : Int)) = _
        rw [peek_natCast, List.getElem?_eq_getElem hi]
        rfl
      show _ = op x (d2.getD i 0)
      rw [List.getD_eq_getElem?_getD, List.getElem?_eq_getElem hi]
      exact acts_bitwise_lt hop hx (hb2 _ (List.getElem_mem _)))
    d1 h1 hb1
  simp only [hw, hb]
  congr 1
  apply List.ext_getElem?
  intro i
  rw [hi i, List.getElem?_zipWith]
  by_cases hlt : i < N
  · rw [List.getElem?_eq_getElem (by omega : i < d1.length),
      List.getElem?_eq_getElem (by omega : i < d2.length), List.getD_eq_getElem?_getD,
      List.getElem?_eq_getElem (by omega : i < d2.length)]
    rfl
  · rw [List.getElem?_eq_none (by omega : d1.length ≤ i)]
    rfl

/-- The same pass with both arguments the same buffer combines each byte with itself. -/
theorem bitwise_pass_self_spec {op : Nat → Nat → Nat} (hop : acts_bitwise op) (N : Nat)
    (hN : (N : Int) ≤ INT_MAX) (d : List Nat) (h1 : d.length = N)
    (hb1 : ∀ x, x ∈ d → x < 256) :
    bitwise_pass_self op (N : Int) d = some (d.map (fun x => op x x)) := by
  unfold bitwise_pass_self
  rw [size_t_natCast N hN]
  obtain ⟨r1, r, hw, hb, hl, _, hi⟩ := two_phase_spec
    (fun _ x => some (op x x)) (fun _ x => some (op x x)) (fun _ x => op x x) N
    (fun j x _ _ => ⟨op x x, rfl, fun k _ => acts_bitwise_byte hop x x k⟩)
    (fun i x _ _ hx => ⟨op x x, rfl, acts_bitwise_lt hop hx hx⟩)
    d h1 hb1
  simp only [hw, hb]
  congr 1
  apply List.ext_getElem?
  intro i
  rw [hi i, List.getElem?_map]

/-- The two-phase pass of `bnot` flips the bits of each byte. -/
theorem bnot_pass_spec (N : Nat) (d : List Nat) (h1 : d.length = N)
    (hb1 : ∀ x, x ∈ d → x < 256) :
    ∃ r1, word_loop (fun _ x => some (x ^^^ 4294967295)) (N / 4) 0 d = some r1
      ∧ byte_loop (fun _ x => some (x ^^^ 255)) (N / 4 * 4) (N % 4) 0 r1
        = some (d.map (fun x => x ^^^ 255)) := by
  obtain ⟨r1, r, hw, hb, hl, _, hi⟩ := two_phase_spec
    (fun _ x => some (x ^^^ 4294967295)) (fun _ x => some (x ^^^ 255)) (fun _ x => x ^^^ 255) N
    (fun j x _ _ => ⟨x ^^^ 4294967295, rfl, fun k hk => by
      rw [acts_bitwise_byte acts_bitwise_xor]
      have : 4294967295 / 256 ^ k % 256 = 255 := by
        interval_cases k <;> rfl
      rw [this]⟩)
    (fun i x _ _ hx => ⟨x ^^^ 255, rfl,
      acts_bitwise_lt acts_bitwise_xor hx (by decide : 255 < 256)⟩)
    d h1 hb1
  refine ⟨r1, hw, ?_⟩
  rw [hb]
  congr 1
  apply List.ext_getElem?
  intro i
  rw [hi i, List.getElem?_map]

/-! ## The bitwise functions on arrays -/

theorem spec_stride_congr (e1 e2 : List Int) :
    ∀ n, (∀ i, i < n → e1.getD i 0 = e2.getD i 0) → spec_stride e1 n = spec_stride e2 n := by
  intro n
  induction n with
  | zero => intro _; rfl
  | succ n ih =>
    intro h
    simp only [spec_stride]
    rw [ih (fun i hi => h i (by omega)), h n (by omega)]

theorem valid_datasize_le {P : Platform} {a : luaA_Array} (hv : Valid P a) :
    ((a.data.length : Nat) : Int) ≤ INT_MAX := by
  have h1 := hv.fits
  have h2 := hv.datasize_eq
  rw [hv.data_len, h2]
  unfold INT_MAX at h1 ⊢
  omega

/-- Valid arrays of the same type and extents have buffers of the same size. -/
theorem valid_same_length {P : Platform} {a1 a2 : luaA_Array} (h1 : Valid P a1)
    (h2 : Valid P a2) (ht : a1.type = a2.type) (he : same_extents a1 a2) :
    a2.data.length = a1.data.length := by
  have e1 := h1.data_len
  have e2 := h2.data_len
  rw [h1.datasize_eq] at e1
  rw [h2.datasize_eq, ← he.1, ← ht, ← spec_stride_congr a1.dims a2.dims a1.ndims he.2] at e2
  omega

theorem lm_array_bitwise_valid {P : Platform} {op : Nat → Nat → Nat} (hop : acts_bitwise op)
    {a1 a2 : luaA_Array} (h1 : Valid P a1) (h2 : Valid P a2) (ht : a1.type = a2.type)
    (he : same_extents a1 a2) : lm_array_bitwise op a1 a2 = spec_bytewise op a1 a2 := by
  unfold lm_array_bitwise spec_bytewise
  have hc : check_type_compatible a1 a2 = .ok () := by
    unfold check_type_compatible
    rw [if_neg (by simpa using ht)]
  rw [hc, check_size_compatible_same a1 a2 he]
  simp only
  rw [← h1.data_len, bitwise_pass_spec hop a1.data.length (valid_datasize_le h1) a1.data a2.data
    rfl (valid_same_length h1 h2 ht he) h1.bytes h2.bytes]

theorem lm_array_bitwise_self_valid {P : Platform} {op : Nat → Nat → Nat}
    (hop : acts_bitwise op) {a : luaA_Array} (h1 : Valid P a) :
    lm_array_bitwise_self op a
      = .returned () { a with data := a.data.map (fun x => op x x) } := by
  unfold lm_array_bitwise_self
  have hc : check_type_compatible a a = .ok () := by
    unfold check_type_compatible
    rw [if_neg (by simp)]
  rw [hc, check_size_compatible_same a a ⟨rfl, fun _ _ => rfl⟩]
  simp only
  rw [← h1.data_len, bitwise_pass_self_spec hop a.data.length (valid_datasize_le h1) a.data
    rfl h1.bytes]

theorem lm_array_bnot_valid {P : Platform} {a : luaA_Array} (h1 : Valid P a) :
    lm_array_bnot a = .returned () { a with data := a.data.map (fun x => x ^^^ 255) } := by
  unfold lm_array_bnot
  have hs : size_t a.datasize = a.data.length := by
    rw [← h1.data_len]
    exact size_t_natCast _ (valid_datasize_le h1)
  rw [hs]
  obtain ⟨r1, hw, hb⟩ := bnot_pass_spec a.data.length a.data rfl h1.bytes
  simp only [hw, hb]

theorem xor_255_twice (x : Nat) : (x ^^^ 255) ^^^ 255 = x := by
  rw [Nat.xor_assoc, Nat.xor_self, Nat.xor_zero]

theorem xor_255_lt {x : Nat} (h : x < 256) : x ^^^ 255 < 256 :=
  Nat.xor_lt_two_pow (n := 8) h (by decide)

theorem valid_bnot {P : Platform} {a : luaA_Array} (h1 : Valid P a) :
    Valid P { a with data := a.data.map (fun x => x ^^^ 255) } := by
  apply valid_with_data h1 (by simp)
  intro x hx
  rw [List.mem_map] at hx
  obtain ⟨y, hy, rfl⟩ := hx
  exact xor_255_lt (h1.bytes y hy)

/-! ## The bitwise functions on the bit-packed encoding -/

theorem peek_getD {d : List Nat} {off : Int} (h0 : 0 ≤ off) (h1 : off < (d.length : Int)) :
    peek d off = some (d.getD off.toNat 0) := by
  unfold peek
  rw [if_pos h0, List.getD_eq_getElem?_getD, List.getElem?_eq_getElem (by omega)]
  rfl

/-- On a bit-packed array `get` returns bit `i % 8` of byte `i / 8`, `i` the linear offset. -/
theorem lm_array_get_bit {P : Platform} {a : luaA_Array} (hv : Valid P a) (hb : a.type = 'b')
    {c : List Int} (hlen : c.length = a.ndims) (hin : in_range a.dims c a.ndims) :
    lm_array_get P a (lua_coords c)
      = .returned (.boolean ((a.data.getD (spec_linear_offset a.dims c a.ndims / 8).toNat
          0).testBit (spec_linear_offset a.dims c a.ndims % 8).toNat)) a
      ∧ (spec_linear_offset a.dims c a.ndims / 8).toNat < a.data.length := by
  obtain ⟨h0, h1⟩ := spec_linear_offset_bounds a.dims c a.ndims hv.dims_pos hin
  have hbuf := buffer_bit_bool hv hb
  obtain ⟨hdiv, hmod⟩ := tdiv_tmod_nonneg h0
  have hk : ¬ (Int.tmod (spec_linear_offset a.dims c a.ndims) 8 < 0) := by omega
  have hT : TYPESWITCH a.type = none := by rw [hb]; rfl
  refine ⟨?_, by omega⟩
  rw [lm_array_get_in_range hv hlen hin]
  unfold extract_element
  rw [hT, hb]
  simp only [if_neg hk]
  rw [hdiv, hmod, peek_getD (by omega) (by omega)]
  simp only [luaA_pusharrayelement, hT, hb]
  congr 2
  cases hbit : (a.data.getD (spec_linear_offset a.dims c a.ndims / 8).toNat 0).testBit
      (spec_linear_offset a.dims c a.ndims % 8).toNat
  · have : ¬ ((a.data.getD (spec_linear_offset a.dims c a.ndims / 8).toNat 0)
        &&& (1 <<< (spec_linear_offset a.dims c a.ndims % 8).toNat) ≠ 0) := by
      rw [and_one_shiftLeft_ne_zero, hbit]
      simp
    rw [if_neg this]
    simp
    rfl
  · have : (a.data.getD (spec_linear_offset a.dims c a.ndims / 8).toNat 0)
        &&& (1 <<< (spec_linear_offset a.dims c a.ndims % 8).toNat) ≠ 0 := by
      rw [and_one_shiftLeft_ne_zero, hbit]
    rw [if_pos this]
    simp
    rfl

theorem zipWith_getD (op : Nat → Nat → Nat) (d1 d2 : List Nat) (k : Nat) (h1 : k < d1.length)
    (h2 : k < d2.length) : (List.zipWith op d1 d2).getD k 0 = op (d1.getD k 0) (d2.getD k 0) := by
  simp only [List.getD_eq_getElem?_getD, List.getElem?_zipWith, List.getElem?_eq_getElem h1,
    List.getElem?_eq_getElem h2, Option.getD_some]

theorem map_getD (f : Nat → Nat) (d : List Nat) (k : Nat) (h1 : k < d.length) :
    (d.map f).getD k 0 = f (d.getD k 0) := by
  simp only [List.getD_eq_getElem?_getD, List.getElem?_map, List.getElem?_eq_getElem h1,
    Option.map_some', Option.getD_some]

theorem acts_bitwise_lt_256 {op : Nat → Nat → Nat} (h : acts_bitwise op) {x y : Nat}
    (hx : x < 256) (hy : y < 256) : op x y < 256 := by
  rw [← acts_bitwise_lt h hx hy]
  exact Nat.mod_lt _ (by decide)

theorem valid_zipWith {P : Platform} {op : Nat → Nat → Nat} (hop : acts_bitwise op)
    {a1 a2 : luaA_Array} (h1 : Valid P a1) (h2 : Valid P a2) (ht : a1.type = a2.type)
    (he : same_extents a1 a2) :
    Valid P { a1 with data := List.zipWith op a1.data a2.data } := by
  apply valid_with_data h1
  · rw [List.length_zipWith, valid_same_length h1 h2 ht he, Nat.min_self]
  · intro x hx
    obtain ⟨i, hi, rfl⟩ := List.getElem_of_mem hx
    rw [List.getElem_zipWith]
    exact acts_bitwise_lt_256 hop (h1.bytes _ (List.getElem_mem _))
      (h2.bytes _ (List.getElem_mem _))

/-- After a binary bitwise function on bit-packed arrays, `get` returns the
operator applied to the bits that `get` returned before. -/
theorem get_after_bitwise {P : Platform} {op : Nat → Nat → Nat} (hop : acts_bitwise op)
    (g : Bool → Bool → Bool) (hg : ∀ x y k, (op x y).testBit k = g (x.testBit k) (y.testBit k))
    {a b : luaA_Array} (ha : Valid P a) (hb : Valid P b) (hta : a.type = 'b')
    (htb : b.type = 'b') (he : same_extents a b) {c : List Int} (hlen : c.length = a.ndims)
    (hin : in_range a.dims c a.ndims) :
    ∃ x y, lm_array_get P a (lua_coords c) = .returned (.boolean x) a
      ∧ lm_array_get P b (lua_coords c) = .returned (.boolean y) b
      ∧ lm_array_get P { a with data := List.zipWith op a.data b.data } (lua_coords c)
        = .returned (.boolean (g x y)) { a with data := List.zipWith op a.data b.data } := by
  have ht : a.type = b.type := by rw [hta, htb]
  have hinb : in_range b.dims c b.ndims := by
    intro i hi
    rw [← he.2 i (by rw [he.1]; exact hi)]
    exact hin i (by rw [he.1]; exact hi)
  have hoff : spec_linear_offset b.dims c b.ndims = spec_linear_offset a.dims c a.ndims := by
    rw [← he.1]
    unfold spec_linear_offset
    congr 1
    apply List.map_congr_left
    intro i hi
    rw [List.mem_range] at hi
    rw [spec_stride_congr a.dims b.dims i (fun j hj => he.2 j (by omega))]
  obtain ⟨hga, hla⟩ := lm_array_get_bit ha hta hlen hin
  obtain ⟨hgb, hlb⟩ := lm_array_get_bit hb htb (by rw [← he.1]; exact hlen) hinb
  obtain ⟨hgc, _⟩ := lm_array_get_bit (valid_zipWith hop ha hb ht he) hta hlen hin
  rw [hoff] at hgb hlb
  refine ⟨_, _, hga, hgb, ?_⟩
  rw [hgc]
  simp only
  rw [zipWith_getD op a.data b.data _ hla hlb, hg]


/-! ## Claims on the bitwise functions -/

/-- Claim C12: `bnot` is an involution on the whole buffer.  For every array
(of any encoding and shape) `bnot` returns with a buffer of the same
`datasize` bytes, and a second `bnot` returns the array as it was before the
first: every one of its `datasize` bytes, the tail bytes after the last whole
word included, has its original value. -/
theorem bnot_involution (P : Platform) (a : luaA_Array) (hv : Valid P a) :
    ∃ a2, lm_array_bnot a = .returned () a2
      ∧ (a2.data.length : Int) = a.datasize
      ∧ (a.data.length : Int) = a.datasize
      ∧ lm_array_bnot a2 = .returned () a := by
  refine ⟨_, lm_array_bnot_valid hv, ?_, hv.data_len, ?_⟩
  · simp only [List.length_map]
    exact hv.data_len
  · rw [lm_array_bnot_valid (valid_bnot hv)]
    simp only [List.map_map]
    have : ((fun x => x ^^^ 255) ∘ fun x => x ^^^ 255) = (id : Nat → Nat) := by
      funext x
      exact xor_255_twice x
    rw [this, List.map_id]

theorem bnot_involution_witness :
    ∃ a2, lm_array_bnot ⟨'s', 1, [3], 7, [1, 2, 3, 4, 5, 6, 0]⟩ = .returned () a2
      ∧ (a2.data.length : Int) = 7
      ∧ (([1, 2, 3, 4, 5, 6, 0] : List Nat).length : Int) = 7
      ∧ lm_array_bnot a2 = .returned () ⟨'s', 1, [3], 7, [1, 2, 3, 4, 5, 6, 0]⟩ :=
  bnot_involution lp64 ⟨'s', 1, [3], 7, [1, 2, 3, 4, 5, 6, 0]⟩ (by decide)

/-- Claim C13 (amended): the two-phase pass is the bytewise application.  For
`bor`, `band` and `bxor` and every buffer length `N` (an `int`), the pass of
`N / 4` word steps followed by `N % 4` byte steps from byte `N / 4 * 4` turns the
first buffer into the operator applied to each byte and the byte at the same
place of the second buffer; the word steps and the byte steps together cover
the bytes `0 .. N-1`.  On arrays of the same type and extents the functions
return with that first buffer and with the second array, an array other than
the first, as it was; `bnot` returns with each byte flipped.  When both
arguments are the same array the buffer is combined with itself: `a:bor(a)`
and `a:band(a)` leave it as it was and `a:bxor(a)` leaves every byte 0. -/
theorem two_phase_is_bytewise (P : Platform) :
    (∀ (N : Nat) (d1 d2 : List Nat), (N : Int) ≤ INT_MAX → d1.length = N → d2.length = N →
      (∀ x, x ∈ d1 → x < 256) → (∀ x, x ∈ d2 → x < 256) →
      bitwise_pass (fun x y => x ||| y) (N : Int) d1 d2
          = some (List.zipWith (fun x y => x ||| y) d1 d2)
        ∧ bitwise_pass (fun x y => x &&& y) (N : Int) d1 d2
          = some (List.zipWith (fun x y => x &&& y) d1 d2)
        ∧ bitwise_pass (fun x y => x ^^^ y) (N : Int) d1 d2
          = some (List.zipWith (fun x y => x ^^^ y) d1 d2)
        ∧ size_t (N : Int) / 4 * 4 + size_t (N : Int) % 4 = N)
    ∧ (∀ a1 a2, Valid P a1 → Valid P a2 → a1.type = a2.type → same_extents a1 a2 →
      lm_array_bor a1 a2 = spec_bytewise (fun x y => x ||| y) a1 a2
        ∧ lm_array_band a1 a2 = spec_bytewise (fun x y => x &&& y) a1 a2
        ∧ lm_array_bxor a1 a2 = spec_bytewise (fun x y => x ^^^ y) a1 a2)
    ∧ (∀ a, Valid P a →
      lm_array_bnot a = .returned () { a with data := a.data.map (fun x => x ^^^ 255) })
    ∧ (∀ a, Valid P a →
      lm_array_bor_self a = .returned () a
        ∧ lm_array_band_self a = .returned () a
        ∧ lm_array_bxor_self a
          = .returned () { a with data := List.replicate a.data.length 0 }) := by
  refine ⟨?_, ?_, fun a hv => lm_array_bnot_valid hv, ?_⟩
  · intro N d1 d2 hN h1 h2 hb1 hb2
    refine ⟨bitwise_pass_spec acts_bitwise_or N hN d1 d2 h1 h2 hb1 hb2,
      bitwise_pass_spec acts_bitwise_and N hN d1 d2 h1 h2 hb1 hb2,
      bitwise_pass_spec acts_bitwise_xor N hN d1 d2 h1 h2 hb1 hb2, ?_⟩
    rw [size_t_natCast N hN]
    omega
  · intro a1 a2 h1 h2 ht he
    exact ⟨lm_array_bitwise_valid acts_bitwise_or h1 h2 ht he,
      lm_array_bitwise_valid acts_bitwise_and h1 h2 ht he,
      lm_array_bitwise_valid acts_bitwise_xor h1 h2 ht he⟩
  · intro a hv
    refine ⟨?_, ?_, ?_⟩
    · unfold lm_array_bor_self
      rw [lm_array_bitwise_self_valid acts_bitwise_or hv]
      simp only [Nat.or_self, List.map_id']
    · unfold lm_array_band_self
      rw [lm_array_bitwise_self_valid acts_bitwise_and hv]
      simp only [Nat.and_self, List.map_id']
    · unfold lm_array_bxor_self
      rw [lm_array_bitwise_self_valid acts_bitwise_xor hv]
      simp only [Nat.xor_self, List.map_const_fun, List.replicate]
      congr 2
      exact List.map_const _ _

/-- Claim C13 as stated fails when the second operand is the first one: for the
3-element `c` array `a` holding 1, 2, 3 the call `a:bxor(a)` returns with `a`
holding 0, 0, 0, so the second operand of the call is changed. -/
theorem two_phase_is_bytewise_counterexample :
    lm_array_bxor_self ⟨'c', 1, [3], 4, [1, 2, 3, 0]⟩
        = .returned () ⟨'c', 1, [3], 4, [0, 0, 0, 0]⟩
      ∧ (⟨'c', 1, [3], 4, [0, 0, 0, 0]⟩ : luaA_Array) ≠ ⟨'c', 1, [3], 4, [1, 2, 3, 0]⟩ := by
  decide

theorem two_phase_is_bytewise_witness :
    lm_array_bor ⟨'c', 1, [5], 6, [1, 2, 3, 4, 5, 0]⟩ ⟨'c', 1, [5], 6, [16, 32, 48, 64, 80, 0]⟩
      = spec_bytewise (fun x y => x ||| y) ⟨'c', 1, [5], 6, [1, 2, 3, 4, 5, 0]⟩
          ⟨'c', 1, [5], 6, [16, 32, 48, 64, 80, 0]⟩ :=
  ((two_phase_is_bytewise lp64).2.1 ⟨'c', 1, [5], 6, [1, 2, 3, 4, 5, 0]⟩
    ⟨'c', 1, [5], 6, [16, 32, 48, 64, 80, 0]⟩ (by decide) (by decide) rfl
    ⟨rfl, by decide⟩).1

/-- Claim C19 (amended): on the bit-packed encoding the bitwise functions are
the elementwise logic.  For well-formed arrays `a`, `b` of type `b` (their size
computation did not overflow `int`) with the same extents and
every coordinate tuple `c` inside the shape, `get` returns booleans `x` on
`a` and `y` on `b`; after `bor(a, b)` it returns `x OR y` on `a`, after
`band(a, b)` it returns `x AND y`, after `bxor(a, b)` it returns `x XOR y`, and
after `bnot(a)` it returns `NOT x`. -/
theorem bitwise_is_logic (P : Platform) (a b : luaA_Array) (ha : Valid P a) (hb : Valid P b)
    (hta : a.type = 'b') (htb : b.type = 'b') (he : same_extents a b) (c : List Int)
    (hlen : c.length = a.ndims) (hin : in_range a.dims c a.ndims) :
    ∃ x y, lm_array_get P a (lua_coords c) = .returned (.boolean x) a
      ∧ lm_array_get P b (lua_coords c) = .returned (.boolean y) b
      ∧ (∃ a2, lm_array_bor a b = .returned () (a2, b)
        ∧ lm_array_get P a2 (lua_coords c) = .returned (.boolean (x || y)) a2)
      ∧ (∃ a2, lm_array_band a b = .returned () (a2, b)
        ∧ lm_array_get P a2 (lua_coords c) = .returned (.boolean (x && y)) a2)
      ∧ (∃ a2, lm_array_bxor a b = .returned () (a2, b)
        ∧ lm_array_get P a2 (lua_coords c) = .returned (.boolean (xor x y)) a2)
      ∧ (∃ a2, lm_array_bnot a = .returned () a2
        ∧ lm_array_get P a2 (lua_coords c) = .returned (.boolean (!x)) a2) := by
  have ht : a.type = b.type := by rw [hta, htb]
  obtain ⟨x, y, hx, hy, hor⟩ := get_after_bitwise acts_bitwise_or (fun x y => x || y)
    (fun x y k => Nat.testBit_or x y k) ha hb hta htb he hlen hin
  obtain ⟨x2, y2, hx2, hy2, hand⟩ := get_after_bitwise acts_bitwise_and (fun x y => x && y)
    (fun x y k => Nat.testBit_and x y k) ha hb hta htb he hlen hin
  obtain ⟨x3, y3, hx3, hy3, hxor⟩ := get_after_bitwise acts_bitwise_xor (fun x y => xor x y)
    (fun x y k => Nat.testBit_xor x y k) ha hb hta htb he hlen hin
  rw [hx] at hx2 hx3
  rw [hy] at hy2 hy3
  cases hx2
  cases hx3
  cases hy2
  cases hy3
  refine ⟨x, y, hx, hy, ⟨_, lm_array_bitwise_valid acts_bitwise_or ha hb ht he, hor⟩,
    ⟨_, lm_array_bitwise_valid acts_bitwise_and ha hb ht he, hand⟩,
    ⟨_, lm_array_bitwise_valid acts_bitwise_xor ha hb ht he, hxor⟩,
    ⟨_, lm_array_bnot_valid ha, ?_⟩⟩
  obtain ⟨hga, hla⟩ := lm_array_get_bit ha hta hlen hin
  obtain ⟨hgn, _⟩ := lm_array_get_bit (valid_bnot ha) hta hlen hin
  rw [hx] at hga
  cases hga
  rw [hgn]
  simp only
  rw [map_getD _ a.data _ hla, Nat.testBit_xor]
  have h8 : (spec_linear_offset a.dims c a.ndims % 8).toNat < 8 := by omega
  have : Nat.testBit 255 (spec_linear_offset a.dims c a.ndims % 8).toNat = true := by
    generalize (spec_linear_offset a.dims c a.ndims % 8).toNat = k at h8
    interval_cases k <;> rfl
  rw [this]
  simp

/-- Claim C19 as stated fails: `array.array('b', 65536, 65536)` has `2 ^ 32`
elements, which is 0 as an `int`, and is returned with a buffer of 1 byte.
`bor` on two such arrays combines that byte and returns, but `get` at the
coordinates (8, 0), inside the shape, reads byte 1, outside the buffer. -/
theorem bitwise_is_logic_counterexample :
    l_array lp64 malloc_ok [.string "b", num 65536, num 65536]
        = .ok ⟨'b', 2, [65536, 65536], 1, [0]⟩
      ∧ in_range [65536, 65536] [8, 0] 2
      ∧ lm_array_bor ⟨'b', 2, [65536, 65536], 1, [0]⟩ ⟨'b', 2, [65536, 65536], 1, [0]⟩
        = .returned () (⟨'b', 2, [65536, 65536], 1, [0]⟩, ⟨'b', 2, [65536, 65536], 1, [0]⟩)
      ∧ lm_array_get lp64 ⟨'b', 2, [65536, 65536], 1, [0]⟩ (lua_coords [8, 0]) = .undefined := by
  refine ⟨by decide, by unfold in_range; decide, by decide, by decide⟩

theorem bitwise_is_logic_witness :
    ∃ x y, lm_array_get lp64 ⟨'b', 1, [10], 2, [5, 1]⟩ (lua_coords [2])
        = .returned (.boolean x) ⟨'b', 1, [10], 2, [5, 1]⟩
      ∧ lm_array_get lp64 ⟨'b', 1, [10], 2, [3, 2]⟩ (lua_coords [2])
        = .returned (.boolean y) ⟨'b', 1, [10], 2, [3, 2]⟩
      ∧ (∃ a2, lm_array_bor ⟨'b', 1, [10], 2, [5, 1]⟩ ⟨'b', 1, [10], 2, [3, 2]⟩
          = .returned () (a2, ⟨'b', 1, [10], 2, [3, 2]⟩)
        ∧ lm_array_get lp64 a2 (lua_coords [2]) = .returned (.boolean (x || y)) a2)
      ∧ (∃ a2, lm_array_band ⟨'b', 1, [10], 2, [5, 1]⟩ ⟨'b', 1, [10], 2, [3, 2]⟩
          = .returned () (a2, ⟨'b', 1, [10], 2, [3, 2]⟩)
        ∧ lm_array_get lp64 a2 (lua_coords [2]) = .returned (.boolean (x && y)) a2)
      ∧ (∃ a2, lm_array_bxor ⟨'b', 1, [10], 2, [5, 1]⟩ ⟨'b', 1, [10], 2, [3, 2]⟩
          = .returned () (a2, ⟨'b', 1, [10], 2, [3, 2]⟩)
        ∧ lm_array_get lp64 a2 (lua_coords [2]) = .returned (.boolean (xor x y)) a2)
      ∧ (∃ a2, lm_array_bnot ⟨'b', 1, [10], 2, [5, 1]⟩ = .returned () a2
        ∧ lm_array_get lp64 a2 (lua_coords [2]) = .returned (.boolean (!x)) a2) :=
  bitwise_is_logic lp64 ⟨'b', 1, [10], 2, [5, 1]⟩ ⟨'b', 1, [10], 2, [3, 2]⟩ (by decide)
    (by decide) rfl rfl ⟨rfl, by decide⟩ [2] rfl (by unfold in_range; decide)


/-! ## The element count and the arithmetic loops -/

theorem type_size_in_bits_pos {P : Platform} {t : Char} (h : is_type_character t = true) :
    1 ≤ type_size_in_bits P t := by
  unfold type_size_in_bits
  rcases type_character_cases h with ⟨T, hT⟩ | ⟨hB, hT⟩ | ⟨hb, hT⟩
  · rw [hT]
    have := sizeof_pos P T
    simp only
    push_cast
    omega
  · rw [hT, hB]
    simp
  · rw [hT, hb]
    simp

theorem valid_stride_le {P : Platform} {a : luaA_Array} (hv : Valid P a) :
    spec_stride a.dims a.ndims ≤ INT_MAX := by
  have h1 := hv.fits
  have h2 := spec_stride_pos a.dims a.ndims hv.dims_pos
  have h3 : 1 ≤ type_size_in_bits P a.type := type_size_in_bits_pos hv.type_ok
  nlinarith

theorem calculate_total_size_wrap (a : luaA_Array) :
    calculate_total_size a = wrapInt (spec_stride a.dims a.ndims) := by
  unfold calculate_total_size
  generalize a.ndims = n
  induction n with
  | zero => rfl
  | succ n ih =>
    rw [List.range_succ, List.foldl_append, ih]
    simp only [List.foldl_cons, List.foldl_nil]
    rw [wrapInt_wrapInt_mul]
    rfl

/-- On a valid array `calculate_total_size` is the product of the extents. -/
theorem calculate_total_size_valid {P : Platform} {a : luaA_Array} (hv : Valid P a) :
    calculate_total_size a = spec_stride a.dims a.ndims := by
  rw [calculate_total_size_wrap]
  have h1 := valid_stride_le hv
  have h2 := spec_stride_pos a.dims a.ndims hv.dims_pos
  unfold INT_MAX at h1
  exact wrapInt_of_range (by omega) h1

/-- The element loop of `add` and `multiply`: each element it passes becomes
the operator applied to the two elements at that offset, converted to the
element type; the other elements are as before. -/
theorem arith_loop_spec (P : Platform) (type : Char) (T : CType)
    (hT : TYPESWITCH type = some T) (op : CType → Int → Int → Int) (d2 : List Nat) :
    ∀ (n : Nat) (i : Int) (d : List Nat), 0 ≤ i →
      (i + n) * sizeof P T ≤ (d.length : Int) → (i + n) * sizeof P T ≤ (d2.length : Int) →
      ∃ r, arith_loop P type op d2 n i d = some r ∧ r.length = d.length
        ∧ (∀ j, i ≤ j → j < i + n → ∃ x y, read_as P T d j = some x
            ∧ read_as P T d2 j = some y
            ∧ read_as P T r j = some (to_type P T (op T x y)))
        ∧ ∀ j, j < i ∨ i + n ≤ j → read_as P T r j = read_as P T d j := by
  intro n
  induction n with
  | zero =>
    intro i d _ _ _
    exact ⟨d, rfl, rfl, fun j h1 h2 => by omega, fun _ _ => rfl⟩
  | succ n ih =>
    intro i d h0 hl1 hl2
    have hw : (0 : Int) ≤ (sizeof P T : Int) := Int.natCast_nonneg _
    have hle : (i + 1) * (sizeof P T : Int) ≤ (i + ((n + 1 : Nat) : Int)) * (sizeof P T : Int) :=
      mul_le_mul_of_nonneg_right (by push_cast; omega) hw
    have e : i + ((n + 1 : Nat) : Int) = i + 1 + (n : Int) := by push_cast; ring
    obtain ⟨x, hx⟩ := read_some P T d i h0 (by omega)
    obtain ⟨y, hy⟩ := read_some P T d2 i h0 (by omega)
    obtain ⟨d3, hd3, hlen3⟩ := write_some P T d i (op T x y) h0 (by omega)
    obtain ⟨r, hr, hrl, hin, hout⟩ := ih (i + 1) d3 (by omega) (by rw [hlen3, ← e]; exact hl1)
      (by rw [← e]; exact hl2)
    refine ⟨r, ?_, by omega, ?_, ?_⟩
    · simp only [arith_loop, hT, hx, hy, hd3]
      exact hr
    · intro j h1 h2
      by_cases hj : j = i
      · subst hj
        refine ⟨x, y, hx, hy, ?_⟩
        rw [hout j (Or.inl (by omega))]
        exact read_write_same hd3
      · obtain ⟨x2, y2, hx2, hy2, hr2⟩ := hin j (by omega) (by omega)
        rw [read_write_other hd3 hj] at hx2
        exact ⟨x2, y2, hx2, hy2, hr2⟩
    · intro j hj
      rw [hout j (by omega)]
      exact read_write_other hd3 (by omega)

/-- The loop on one buffer is the loop on two buffers that combines each
element with itself. -/
theorem arith_loop_self_eq (P : Platform) (type : Char) (T : CType)
    (hT : TYPESWITCH type = some T) (op : CType → Int → Int → Int) (d0 : List Nat) :
    ∀ (n : Nat) (i : Int) (d : List Nat), 0 ≤ i → (i + n) * sizeof P T ≤ (d0.length : Int) →
      arith_loop_self P type op n i d
        = arith_loop P type (fun T x _ => op T x x) d0 n i d := by
  intro n
  induction n with
  | zero => intro i d _ _; rfl
  | succ n ih =>
    intro i d h0 hl
    have hw : (0 : Int) ≤ (sizeof P T : Int) := Int.natCast_nonneg _
    have hle : (i + 1) * (sizeof P T : Int) ≤ (i + ((n + 1 : Nat) : Int)) * (sizeof P T : Int) :=
      mul_le_mul_of_nonneg_right (by push_cast; omega) hw
    have e : i + ((n + 1 : Nat) : Int) = i + 1 + (n : Int) := by push_cast; ring
    obtain ⟨y, hy⟩ := read_some P T d0 i h0 (by omega)
    simp only [arith_loop_self, arith_loop, hT, hy]
    cases hx : read_as P T d i with
    | none => rfl
    | some x =>
      simp only
      cases hd : write_as P T d i (op T x x) with
      | none => rfl
      | some d3 =>
        simp only
        exact ih (i + 1) d3 (by omega) (by rw [← e]; exact hl)

theorem valid_stride_toNat {P : Platform} {a : luaA_Array} (hv : Valid P a) :
    (((calculate_total_size a).toNat : Nat) : Int) = spec_stride a.dims a.ndims := by
  rw [calculate_total_size_valid hv]
  have := spec_stride_pos a.dims a.ndims hv.dims_pos
  omega

theorem extract_typed {P : Platform} {a : luaA_Array} {T : CType}
    (hT : TYPESWITCH a.type = some T) (d : List Nat) (i : Int) :
    extract_element P { a with data := d } i = read_as P T d i := by
  unfold extract_element
  simp only [hT]

theorem typed_not_boolean {t : Char} {T : CType} (hT : TYPESWITCH t = some T) :
    ¬ (t = 'b' ∨ t = 'B') := by
  rintro (h | h) <;> rw [h] at hT <;> cases hT

theorem check_type_compatible_same {a1 a2 : luaA_Array} (ht : a1.type = a2.type) :
    check_type_compatible a1 a2 = .ok () := by
  unfold check_type_compatible
  rw [if_neg (by simpa using ht)]

/-- The element loop of `add` and `multiply` on two valid arrays of the same
type and extents. -/
theorem arith_on_arrays {P : Platform} (op : CType → Int → Int → Int) {a b : luaA_Array}
    {T : CType} (ha : Valid P a) (hb : Valid P b) (hT : TYPESWITCH a.type = some T)
    (ht : a.type = b.type) (he : same_extents a b) :
    ∃ r, arith_loop P a.type op b.data (calculate_total_size a).toNat 0 a.data = some r
      ∧ ∀ i, 0 ≤ i → i < spec_stride a.dims a.ndims →
        ∃ x y, extract_element P a i = some x ∧ extract_element P b i = some y
          ∧ extract_element P { a with data := r } i = some (to_type P T (op T x y)) := by
  have hla := buffer_typed ha hT
  have hlb := valid_same_length ha hb ht he
  have hn := valid_stride_toNat ha
  have hTb : TYPESWITCH b.type = some T := by rw [← ht]; exact hT
  obtain ⟨r, hr, _, hin, _⟩ := arith_loop_spec P a.type T hT op b.data
    (calculate_total_size a).toNat 0 a.data (le_refl 0) (by rw [hn, zero_add]; omega)
    (by rw [hn, hlb, zero_add]; omega)
  refine ⟨r, hr, fun i h0 h1 => ?_⟩
  obtain ⟨x, y, hx, hy, hxy⟩ := hin i (by omega) (by omega)
  refine ⟨x, y, ?_, ?_, ?_⟩
  · rw [← hx]
    exact extract_typed hT a.data i
  · rw [← hy]
    exact extract_typed hTb b.data i
  · rw [← hxy]
    exact extract_typed hT r i

/-- The element loop of `add` and `multiply` on one valid array passed as both
arguments. -/
theorem arith_on_self {P : Platform} (op : CType → Int → Int → Int) {a : luaA_Array}
    {T : CType} (ha : Valid P a) (hT : TYPESWITCH a.type = some T) :
    ∃ r, arith_loop_self P a.type op (calculate_total_size a).toNat 0 a.data = some r
      ∧ ∀ i, 0 ≤ i → i < spec_stride a.dims a.ndims →
        ∃ x, extract_element P a i = some x
          ∧ extract_element P { a with data := r } i = some (to_type P T (op T x x)) := by
  have hla := buffer_typed ha hT
  have hn := valid_stride_toNat ha
  obtain ⟨r, hr, hin⟩ := arith_on_arrays (fun T x _ => op T x x) ha ha hT rfl
    ⟨rfl, fun _ _ => rfl⟩
  refine ⟨r, ?_, fun i h0 h1 => ?_⟩
  · rw [arith_loop_self_eq P a.type T hT op a.data _ 0 a.data (le_refl 0)
      (by rw [hn, zero_add]; omega)]
    exact hr
  · obtain ⟨x, y, hx, _, hxy⟩ := hin i h0 h1
    exact ⟨x, hx, hxy⟩

theorem elem_add_integer (P : Platform) {T : CType} (h : T.floating = false) (x y : Int) :
    elem_add P T x y = x + y := by
  cases T <;> first | rfl | cases h

theorem elem_mul_integer (P : Platform) {T : CType} (h : T.floating = false) (x y : Int) :
    elem_mul P T x y = x * y := by
  cases T <;> first | rfl | cases h

/-- Claim C14 (amended): `add` and `multiply` on the integer encodings.  For
well-formed arrays `a`, `b` (their size computation did not overflow `int`) of
the same integer element type `T` (type characters c, C, s, S, l, L) and the
same extents, `add(a, b)` returns with `b`, an array other
than `a`, as it was and with `a` of unchanged type and extents holding at every
linear offset `i` in `[0, element count)` the sum of the elements that `a` and
`b` held at offset `i`, wrapped to the width and signedness of `T`;
`multiply(a, b)` likewise with the product.  When both arguments are the same
array, `add(a, a)` and `multiply(a, a)` leave at offset `i` the wrapped sum,
respectively product, of the old element with itself. -/
theorem add_multiply_elementwise (P : Platform) (a b : luaA_Array) (T : CType)
    (ha : Valid P a) (hb : Valid P b) (hT : TYPESWITCH a.type = some T)
    (hint : T.floating = false) (ht : a.type = b.type) (he : same_extents a b) :
    (∃ a2, lm_array_add P a b = .returned () (a2, b) ∧ same_shape a a2
      ∧ ∀ i, 0 ≤ i → i < spec_stride a.dims a.ndims →
        ∃ x y, extract_element P a i = some x ∧ extract_element P b i = some y
          ∧ extract_element P a2 i = some (spec_wrap P T (x + y)))
    ∧ (∃ a2, lm_array_multiply P a b = .returned () (a2, b) ∧ same_shape a a2
      ∧ ∀ i, 0 ≤ i → i < spec_stride a.dims a.ndims →
        ∃ x y, extract_element P a i = some x ∧ extract_element P b i = some y
          ∧ extract_element P a2 i = some (spec_wrap P T (x * y)))
    ∧ (∃ a2, lm_array_add_self P a = .returned () a2 ∧ same_shape a a2
      ∧ ∀ i, 0 ≤ i → i < spec_stride a.dims a.ndims →
        ∃ x, extract_element P a i = some x
          ∧ extract_element P a2 i = some (spec_wrap P T (x + x)))
    ∧ (∃ a2, lm_array_multiply_self P a = .returned () a2 ∧ same_shape a a2
      ∧ ∀ i, 0 ≤ i → i < spec_stride a.dims a.ndims →
        ∃ x, extract_element P a i = some x
          ∧ extract_element P a2 i = some (spec_wrap P T (x * x))) := by
  have hnb := typed_not_boolean hT
  have hse : same_extents a a := ⟨rfl, fun _ _ => rfl⟩
  refine ⟨?_, ?_, ?_, ?_⟩
  · obtain ⟨r, hr, hel⟩ := arith_on_arrays (elem_add P) ha hb hT ht he
    refine ⟨{ a with data := r }, ?_, ⟨rfl, rfl, rfl⟩, fun i h0 h1 => ?_⟩
    · unfold lm_array_add
      rw [check_type_compatible_same ht, check_size_compatible_same a b he]
      simp only [if_neg hnb, hr]
    · obtain ⟨x, y, hx, hy, hxy⟩ := hel i h0 h1
      rw [elem_add_integer P hint, to_type_eq_spec_wrap] at hxy
      exact ⟨x, y, hx, hy, hxy⟩
  · obtain ⟨r, hr, hel⟩ := arith_on_arrays (elem_mul P) ha hb hT ht he
    refine ⟨{ a with data := r }, ?_, ⟨rfl, rfl, rfl⟩, fun i h0 h1 => ?_⟩
    · unfold lm_array_multiply
      rw [check_type_compatible_same ht, check_size_compatible_same a b he]
      simp only [if_neg hnb, hr]
    · obtain ⟨x, y, hx, hy, hxy⟩ := hel i h0 h1
      rw [elem_mul_integer P hint, to_type_eq_spec_wrap] at hxy
      exact ⟨x, y, hx, hy, hxy⟩
  · obtain ⟨r, hr, hel⟩ := arith_on_self (elem_add P) ha hT
    refine ⟨{ a with data := r }, ?_, ⟨rfl, rfl, rfl⟩, fun i h0 h1 => ?_⟩
    · unfold lm_array_add_self
      rw [check_type_compatible_same rfl, check_size_compatible_same a a hse]
      simp only [if_neg hnb, hr]
    · obtain ⟨x, hx, hxy⟩ := hel i h0 h1
      rw [elem_add_integer P hint, to_type_eq_spec_wrap] at hxy
      exact ⟨x, hx, hxy⟩
  · obtain ⟨r, hr, hel⟩ := arith_on_self (elem_mul P) ha hT
    refine ⟨{ a with data := r }, ?_, ⟨rfl, rfl, rfl⟩, fun i h0 h1 => ?_⟩
    · unfold lm_array_multiply_self
      rw [check_type_compatible_same rfl, check_size_compatible_same a a hse]
      simp only [if_neg hnb, hr]
    · obtain ⟨x, hx, hxy⟩ := hel i h0 h1
      rw [elem_mul_integer P hint, to_type_eq_spec_wrap] at hxy
      exact ⟨x, hx, hxy⟩

/-- Claim C14 as stated fails, in two ways.  When `b` is `a`: for the 3-element
`c` array `a` holding 1, 2, 3 the call `a:add(a)` returns with `a` holding 2, 4,
6, so the second operand of the call is changed.  And
`array.array('l', 67108864)` returns an array whose bit size overflowed `int` and
whose buffer has 1 byte: `add` on two such arrays reads outside the buffer. -/
theorem add_multiply_elementwise_counterexample :
    lm_array_add_self lp64 ⟨'c', 1, [3], 4, [1, 2, 3, 0]⟩
        = .returned () ⟨'c', 1, [3], 4, [2, 4, 6, 0]⟩
      ∧ (⟨'c', 1, [3], 4, [2, 4, 6, 0]⟩ : luaA_Array) ≠ ⟨'c', 1, [3], 4, [1, 2, 3, 0]⟩
      ∧ l_array lp64 malloc_ok [.string "l", num 67108864] = .ok ⟨'l', 1, [67108864], 1, [0]⟩
      ∧ lm_array_add lp64 ⟨'l', 1, [67108864], 1, [0]⟩ ⟨'l', 1, [67108864], 1, [0]⟩
        = .undefined := by
  decide

theorem add_multiply_elementwise_witness :
    ∃ a2, lm_array_add lp64 ⟨'c', 1, [3], 4, [100, 2, 3, 0]⟩ ⟨'c', 1, [3], 4, [100, 5, 6, 0]⟩
        = .returned () (a2, ⟨'c', 1, [3], 4, [100, 5, 6, 0]⟩)
      ∧ same_shape ⟨'c', 1, [3], 4, [100, 2, 3, 0]⟩ a2
      ∧ ∀ i, 0 ≤ i → i < spec_stride [3] 1 →
        ∃ x y, extract_element lp64 ⟨'c', 1, [3], 4, [100, 2, 3, 0]⟩ i = some x
          ∧ extract_element lp64 ⟨'c', 1, [3], 4, [100, 5, 6, 0]⟩ i = some y
          ∧ extract_element lp64 a2 i = some (spec_wrap lp64 .char (x + y)) :=
  (add_multiply_elementwise lp64 ⟨'c', 1, [3], 4, [100, 2, 3, 0]⟩
    ⟨'c', 1, [3], 4, [100, 5, 6, 0]⟩ .char (by decide) (by decide) rfl rfl rfl
    ⟨rfl, by decide⟩).1


/-! ## Filling an array -/

/-- The loop of `lm_array_clear` stores the element at every offset it passes
and leaves the other elements as they were. -/
theorem clear_loop_spec {P : Platform} (c : luaA_ArrayElement) :
    ∀ (n : Nat) (i : Int) (a : luaA_Array), Valid P a → 0 ≤ i →
      i + n ≤ spec_stride a.dims a.ndims →
      ∃ a2, clear_loop P c n i a = some a2 ∧ Valid P a2 ∧ same_shape a a2
        ∧ (∀ j, i ≤ j → j < i + n → extract_element P a2 j = some (elem_norm P a.type c))
        ∧ ∀ j, 0 ≤ j → j < i ∨ i + n ≤ j → extract_element P a2 j = extract_element P a j := by
  intro n
  induction n with
  | zero =>
    intro i a hv _ _
    exact ⟨a, rfl, hv, same_shape_refl a, fun j h1 h2 => by omega, fun _ _ _ => rfl⟩
  | succ n ih =>
    intro i a hv h0 hle
    obtain ⟨d, hins, hdl, hext⟩ := insert_extract_same hv h0 (by push_cast at hle; omega) c
    obtain ⟨hv2, ht2, hn2, hd2⟩ := valid_of_insert hv hins
    obtain ⟨a3, h3, hv3, hs3, hin3, hout3⟩ := ih (i + 1) { a with data := d } hv2 (by omega)
      (by push_cast at hle; simp only; omega)
    refine ⟨a3, ?_, hv3, same_shape_trans (same_shape_insert hins) hs3, ?_, ?_⟩
    · simp only [clear_loop, hins]
      exact h3
    · intro j h1 h2
      by_cases hj : j = i
      · subst hj
        rw [hout3 j h0 (Or.inl (by omega))]
        exact hext
      · exact hin3 j (by omega) (by push_cast at h2; omega)
    · intro j hj0 hj
      rw [hout3 j hj0 (by push_cast at hj; omega)]
      exact insert_extract_other hins h0 hj0 (by push_cast at hj; omega)

theorem load_zero {d : List Nat} (hd : ∀ x, x ∈ d → x = 0) :
    ∀ (w : Nat) (off : Int) (r : Nat), load d off w = some r → r = 0 := by
  intro w
  induction w with
  | zero =>
    intro off r h
    simp only [load, Option.some.injEq] at h
    exact h.symm
  | succ w ih =>
    intro off r h
    simp only [load] at h
    split at h
    · cases h
    · rename_i b hb
      split at h
      · cases h
      · rename_i r2 hr2
        simp only [Option.some.injEq] at h
        rw [← h, hd b (peek_mem hb), ih (off + 1) r2 hr2]

/-- In a buffer of zero bytes every element is 0. -/
theorem extract_zero {P : Platform} {a : luaA_Array} (hv : Valid P a)
    (hd : ∀ x, x ∈ a.data → x = 0) {i : Int} (h0 : 0 ≤ i)
    (h1 : i < spec_stride a.dims a.ndims) : extract_element P a i = some 0 := by
  obtain ⟨e, he⟩ := extract_some hv h0 h1
  rw [he]
  have hread : ∀ T, read_as P T a.data i = some e → e = 0 := by
    intro T hr
    unfold read_as at hr
    split at hr
    · cases hr
    · rename_i raw hraw
      have hz := load_zero hd _ _ _ hraw
      subst hz
      have hpos : ¬ (T.signed = true ∧ 2 ^ (8 * sizeof P T - 1) ≤ 0) := by
        intro h
        have := Nat.two_pow_pos (8 * sizeof P T - 1)
        omega
      rw [if_neg hpos] at hr
      simp only [Option.some.injEq] at hr
      rw [← hr]
      rfl
  unfold extract_element at he
  rcases type_character_cases hv.type_ok with ⟨T, hT⟩ | ⟨hB, hT⟩ | ⟨hb, hT⟩
  · rw [hT] at he
    rw [hread T he]
  · rw [hT, hB] at he
    rw [hread .char he]
  · rw [hT, hb] at he
    simp only at he
    split at he
    · cases he
    · split at he
      · cases he
      · rename_i byte hbyte
        have hz := hd byte (peek_mem hbyte)
        subst hz
        simp only [Nat.zero_and, ne_eq, not_true_eq_false, if_false, Option.some.injEq] at he
        rw [← he]

theorem push_zero {type : Char} (ht : is_type_character type = true) :
    luaA_pusharrayelement 0 type = spec_zero type := by
  unfold luaA_pusharrayelement spec_zero
  rcases type_character_cases ht with ⟨T, hT⟩ | ⟨hB, hT⟩ | ⟨hb, hT⟩
  · rw [hT, if_neg (typed_not_boolean hT)]
    cases T <;>
      simp [to_number, float_value_zero, double_value_zero, round_to_double]
  · rw [hT, hB]
    simp
  · rw [hT, hb]
    simp

/-- On a valid array whose buffer holds zero bytes, `get` returns the zero
value of the encoding at every coordinate inside the shape. -/
theorem lm_array_get_zero {P : Platform} {a : luaA_Array} (hv : Valid P a)
    (hd : ∀ x, x ∈ a.data → x = 0) {c : List Int} (hlen : c.length = a.ndims)
    (hin : in_range a.dims c a.ndims) :
    lm_array_get P a (lua_coords c) = .returned (spec_zero a.type) a := by
  obtain ⟨h0, h1⟩ := spec_linear_offset_bounds a.dims c a.ndims hv.dims_pos hin
  rw [lm_array_get_in_range hv hlen hin, extract_zero hv hd h0 h1]
  simp only [push_zero hv.type_ok]

theorem bzero_valid {P : Platform} {a : luaA_Array} (hv : Valid P a) :
    bzero a.data (size_t a.datasize) = some (List.replicate a.data.length 0) := by
  have hs : size_t a.datasize = a.data.length := by
    rw [← hv.data_len]
    exact size_t_natCast _ (valid_datasize_le hv)
  unfold bzero
  rw [hs, if_pos (le_refl _), List.drop_length, List.append_nil]

theorem valid_replicate_zero {P : Platform} {a : luaA_Array} (hv : Valid P a) :
    Valid P { a with data := List.replicate a.data.length 0 } := by
  apply valid_with_data hv (by simp)
  intro x hx
  rw [List.eq_of_mem_replicate hx]
  decide

/-- Claim C15 (amended): `clear` (fill).  For every well-formed array and every
valid value `v` (a boolean for the encodings `b`, `B`, a number for the others)
within the conversion range, `clear(a, v)` returns and `get` then returns, at
every coordinate tuple inside the shape, `v` as the element type represents
it: `v` itself for a boolean and for a number stored in `d` or `n`, `v` rounded
to a `float` for `f`, and for an integer encoding `v` truncated, wrapped to
the width and read back as a `double`.  `clear(a)` without a value returns
with every one of the `datasize` bytes of the buffer 0, and `get` then
returns the zero value of the encoding at every coordinate tuple inside the
shape: `false` for `b` and `B`, the number 0 for the others. -/
theorem fill_then_get (P : Platform) (a : luaA_Array) (hv : Valid P a) :
    (∀ v rest, valid_value a.type v → in_conversion_range P a.type v →
      ∃ a2, lm_array_clear P a (v :: rest) = .returned () a2 ∧ same_shape a a2
        ∧ ∀ c, c.length = a.ndims → in_range a.dims c a.ndims →
          lm_array_get P a2 (lua_coords c) = .returned (spec_roundtrip P a.type v) a2)
    ∧ ∃ a2, lm_array_clear P a [] = .returned () a2 ∧ same_shape a a2
        ∧ (a2.data.length : Int) = a.datasize
        ∧ (∀ k, k < a2.data.length → a2.data.getD k 1 = 0)
        ∧ ∀ c, c.length = a.ndims → in_range a.dims c a.ndims →
          lm_array_get P a2 (lua_coords c) = .returned (spec_zero a.type) a2 := by
  constructor
  · intro v rest hval hrange
    obtain ⟨e, he, hpush⟩ := push_norm_check (P := P) (n := 0) hv.type_ok hval hrange
    have hn := valid_stride_toNat hv
    obtain ⟨a2, h2, hv2, hs2, hin2, _⟩ := clear_loop_spec e (calculate_total_size a).toNat 0 a
      hv (le_refl 0) (by rw [hn, zero_add])
    refine ⟨a2, ?_, hs2, fun c hlen hin => ?_⟩
    · unfold lm_array_clear
      rw [if_pos (by simp)]
      simp only [List.getD_cons_zero]
      rw [he]
      simp only [h2]
    · obtain ⟨ht, hnd, hdm⟩ := hs2
      have hin' : in_range a2.dims c a2.ndims := by rw [hnd, hdm]; exact hin
      obtain ⟨h0, h1⟩ := spec_linear_offset_bounds a.dims c a.ndims hv.dims_pos hin
      rw [lm_array_get_in_range hv2 (by rw [hnd]; exact hlen) hin', hnd, hdm,
        hin2 _ (by omega) (by rw [hn, zero_add]; exact h1)]
      simp only [ht, hpush]
  · refine ⟨{ a with data := List.replicate a.data.length 0 }, ?_, ⟨rfl, rfl, rfl⟩, ?_, ?_, ?_⟩
    · unfold lm_array_clear
      rw [if_neg (by simp), bzero_valid hv]
    · simp only [List.length_replicate]
      exact hv.data_len
    · intro k hk
      simp only [List.length_replicate] at hk
      simp [List.getD_eq_getElem?_getD, List.getElem?_replicate, hk]
    · intro c hlen hin
      exact lm_array_get_zero (valid_replicate_zero hv)
        (fun x hx => List.eq_of_mem_replicate hx) hlen hin

/-- Claim C15 as stated fails, in two ways.  `array.array('l', 67108864)` returns
an array whose bit size overflowed `int` and whose buffer has 1 byte: `clear`
with the value 1 writes outside that buffer.  And on the 3-element `c` array
`clear` with the value 4294967301, which is 5 modulo `2 ^ 8`, leaves 0 in every
element: the value is converted to `int` before its low 8 bits are kept. -/
theorem fill_then_get_counterexample :
    l_array lp64 malloc_ok [.string "l", num 67108864] = .ok ⟨'l', 1, [67108864], 1, [0]⟩
      ∧ lm_array_clear lp64 ⟨'l', 1, [67108864], 1, [0]⟩ [num 1] = .undefined
      ∧ lm_array_clear lp64 ⟨'c', 1, [3], 4, [1, 2, 3, 0]⟩ [num 4294967301]
        = .returned () ⟨'c', 1, [3], 4, [0, 0, 0, 0]⟩
      ∧ (4294967301 : Int) % 256 = 5 := by
  decide

theorem fill_then_get_witness :
    (∃ a2, lm_array_clear lp64 ⟨'c', 1, [3], 4, [1, 2, 3, 0]⟩ [num 300] = .returned () a2
      ∧ same_shape ⟨'c', 1, [3], 4, [1, 2, 3, 0]⟩ a2
      ∧ ∀ c, c.length = 1 → in_range [3] c 1 →
        lm_array_get lp64 a2 (lua_coords c) = .returned (spec_roundtrip lp64 'c' (num 300)) a2)
    ∧ ∃ a2, lm_array_clear lp64 ⟨'d', 1, [2], 17, List.replicate 17 0⟩ [.number (5 / 2)]
        = .returned () a2
      ∧ same_shape ⟨'d', 1, [2], 17, List.replicate 17 0⟩ a2
      ∧ ∀ c, c.length = 1 → in_range [2] c 1 →
        lm_array_get lp64 a2 (lua_coords c) = .returned (.number (5 / 2)) a2 :=
  ⟨(fill_then_get lp64 ⟨'c', 1, [3], 4, [1, 2, 3, 0]⟩ (by decide)).1 (num 300) []
    (by simp [valid_value, num, TYPESWITCH])
    (by
      show -2147483648 ≤ trunc ((300 : Int) : ℚ) ∧ trunc ((300 : Int) : ℚ) ≤ 2147483647
      rw [trunc_intCast]
      decide),
   (fill_then_get lp64 ⟨'d', 1, [2], 17, List.replicate 17 0⟩ (by decide)).1 (.number (5 / 2)) []
    (by simp [valid_value, TYPESWITCH])
    ⟨1024 * 2 ^ 52 + 2 ^ 50, by unfold ieee_finite; norm_num,
      by unfold double_value ieee_decode ieee_mag; norm_num⟩⟩

/-! ## Fresh arrays -/

/-- Claim C16 (amended): a fresh array reads zero.  For every array that
`array.array` returns whose bit size `total * typebits` (`total` the product of
the extents) fits an `int`, so that the size computation of `l_array` does not
overflow, and every coordinate tuple inside the shape, `get` returns the zero
value of the encoding: `false` for `b` and `B`, the number 0 for the others. -/
theorem fresh_array_reads_zero (P : Platform) (malloc : Malloc) (args : List LuaValue)
    (a : luaA_Array) (h : l_array P malloc args = .ok a)
    (hfit : a.dims.prod * type_size_in_bits P a.type ≤ INT_MAX) (c : List Int)
    (hlen : c.length = a.ndims) (hin : in_range a.dims c a.ndims) :
    lm_array_get P a (lua_coords c) = .returned (spec_zero a.type) a := by
  have hv := l_array_valid P malloc args a h hfit
  obtain ⟨_, hdata, _⟩ := l_array_fields P malloc args a h
  refine lm_array_get_zero hv (fun x hx => ?_) hlen hin
  rw [hdata] at hx
  exact List.eq_of_mem_replicate hx

/-- Claim C16 as stated fails: `array.array('l', 67108864)` has the bit size
`2 ^ 32`, which is 0 as an `int`; the array is returned with a buffer of 1 byte,
and `get` at its first coordinate reads the 8 bytes of a `long` from it. -/
theorem fresh_array_reads_zero_counterexample :
    l_array lp64 malloc_ok [.string "l", num 67108864] = .ok ⟨'l', 1, [67108864], 1, [0]⟩
      ∧ in_range [67108864] [0] 1
      ∧ lm_array_get lp64 ⟨'l', 1, [67108864], 1, [0]⟩ (lua_coords [0]) = .undefined := by
  refine ⟨by decide, by unfold in_range; decide, by decide⟩

theorem fresh_array_reads_zero_witness :
    lm_array_get lp64 ⟨'b', 2, [3, 5], 2, List.replicate 2 0⟩ (lua_coords [2, 4])
      = .returned (spec_zero 'b') ⟨'b', 2, [3, 5], 2, List.replicate 2 0⟩ :=
  fresh_array_reads_zero lp64 malloc_ok [.string "b", num 3, num 5]
    ⟨'b', 2, [3, 5], 2, List.replicate 2 0⟩ (by decide) (by decide) [2, 4] rfl
    (by unfold in_range; decide)

/-- Claim C17 (amended): the recorded buffer size.  For every array that
`array.array` returns, `datasize` is the `int` value of
`totalsize * typebits / 8 + 1` and the buffer has `datasize` bytes; when the bit
size `total * typebits` (`total` the product of the extents) fits an `int`,
`datasize = floor(total * typebits / 8) + 1`: that is `total * w + 1` for an
encoding of `w` bytes and `floor(total / 8) + 1` for the bit-packed encoding,
which is `ceil(total / 8)` when `total` is not a multiple of 8. -/
theorem datasize_formula (P : Platform) (malloc : Malloc) (args : List LuaValue)
    (a : luaA_Array) (h : l_array P malloc args = .ok a) :
    a.datasize
        = wrapInt (Int.tdiv (wrapInt (wrapInt a.dims.prod * type_size_in_bits P a.type)) 8 + 1)
      ∧ a.data.length = size_t a.datasize
      ∧ (a.dims.prod * type_size_in_bits P a.type ≤ INT_MAX →
        a.datasize = a.dims.prod * type_size_in_bits P a.type / 8 + 1
          ∧ (a.data.length : Int) = a.datasize
          ∧ (∀ T, TYPESWITCH a.type = some T → a.datasize = a.dims.prod * sizeof P T + 1)
          ∧ (a.type = 'B' → a.datasize = a.dims.prod + 1)
          ∧ (a.type = 'b' → a.datasize = a.dims.prod / 8 + 1)
          ∧ (a.type = 'b' → a.dims.prod % 8 ≠ 0 → a.datasize = (a.dims.prod + 7) / 8)) := by
  obtain ⟨hsize, hdata, _⟩ := l_array_fields P malloc args a h
  refine ⟨hsize, by rw [hdata, List.length_replicate], fun hfit => ?_⟩
  have hv := l_array_valid P malloc args a h hfit
  obtain ⟨_, hnd⟩ := l_array_shape P malloc args a h
  have hprod : spec_stride a.dims a.ndims = a.dims.prod := by
    rw [← hnd]
    exact spec_stride_eq_prod a.dims
  have hds := hv.datasize_eq
  rw [hprod] at hds
  refine ⟨hds, hv.data_len, fun T hT => ?_, fun hB => ?_, fun hb => ?_, fun hb hne => ?_⟩
  · have := buffer_typed hv hT
    rw [hv.data_len, hprod] at this
    exact this
  · have := buffer_byte_bool hv hB
    rw [hv.data_len, hprod] at this
    exact this
  · have := buffer_bit_bool hv hb
    rw [hv.data_len, hprod] at this
    exact this
  · have := buffer_bit_bool hv hb
    rw [hv.data_len, hprod] at this
    rw [this]
    omega

/-- Claim C17 as stated fails: `array.array('b', 3)` returns an array with
`datasize` 1, while `ceil(3 * 1 / 8) + 1` is 2. -/
theorem datasize_formula_counterexample :
    l_array lp64 malloc_ok [.string "b", num 3] = .ok ⟨'b', 1, [3], 1, [0]⟩
      ∧ type_size_in_bits lp64 'b' = 1
      ∧ spec_datasize_ceil 3 1 = 2
      ∧ (⟨'b', 1, [3], 1, [0]⟩ : luaA_Array).datasize ≠ spec_datasize_ceil 3 1 := by
  decide

theorem datasize_formula_witness :
    (⟨'s', 2, [3, 5], 31, List.replicate 31 0⟩ : luaA_Array).datasize
      = ([3, 5] : List Int).prod * type_size_in_bits lp64 's' / 8 + 1 :=
  ((datasize_formula lp64 malloc_ok [.string "s", num 3, num 5]
    ⟨'s', 2, [3, 5], 31, List.replicate 31 0⟩ (by decide)).2.2 (by decide)).1


/-! ## The odometer of `lm_array_shiftcopy` -/

/-- From a location inside the shape the odometer stops after visiting the
locations with the following linear offsets, in order. -/
theorem odometer_spec (a : luaA_Array) (hpos : ∀ i, i < a.ndims → 1 ≤ a.dims.getD i 0)
    (hint : ∀ i, i < a.ndims → a.dims.getD i 0 ≤ INT_MAX) :
    ∀ (fuel : Nat) (location : List Int), a.ndims ≤ location.length →
      in_range a.dims location a.ndims →
      spec_stride a.dims a.ndims - spec_linear_offset a.dims location a.ndims ≤ fuel →
      ∃ visits, odometer a fuel location = some visits
        ∧ (visits.length : Int)
          = spec_stride a.dims a.ndims - spec_linear_offset a.dims location a.ndims
        ∧ visits.head? = some location
        ∧ ∀ k, k < visits.length → in_range a.dims (visits.getD k []) a.ndims
          ∧ spec_linear_offset a.dims (visits.getD k []) a.ndims
            = spec_linear_offset a.dims location a.ndims + k := by
  intro fuel
  induction fuel with
  | zero =>
    intro location _ hin hfuel
    have := spec_linear_offset_bounds a.dims location a.ndims hpos hin
    simp only [Nat.cast_zero] at hfuel
    omega
  | succ fuel ih =>
    intro location hlen hin hfuel
    have hb := spec_linear_offset_bounds a.dims location a.ndims hpos hin
    have hadv := advance_spec a location hpos hint hlen hin a.ndims 0 (by omega)
      (fun i hi => by omega)
    cases h : advance a location a.ndims 0 with
    | none =>
      rw [h] at hadv
      simp only at hadv
      refine ⟨[location], by simp only [odometer, h], ?_, rfl, ?_⟩
      · simp only [List.length_singleton, Nat.cast_one]
        omega
      · intro k hk
        simp only [List.length_singleton, Nat.lt_one_iff] at hk
        subst hk
        simp only [List.getD_cons_zero, Nat.cast_zero, add_zero]
        exact ⟨hin, trivial⟩
    | some location3 =>
      rw [h] at hadv
      simp only at hadv
      obtain ⟨hl3, hin3, hoff3⟩ := hadv
      have hb3 := spec_linear_offset_bounds a.dims location3 a.ndims hpos hin3
      obtain ⟨rest, hrest, hrl, _, hrk⟩ := ih location3 (by omega) hin3
        (by push_cast at hfuel; omega)
      refine ⟨location :: rest, by simp only [odometer, h, hrest, Option.map_some'], ?_, rfl, ?_⟩
      · simp only [List.length_cons]
        push_cast
        omega
      · intro k hk
        cases k with
        | zero =>
          simp only [List.getD_cons_zero, Nat.cast_zero, add_zero]
          exact ⟨hin, trivial⟩
        | succ k =>
          simp only [List.length_cons, Nat.add_lt_add_iff_right] at hk
          simp only [List.getD_cons_succ]
          obtain ⟨h1, h2⟩ := hrk k hk
          refine ⟨h1, ?_⟩
          rw [h2, hoff3]
          push_cast
          ring

/-- The outcome of the loop with the recorded locations is the outcome of the loop. -/
theorem shiftcopy_trace_outcome (P : Platform) (a : luaA_Array) (shifts : List Int) :
    ∀ (fuel : Nat) (a2 : luaA_Array) (location : List Int),
      (shiftcopy_trace P a shifts fuel a2 location).1
        = shiftcopy_loop P a shifts fuel a2 location := by
  intro fuel
  induction fuel with
  | zero => intro a2 location; rfl
  | succ fuel ih =>
    intro a2 location
    simp only [shiftcopy_trace, shiftcopy_loop]
    split
    · rfl
    · split
      · rfl
      · split
        · rfl
        · split
          · rfl
          · exact ih _ _

theorem lm_array_shiftcopy_trace_outcome (P : Platform) (malloc : Malloc) (fuel : Nat)
    (a : luaA_Array) (args : List LuaValue) :
    (lm_array_shiftcopy_trace P malloc fuel a args).1 = lm_array_shiftcopy P malloc fuel a args := by
  unfold lm_array_shiftcopy_trace lm_array_shiftcopy
  split
  · rfl
  · split
    · rfl
    · exact shiftcopy_trace_outcome P a _ fuel _ _

/-- When the `while` loop of `lm_array_shiftcopy` returns, the locations of its
iterations are those of the stepping alone. -/
theorem shiftcopy_trace_visits (P : Platform) (a : luaA_Array) (shifts : List Int) :
    ∀ (fuel : Nat) (a2 : luaA_Array) (location : List Int) (a3 s : luaA_Array),
      shiftcopy_loop P a shifts fuel a2 location = .returned a3 s →
      odometer a fuel location = some (shiftcopy_trace P a shifts fuel a2 location).2 := by
  intro fuel
  induction fuel with
  | zero =>
    intro a2 location a3 s h
    simp only [shiftcopy_loop] at h
    cases h
  | succ fuel ih =>
    intro a2 location a3 s h
    simp only [shiftcopy_loop] at h
    simp only [shiftcopy_trace, odometer]
    split at h
    · cases h
    · split at h
      · cases h
      · split at h
        · cases h
        · split at h
          · rename_i hadv
            simp only [hadv]
          · rename_i location3 hadv
            simp only [hadv]
            rw [ih _ _ _ _ h]
            rfl

theorem lm_array_shiftcopy_trace_visits (P : Platform) (malloc : Malloc) (fuel : Nat)
    (a : luaA_Array) (args : List LuaValue) (a2 s : luaA_Array)
    (h : lm_array_shiftcopy P malloc fuel a args = .returned a2 s) :
    odometer a fuel (List.replicate MAX_DIMS 0)
      = some (lm_array_shiftcopy_trace P malloc fuel a args).2 := by
  unfold lm_array_shiftcopy at h
  unfold lm_array_shiftcopy_trace
  cases hsh : shifts_loop P args a.ndims 0 with
  | error e =>
    rw [hsh] at h
    cases h
  | ok shifts =>
    rw [hsh] at h
    cases hg : malloc (size_t a.datasize) with
    | none =>
      simp only [hg] at h
      cases h
    | some g =>
      simp only [hg] at h
      exact shiftcopy_trace_visits P a shifts fuel _ _ a2 s h

theorem in_range_zero (a : luaA_Array) (hpos : ∀ i, i < a.ndims → 1 ≤ a.dims.getD i 0)
    (n : Nat) : in_range a.dims (List.replicate n 0) a.ndims := by
  intro i hi
  rw [replicate_zero_getD]
  have := hpos i hi
  omega

/-- Claim C18 (amended): the odometer of `shiftcopy`.  The outcome of the
function with the recorded locations is that of `lm_array_shiftcopy`.  For a
well-formed array, non-negative shifts small enough that `location + shift`
fits an `int`, an allocator that succeeds and a step budget of at least
`total` iterations (`total` the product of the extents), the `while` loop stops
and the call returns; the loop has then made exactly `total` iterations, the
first at the all-zero location; the `k`-th iteration (counted from 0) is at a
coordinate tuple inside the shape with linear offset `k`, the first dimension
varying fastest; and every coordinate tuple inside the shape is the location
of exactly one iteration. -/
theorem odometer_enumerates :
    (∀ (P : Platform) (malloc : Malloc) (fuel : Nat) (a : luaA_Array) (args : List LuaValue),
      (lm_array_shiftcopy_trace P malloc fuel a args).1
        = lm_array_shiftcopy P malloc fuel a args)
    ∧ ∀ (P : Platform) (malloc : Malloc) (a : luaA_Array), Valid P a →
      ∀ s : List Int, s.length = a.ndims →
      (∀ i, i < a.ndims → 0 ≤ s.getD i 0 ∧ s.getD i 0 + a.dims.getD i 0 - 1 ≤ INT_MAX) →
      (malloc (size_t a.datasize)).isSome = true →
      ∀ fuel : Nat, spec_stride a.dims a.ndims ≤ fuel →
      ∃ a2 visits, lm_array_shiftcopy_trace P malloc fuel a (s.map num) = (.returned a2 a, visits)
        ∧ (visits.length : Int) = spec_stride a.dims a.ndims
        ∧ visits.head? = some (List.replicate MAX_DIMS 0)
        ∧ (∀ k, k < visits.length → in_range a.dims (visits.getD k []) a.ndims
          ∧ spec_linear_offset a.dims (visits.getD k []) a.ndims = k)
        ∧ ∀ c, in_range a.dims c a.ndims →
          ∃ k, k < visits.length
            ∧ (∀ i, i < a.ndims → (visits.getD k []).getD i 0 = c.getD i 0)
            ∧ ∀ k2, k2 < visits.length →
              (∀ i, i < a.ndims → (visits.getD k2 []).getD i 0 = c.getD i 0) → k2 = k := by
  refine ⟨lm_array_shiftcopy_trace_outcome, ?_⟩
  intro P malloc a hva s hlen hs hm fuel hfuel
  obtain ⟨a2, hret, _⟩ := lm_array_shiftcopy_elements P malloc a hva s hlen hs hm fuel hfuel
  have hod := lm_array_shiftcopy_trace_visits P malloc fuel a (s.map num) a2 a hret
  have hout := lm_array_shiftcopy_trace_outcome P malloc fuel a (s.map num)
  rw [hret] at hout
  generalize lm_array_shiftcopy_trace P malloc fuel a (s.map num) = tr at hod hout
  obtain ⟨out, visits⟩ := tr
  simp only at hod hout
  subst hout
  have hpos := hva.dims_pos
  have hz := in_range_zero a hpos MAX_DIMS
  have hoff : spec_linear_offset a.dims (List.replicate MAX_DIMS 0) a.ndims = 0 :=
    offset_all_zero a.dims _ a.ndims (fun i _ => replicate_zero_getD MAX_DIMS i)
  obtain ⟨visits2, hv, hl, hh, hk⟩ := odometer_spec a hpos hva.dims_int fuel
    (List.replicate MAX_DIMS 0) (by rw [List.length_replicate]; exact hva.ndims_le) hz
    (by rw [hoff]; omega)
  rw [hod] at hv
  cases hv
  rw [hoff] at hl hk
  simp only [sub_zero, zero_add] at hl hk
  refine ⟨a2, visits, rfl, hl, hh, hk, fun c hc => ?_⟩
  obtain ⟨h0, h1⟩ := spec_linear_offset_bounds a.dims c a.ndims hpos hc
  have hkc : (spec_linear_offset a.dims c a.ndims).toNat < visits.length := by omega
  obtain ⟨hin, hoffk⟩ := hk _ hkc
  refine ⟨(spec_linear_offset a.dims c a.ndims).toNat, hkc, ?_, ?_⟩
  · exact spec_linear_offset_inj a.dims _ c a.ndims hpos hin hc (by rw [hoffk]; omega)
  · intro k2 hk2 hsame
    obtain ⟨_, hoff2⟩ := hk k2 hk2
    rw [spec_linear_offset_congr a.dims _ c a.ndims hsame] at hoff2
    omega

/-- Claim C18 as stated fails, in two ways.  On the 3-element `c` array the
loop of `shiftcopy(-1)` ends in its first iteration, at the all-zero location,
with a store outside the new buffer.  And `array.array('c', 65536, 65536)`
returns an array of `2 ^ 32` elements with a buffer of 1 byte, on which the
loop of `shiftcopy(0, 0)` ends in its second iteration with a read outside the
buffer.  Neither loop visits every coordinate tuple of the shape. -/
theorem odometer_enumerates_counterexample :
    lm_array_shiftcopy_trace lp64 malloc_ok 5 ⟨'c', 1, [3], 4, [1, 2, 3, 0]⟩ [num (-1)]
        = (.undefined, [List.replicate MAX_DIMS 0])
      ∧ l_array lp64 malloc_ok [.string "c", num 65536, num 65536]
        = .ok ⟨'c', 2, [65536, 65536], 1, [0]⟩
      ∧ (lm_array_shiftcopy_trace lp64 malloc_ok 5 ⟨'c', 2, [65536, 65536], 1, [0]⟩
          [num 0, num 0]).1 = .undefined
      ∧ (lm_array_shiftcopy_trace lp64 malloc_ok 5 ⟨'c', 2, [65536, 65536], 1, [0]⟩
          [num 0, num 0]).2.length = 2 := by
  decide

theorem odometer_enumerates_witness :
    ∃ a2 visits, lm_array_shiftcopy_trace lp64 malloc_ok 6
        ⟨'c', 2, [2, 3], 7, List.replicate 7 0⟩ [num 1, num 0] = (.returned a2
          ⟨'c', 2, [2, 3], 7, List.replicate 7 0⟩, visits)
      ∧ (visits.length : Int) = spec_stride [2, 3] 2 :=
  (odometer_enumerates.2 lp64 malloc_ok ⟨'c', 2, [2, 3], 7, List.replicate 7 0⟩ (by decide)
    [1, 0] rfl (by decide) rfl 6 (by decide)).imp
    (fun _ h => h.imp (fun _ h2 => ⟨h2.1, h2.2.1⟩))

/-! ## Buffer bounds -/

/-- The coordinates that the loop of `luaA_checkcoords` accepts lie inside the shape. -/
theorem checkcoords_loop_ok (P : Platform) (a : luaA_Array) (args : List LuaValue)
    (hint : ∀ i, i < a.ndims → a.dims.getD i 0 ≤ INT_MAX) :
    ∀ (n i : Nat) (coords : List Int), i + n ≤ a.ndims →
      checkcoords_loop P a args n i = .ok coords →
      coords.length = n
        ∧ ∀ k, k < n → 0 ≤ coords.getD k 0 ∧ coords.getD k 0 < a.dims.getD (i + k) 0 := by
  intro n
  induction n with
  | zero =>
    intro i coords _ h
    simp only [checkcoords_loop, Except.ok.injEq] at h
    subst h
    exact ⟨rfl, fun k hk => by omega⟩
  | succ n ih =>
    intro i coords hle h
    simp only [checkcoords_loop] at h
    split at h
    · cases h
    · rename_i x hx
      try simp only at h
      split at h
      · cases h
      · rename_i hc
        split at h
        · cases h
        · rename_i rest hrest
          simp only [Except.ok.injEq] at h
          subst h
          obtain ⟨hl, hk⟩ := ih (i + 1) rest (by omega) hrest
          have hi := hint i (by omega)
          unfold INT_MAX at hi
          have hw : wrapInt (double_to_int x - 1) = double_to_int x - 1 :=
            wrapInt_of_range (by omega) (by omega)
          refine ⟨by simp only [List.length_cons, hl], fun k hkn => ?_⟩
          cases k with
          | zero =>
            simp only [List.getD_cons_zero, add_zero]
            rw [hw]
            omega
          | succ k =>
            simp only [List.getD_cons_succ]
            have := hk k (by omega)
            rw [show i + (k + 1) = i + 1 + k by omega]
            exact this

/-- The coordinates that `luaA_checkcoords` accepts lie inside the shape, and
their linear offset is below the element count. -/
theorem luaA_checkcoords_ok {P : Platform} {a : luaA_Array} (hv : Valid P a)
    {args : List LuaValue} {coords : List Int} (h : luaA_checkcoords P a args = .ok coords) :
    coords.length = a.ndims ∧ in_range a.dims coords a.ndims
      ∧ calculate_index a coords = spec_linear_offset a.dims coords a.ndims
      ∧ 0 ≤ calculate_index a coords
      ∧ calculate_index a coords < spec_stride a.dims a.ndims := by
  obtain ⟨hl, hk⟩ := checkcoords_loop_ok P a args hv.dims_int a.ndims 0 coords (by omega) h
  have hin : in_range a.dims coords a.ndims := by
    intro k hkn
    have := hk k hkn
    rw [zero_add] at this
    exact this
  have hidx := calculate_index_in_range hv hin
  have hb := spec_linear_offset_bounds a.dims coords a.ndims hv.dims_pos hin
  rw [hidx]
  exact ⟨hl, hin, rfl, hb.1, hb.2⟩

theorem insert_some {P : Platform} {a : luaA_Array} (hv : Valid P a) {i : Int} (h0 : 0 ≤ i)
    (h1 : i < spec_stride a.dims a.ndims) (e : luaA_ArrayElement) :
    ∃ a2, insert_element P a i e = some a2 := by
  obtain ⟨d, hins, _, _⟩ := insert_extract_same hv h0 h1 e
  exact ⟨_, hins⟩

theorem lm_array_get_defined {P : Platform} {a : luaA_Array} (hv : Valid P a)
    (args : List LuaValue) : lm_array_get P a args ≠ .undefined := by
  unfold lm_array_get
  split
  · intro h; cases h
  · split
    · intro h; cases h
    · rename_i coords hc
      obtain ⟨_, _, _, h0, h1⟩ := luaA_checkcoords_ok hv hc
      obtain ⟨e, he⟩ := extract_some hv h0 h1
      simp only [he]
      intro h
      cases h

theorem lm_array_set_defined {P : Platform} {a : luaA_Array} (hv : Valid P a)
    (args : List LuaValue) : lm_array_set P a args ≠ .undefined := by
  unfold lm_array_set
  split
  · intro h; cases h
  · split
    · intro h; cases h
    · rename_i coords hc
      obtain ⟨_, _, _, h0, h1⟩ := luaA_checkcoords_ok hv hc
      simp only
      split
      · intro h; cases h
      · rename_i e he
        obtain ⟨a2, h2⟩ := insert_some hv h0 h1 e
        simp only [h2]
        intro h
        cases h

theorem lm_array_clear_defined {P : Platform} {a : luaA_Array} (hv : Valid P a)
    (args : List LuaValue) : lm_array_clear P a args ≠ .undefined := by
  unfold lm_array_clear
  split
  · split
    · intro h; cases h
    · rename_i c hc
      have hn := valid_stride_toNat hv
      obtain ⟨a2, h2, _⟩ := clear_loop_spec c (calculate_total_size a).toNat 0 a hv (le_refl 0)
        (by rw [hn, zero_add])
      simp only [h2]
      intro h
      cases h
  · rw [bzero_valid hv]
    intro h
    cases h

/-- Claim C20: buffer bounds.  An array that `array.array` returns, the bit
size `total * typebits` within `int` (no overflow in the size computation),
satisfies the invariant `Valid`; and for every array satisfying it: the
coordinates that the bounds check accepts have a linear offset `i` with
`0 ≤ i < total`, `total` the product of the extents; for each such `i` the
bytes touched by `extract_element` and `insert_element` lie in `[0, datasize)`,
the size of the buffer: byte `i / 8` for the bit-packed encoding, byte `i`
for `B`, and bytes `[i * w, i * w + w)` for an encoding of `w` bytes; both
functions stay inside the buffer; and `get`, `set` and `clear` (fill) never end
in an access outside the buffer, whatever their arguments. -/
theorem buffer_bounds (P : Platform) :
    (∀ malloc args a, l_array P malloc args = .ok a →
      a.dims.prod * type_size_in_bits P a.type ≤ INT_MAX → Valid P a)
    ∧ ∀ a, Valid P a →
      (a.data.length : Int) = a.datasize
      ∧ (∀ args coords, luaA_checkcoords P a args = .ok coords →
        0 ≤ calculate_index a coords ∧ calculate_index a coords < spec_stride a.dims a.ndims)
      ∧ (∀ i, 0 ≤ i → i < spec_stride a.dims a.ndims →
        (a.type = 'b' → Int.tdiv i 8 = i / 8 ∧ 0 ≤ i / 8 ∧ i / 8 < a.datasize)
        ∧ (a.type = 'B' → i + 1 ≤ a.datasize)
        ∧ (∀ T, TYPESWITCH a.type = some T →
          0 ≤ i * sizeof P T ∧ i * sizeof P T + sizeof P T ≤ a.datasize)
        ∧ (∃ e, extract_element P a i = some e)
        ∧ ∀ e, ∃ a2, insert_element P a i e = some a2)
      ∧ (∀ args, lm_array_get P a args ≠ .undefined)
      ∧ (∀ args, lm_array_set P a args ≠ .undefined)
      ∧ ∀ args, lm_array_clear P a args ≠ .undefined := by
  refine ⟨fun malloc args a h hfit => l_array_valid P malloc args a h hfit, fun a hv => ?_⟩
  refine ⟨hv.data_len, fun args coords hc => ?_, fun i h0 h1 => ?_, lm_array_get_defined hv,
    lm_array_set_defined hv, lm_array_clear_defined hv⟩
  · obtain ⟨_, _, _, h0, h1⟩ := luaA_checkcoords_ok hv hc
    exact ⟨h0, h1⟩
  · refine ⟨fun hb => ?_, fun hB => ?_, fun T hT => ?_, extract_some hv h0 h1,
      fun e => insert_some hv h0 h1 e⟩
    · have := buffer_bit_bool hv hb
      rw [hv.data_len] at this
      refine ⟨(tdiv_tmod_nonneg h0).1, by omega, by omega⟩
    · have := buffer_byte_bool hv hB
      rw [hv.data_len] at this
      omega
    · have := buffer_typed hv hT
      rw [hv.data_len] at this
      have hw : (0 : Int) ≤ (sizeof P T : Int) := Int.natCast_nonneg _
      constructor
      · exact mul_nonneg h0 hw
      · rw [this]
        nlinarith

theorem buffer_bounds_witness :
    Valid lp64 ⟨'s', 2, [3, 5], 31, List.replicate 31 0⟩ :=
  (buffer_bounds lp64).1 malloc_ok [.string "s", num 3, num 5]
    ⟨'s', 2, [3, 5], 31, List.replicate 31 0⟩ (by decide) (by decide)

end DenseArrays
